import Mathlib

/-!
# Verification of the CPM scheduling kernel of `gantt-chart-pro`

This file is a shallow embedding, in Lean 4, of the scheduling kernel found in
`src/app/page.tsx` of the repository: the precedence-token parser
(`parseLinkToken`), the scenario re-solve (`simulateScenario`, comprising the
forward Kahn pass, the cycle fallback, the backward pass, and the float
derivation), and the scenario-library save handler (`handleSaveScenario`).

Modelling conventions (JavaScript → Lean):
* JS `number` values that are known finite are modelled as `ℚ` (the kernel works
  in milliseconds since the epoch; durations and lags are day counts).  A JS
  value that can be `NaN`/`undefined` at a given field is modelled as
  `Option ℚ`, `none` standing for the non-finite case, so that every
  `Number.isFinite` test in the source becomes an `Option.isSome` test.
  Idealisation: JS numbers are IEEE doubles; we use exact rationals, so
  overflow to `Infinity` (strings of ≥ 309 digits, dates beyond ±2⁵³ ms) is not
  modelled.
* Date-valued row fields always originate from `coerceDate`/`toISODate`, which
  emit date-only ISO strings; such a string parses to UTC midnight, i.e. a whole
  number of days since the epoch.  Row date fields are therefore modelled as
  `Option ℤ` (days); the kernel converts them to milliseconds on entry, and
  `toISODate` becomes flooring milliseconds to a day count.
* `Date.now()` (impure) becomes an explicit parameter `now : ℚ`.
* JS `Map` (insertion-ordered, set-replaces-in-place) keyed by activity id is
  modelled as an id-keyed `List` with an update-or-append insertion for the
  construction (`insertTask`), and as plain functions `ℚ → _` for the `pending`
  and `indegree` maps, which the source never iterates.
* `Array.prototype.sort` with a numeric comparator is stable (ES2019); it is
  modelled by a stable insertion sort on the current array order.
-/

namespace Gantt

/- The Batteries rational arithmetic is `@[irreducible]`, which blocks
`decide`-style evaluation of concrete runs of the embedded kernel; restore
definitional transparency for it (the kernel checker is unaffected). -/
set_option allowUnsafeReducibility true in
attribute [semireducible] Rat.mul Rat.add Rat.sub Rat.inv Rat.neg Rat.div

/-- `DAY_MS` of the source: milliseconds per day. -/
def Day : ℚ := 24 * 60 * 60 * 1000

/-- JS `Math.round` (round half toward +∞) on an exact rational. -/
def jsRound (q : ℚ) : ℤ := ⌊q + 1/2⌋

/-- The day count emitted by `toISODate`: `new Date(ms).toISOString().slice(0,10)`
renders the UTC calendar date containing `ms`, i.e. `⌊ms / DAY_MS⌋` days. -/
def dayFloor (ms : ℚ) : ℤ := ⌊ms / Day⌋

/-- Relationship type as a closed enumeration (the four codes the kernel
distinguishes after `normalizeRelType`). -/
inductive RelKind : Type where
  | FS | SS | FF | SF
deriving DecidableEq, Repr

/-- `normalizeRelType` of the source: `String(type || "FS").toUpperCase()`
matched against the four codes, defaulting to FS.  An absent (`undefined`)
`RelType` and the empty string are both falsy in JS and collapse to `"FS"`;
the `Option`-free `String` field below uses `""` for the absent case.
`toUpperCase` is modelled on ASCII (the kernel only compares against
ASCII-only codes). -/
def normalizeRelType (type : String) : RelKind :=
  let t := (if type = "" then "FS" else type).toUpper
  if t = "FS" then .FS
  else if t = "SS" then .SS
  else if t = "FF" then .FF
  else if t = "SF" then .SF
  else .FS

/-- A raw relationship record, as produced by `readRelationshipSheet` or
`parseLinkToken` and consumed by `simulateScenario`.
`PredID`/`SuccID` are the JS numbers of the record (`none` = not finite);
`Lag_d` is `none` when `Number(rel.Lag_d)` is `NaN` (each use site applies
`Number(rel.Lag_d) || 0`, i.e. `Option.getD 0`). -/
structure Edge : Type where
  PredID : Option ℚ
  SuccID : Option ℚ
  RelType : String
  Lag_d : Option ℚ
deriving DecidableEq, Repr

/-- An edge kept by `simulateScenario`'s filter (both endpoints resolve in the
activity map), with `RelType` normalised; this is the
`edges = rels.filter(...).map(rel => ({...rel, RelType: normalizeRelType(...)}))`
list of the source. -/
structure REdge : Type where
  pred : ℚ
  succ : ℚ
  rel : RelKind
  Lag_d : Option ℚ
deriving DecidableEq, Repr

/-- An input activity record as `simulateScenario` receives it (the
column-normalised shape produced by `normalizeRow`).  Fields the kernel never
reads (task name, milestone flag, percent complete, WBS level, …) are carried
opaquely in `extra`, which the output spread `{...row, …}` preserves. -/
structure Row : Type where
  /-- `Number(row.ActivityID)`; `none` = not finite. -/
  ActivityID : Option ℚ
  /-- Baseline early start, in days since the epoch (`none` = absent/unparseable). -/
  ES : Option ℤ
  EF : Option ℤ
  LS : Option ℤ
  LF : Option ℤ
  /-- `Number(row.DurDays)`; `none` = absent or unparseable (`NaN`). -/
  DurDays : Option ℚ
  /-- Stored total float in days.  (A present-but-non-numeric field behaves, for
  the kernel, like the numeric cases below: the value is overwritten by the
  float pass before any read.) -/
  TotalFloat_d : Option ℚ
  FreeFloat_d : Option ℚ
  /-- All further fields of the record, untouched by the kernel. -/
  extra : String
deriving DecidableEq, Repr

/-- `deriveDurationDays` of the source: explicit non-negative duration wins,
else `max(0, round((EF−ES)/day))` when both baseline dates parse, else 0. -/
def deriveDurationDays (row : Row) : ℚ :=
  match row.DurDays with
  | some d => if 0 ≤ d then d else deriveFromDates row
  | none => deriveFromDates row
where
  /-- the `es && ef` fallback of `deriveDurationDays` -/
  deriveFromDates (row : Row) : ℚ :=
    match row.ES, row.EF with
    | some es, some ef => max 0 (jsRound (((ef : ℚ) * Day - (es : ℚ) * Day) / Day))
    | _, _ => 0

/-- The working record of one activity inside `simulateScenario`, after the
`idMap.forEach` defaulting pass (lines 233–237) has made `baseES`, `duration`
and `baseEF` finite.  `ES`/`EF`/`LS`/`LF` start `undefined` (`none`) and are
filled by the passes.  (The source also stores `row`, `idx`, and initial
`TotalFloat_d`/`FreeFloat_d` values on the task; `row`/`idx` are never read
again, and both floats are overwritten by the float pass before any read, so
the initial floats are modelled by their `?? 0` defaults.) -/
structure Task : Type where
  id : ℚ
  duration : ℚ
  /-- baseline ES in ms (defaulted to `defaultStart` when absent) -/
  baseES : ℚ
  /-- baseline EF in ms (defaulted to `baseES + duration*DAY_MS` when absent) -/
  baseEF : ℚ
  baseLS : Option ℚ
  baseLF : Option ℚ
  ES : Option ℚ := none
  EF : Option ℚ := none
  LS : Option ℚ := none
  LF : Option ℚ := none
  TotalFloat_d : ℚ := 0
  FreeFloat_d : ℚ := 0
deriving DecidableEq, Repr

/-- Pre-defaulting view of a task (lines 202–220): baseline dates may be
absent. -/
structure Task0 : Type where
  id : ℚ
  duration : ℚ
  baseES : Option ℚ
  baseEF : Option ℚ
  baseLS : Option ℚ
  baseLF : Option ℚ
deriving DecidableEq, Repr

/-- Task construction from one row (the body of `rows.map` at line 202),
for a row whose `Number(row.ActivityID)` is finite. -/
def mkTask0 (row : Row) (id : ℚ) : Task0 :=
  { id := id
    duration := deriveDurationDays row
    baseES := row.ES.map (fun d => (d : ℚ) * Day)
    baseEF := row.EF.map (fun d => (d : ℚ) * Day)
    baseLS := row.LS.map (fun d => (d : ℚ) * Day)
    baseLF := row.LF.map (fun d => (d : ℚ) * Day) }

/-- JS-`Map.set` on an id-keyed list: replace in place if the key exists
(keeping its insertion position), else append. -/
def insertTask (m : List Task0) (t : Task0) : List Task0 :=
  if m.any (fun u => u.id = t.id) then
    m.map (fun u => if u.id = t.id then t else u)
  else m ++ [t]

/-- The `idMap` of `simulateScenario` (lines 221–224): id-keyed, insertion
ordered, last row with a given finite id wins. -/
def idMapOf (rows : List Row) : List Task0 :=
  rows.foldl (fun m row =>
    match row.ActivityID with
    | some id => insertTask m (mkTask0 row id)
    | none => m) []

/-- The `defaultStart` computation (lines 226–232) up to the `Date.now()`
fallback: the minimum finite `baseES` over the activity map, if any. -/
def minBase (m : List Task0) : Option ℚ :=
  m.foldl (fun acc t =>
    match t.baseES with
    | some b => some (match acc with | some a => min a b | none => b)
    | none => acc) none

/-- The `idMap.forEach` defaulting pass (lines 233–237): absent `baseES`
becomes `defaultStart`, absent `baseEF` becomes `baseES + duration*DAY_MS`.
(`task.duration` is always finite here — `deriveDurationDays` is total — so the
`!Number.isFinite(task.duration)` reset to 0 never fires.) -/
def defaultTasks (m : List Task0) (defaultStart : ℚ) : List Task :=
  m.map (fun t =>
    let baseES := t.baseES.getD defaultStart
    { id := t.id
      duration := t.duration
      baseES := baseES
      baseEF := t.baseEF.getD (baseES + t.duration * Day)
      baseLS := t.baseLS
      baseLF := t.baseLF })

/-- The scenario impact: `{activityId, deltaDays}` with `Number` coercions
(`none` = not finite). -/
structure Impact : Type where
  activityId : Option ℚ
  deltaDays : Option ℚ
deriving DecidableEq, Repr

/-- Impact application (lines 238–244): the hit activity's working duration is
adjusted by `Number(impact.deltaDays) || 0` and clamped to `≥ 0`. -/
def applyImpact (m : List Task) (impact : Option Impact) : List Task :=
  match impact with
  | some imp =>
    match imp.activityId with
    | some aid =>
      m.map (fun t =>
        if t.id = aid then { t with duration := max 0 (t.duration + imp.deltaDays.getD 0) }
        else t)
    | none => m
  | none => m

/-- The edge filter and normalisation (lines 245–247): keep edges whose two
endpoint ids are in the activity map, normalising `RelType`. -/
def filterEdges (ids : List ℚ) (rels : List Edge) : List REdge :=
  (rels.filter (fun rel =>
      (match rel.PredID with | some p => ids.contains p | none => false) &&
      (match rel.SuccID with | some s => ids.contains s | none => false))).filterMap
    (fun rel =>
      match rel.PredID, rel.SuccID with
      | some p, some s => some ⟨p, s, normalizeRelType rel.RelType, rel.Lag_d⟩
      | _, _ => none)

/-- `succMap.get(id) || []`: the outgoing edges of `id` in edge-list order
(`push` appends, so the per-key list is the filtered list restricted to the
key). -/
def succsOf (edges : List REdge) (id : ℚ) : List REdge :=
  edges.filter (fun rel => rel.pred = id)

/-- The initial in-degree map (lines 249, 255–258): for each activity id the
number of kept edges entering it. -/
def indegInit (edges : List REdge) : ℚ → ℤ :=
  fun id => ((edges.filter (fun rel => rel.succ = id)).length : ℤ)

/-- `idMap`/task-list lookup by id (the first — and, by construction, only —
task with the given id). -/
def lookupTask (tasks : List Task) (id : ℚ) : Option Task :=
  tasks.find? (fun t => t.id = id)

/-- Sort key `(a.baseES ?? 0)` used by every `queue.sort`; the queue holds the
task objects, modelled here by their ids. -/
def baseESOf (tasks : List Task) (id : ℚ) : ℚ :=
  match lookupTask tasks id with
  | some t => t.baseES
  | none => 0

/-- Stable insertion of an id into a (sorted) id list: `x` goes after every
entry whose key is `≤` its own, as a stable ascending sort places it. -/
def insertByKey (key : ℚ → ℚ) (x : ℚ) : List ℚ → List ℚ
  | [] => [x]
  | y :: ys => if key x < key y then x :: y :: ys else y :: insertByKey key x ys

/-- Stable ascending sort by `key` (the unique stable sorted permutation, which
is what `Array.prototype.sort` with comparator `(a,b) => key a - key b`
produces). -/
def sortByKey (key : ℚ → ℚ) (l : List ℚ) : List ℚ :=
  l.foldl (fun acc x => insertByKey key x acc) []

/-- State of the forward (Kahn) pass: the mutable task store, the working
in-degree and pending-constraint maps, the ready queue, and the `topo` list of
popped ids. -/
structure FwdState : Type where
  tasks : List Task
  indeg : ℚ → ℤ
  pending : ℚ → Option ℚ
  queue : List ℚ
  topo : List ℚ

/-- The `needed` constraint of lines 276–284: what one outgoing edge imposes
on its successor's early start, computed from the popped task's fresh
`ES`/`EF` (`es`, `ef`), the lag, and — for FF/SF — the successor's duration. -/
def neededOf (es ef : ℚ) (succ : Task) (rel : REdge) : ℚ :=
  let lagMs := rel.Lag_d.getD 0 * Day
  match rel.rel with
  | .FS => ef + lagMs
  | .SS => es + lagMs
  | .FF => ef + lagMs - succ.duration * Day
  | .SF => es + lagMs - succ.duration * Day

/-- Processing of one outgoing edge of the just-popped task (lines 273–293):
fold the `needed` constraint into `pending`, decrement the successor's
in-degree, and enqueue (with a stable re-sort by `baseES`) when the in-degree
reaches exactly 0. -/
def processEdge (es ef : ℚ) (st : FwdState) (rel : REdge) : FwdState :=
  match lookupTask st.tasks rel.succ with
  | none => st
  | some succ =>
    let needed : ℚ := neededOf es ef succ rel
    let pending' : ℚ → Option ℚ := fun k =>
      if k = rel.succ then
        some (match st.pending rel.succ with
              | some prev => max prev needed
              | none => needed)
      else st.pending k
    let deg := st.indeg rel.succ - 1
    let indeg' : ℚ → ℤ := fun k => if k = rel.succ then deg else st.indeg k
    if deg = 0 then
      { st with pending := pending', indeg := indeg',
                queue := sortByKey (baseESOf st.tasks) (st.queue ++ [rel.succ]) }
    else
      { st with pending := pending', indeg := indeg' }

/-- One iteration of the `while (queue.length)` loop (lines 264–294): pop the
head, record it in `topo`, schedule it (`ES` = pending constraint capped below
by `baseES`, `EF = ES + duration*DAY_MS`), then process its outgoing edges.
(In the source the queue holds the task objects themselves, so the lookup
cannot fail; the `none` branch is unreachable for the states the kernel
builds.) -/
def fwdStep (edges : List REdge) (s : FwdState) : FwdState :=
  match s.queue with
  | [] => s
  | tid :: rest =>
    match lookupTask s.tasks tid with
    | none => { s with queue := rest, topo := s.topo ++ [tid] }
    | some t =>
      let start : ℚ :=
        match s.pending tid with
        | some c => max c t.baseES
        | none => t.baseES
      let ef := start + t.duration * Day
      let tasks' := s.tasks.map (fun u =>
        if u.id = tid then { u with ES := some start, EF := some ef } else u)
      let s1 : FwdState :=
        { s with tasks := tasks', queue := rest, topo := s.topo ++ [tid] }
      (succsOf edges tid).foldl (processEdge start ef) s1

/-- The forward loop, with explicit fuel.  The source's `while` terminates
because every iteration pops one task and each task is enqueued at most once;
`fuel = |idMap| + 1` therefore drains the queue (proved below), and surplus
fuel is a no-op on an empty queue. -/
def fwdLoop (edges : List REdge) : ℕ → FwdState → FwdState
  | 0, s => s
  | fuel + 1, s =>
    match s.queue with
    | [] => s
    | _ :: _ => fwdLoop edges fuel (fwdStep edges s)

/-- The cycle fallback (lines 295–300): tasks never scheduled by the loop get
`ES = baseES` (already defaulted), `EF = ES + duration*DAY_MS`. -/
def fillES (tasks : List Task) : List Task :=
  tasks.map (fun t =>
    match t.ES with
    | some _ => t
    | none => { t with ES := some t.baseES, EF := some (t.baseES + t.duration * Day) })

/-- `topoOrder` (lines 301–304): the popped order, then every remaining
activity in map order. -/
def topoOrderOf (topo : List ℚ) (tasks : List Task) : List ℚ :=
  topo ++ (tasks.filter (fun t => ¬ topo.contains t.id)).map (fun t => t.id)

/-- `projectFinish` (lines 305–310): fold of `max` over each task's
`EF ?? baseEF` along `topoOrder`, seeded with `defaultStart`. -/
def projectFinishOf (tasks : List Task) (topoOrder : List ℚ) (defaultStart : ℚ) : ℚ :=
  topoOrder.foldl (fun acc id =>
    match lookupTask tasks id with
    | none => acc
    | some t => max acc (t.EF.getD t.baseEF)) defaultStart

/-- The per-task body of the backward pass (lines 315–341): `lfLimit` collects
FS/FF limits and `lsLimit` SS/SF limits — each computed, as the source does,
from the successor's EARLY dates (`succ.ES ?? succ.baseES ?? projectFinish`,
`succ.EF ?? succ.ES + succ.duration*DAY_MS`); `none` stands for `Infinity`.
After the fill-in pass every task's `ES`/`EF` is assigned, so the later
fallbacks in the `??` chains (rendered here via `baseES`) are unreachable, as
are the final `!Number.isFinite` repairs of the source (exact arithmetic on
finite inputs stays finite). -/
def backTask (edges : List REdge) (tasks : List Task) (projectFinish : ℚ) (task : Task) :
    Task :=
  let outgoing := succsOf edges task.id
  let limits : Option ℚ × Option ℚ :=
    outgoing.foldl (fun (lim : Option ℚ × Option ℚ) rel =>
      match lookupTask tasks rel.succ with
      | none => lim
      | some succ =>
        let lagMs := rel.Lag_d.getD 0 * Day
        let minWith (cur : Option ℚ) (v : ℚ) : Option ℚ :=
          some (match cur with | some c => min c v | none => v)
        match rel.rel with
        | .FS => (minWith lim.1 ((succ.ES.getD succ.baseES) - lagMs), lim.2)
        | .FF => (minWith lim.1 ((succ.EF.getD ((succ.ES.getD succ.baseES) + succ.duration * Day)) - lagMs), lim.2)
        | .SS => (lim.1, minWith lim.2 ((succ.ES.getD succ.baseES) - lagMs))
        | .SF => (lim.1, minWith lim.2 ((succ.EF.getD ((succ.ES.getD succ.baseES) + succ.duration * Day)) - lagMs)))
      (none, none)
  let lf0 : ℚ :=
    match limits.1 with
    | some v => v
    | none => max (task.EF.getD task.baseEF) projectFinish
  let ls0 := lf0 - task.duration * Day
  let lsf : ℚ × ℚ :=
    match limits.2 with
    | some l => (min ls0 l, min ls0 l + task.duration * Day)
    | none => (ls0, lf0)
  { task with LF := some lsf.2, LS := some lsf.1 }

/-- One iteration of the backward `for`-loop (lines 312–314, 340–341): look up
the task for `id` and store its late dates. -/
def backStep (edges : List REdge) (projectFinish : ℚ) (store : List Task) (id : ℚ) :
    List Task :=
  match lookupTask store id with
  | none => store
  | some task =>
    store.map (fun u => if u.id = id then backTask edges store projectFinish task else u)

/-- The backward pass (lines 311–342): process ids in reverse `topoOrder`,
updating each task in the store.  Each id occurs once in `topoOrder` and the
update reads only the successors' early dates (which this pass never writes),
so the sequential `for` is a per-task update against the scheduled store. -/
def backward (edges : List REdge) (projectFinish : ℚ) (tasks : List Task)
    (reverseOrder : List ℚ) : List Task :=
  reverseOrder.foldl (backStep edges projectFinish) tasks

/-- The float pass (lines 343–364): total float from `LS − ES`, free float from
the minimum early-date constraint of outgoing FS/FF edges, else
`max(0, totalFloat)`.  The pass writes only the float fields and reads only
date fields, so the `forEach` is a pointwise map against the store. -/
def floatTask (edges : List REdge) (tasks : List Task) (defaultStart : ℚ) (task : Task) :
    Task :=
  let tfMs := (task.LS.getD (task.ES.getD defaultStart)) - (task.ES.getD defaultStart)
  let tf : ℚ := (jsRound (tfMs / Day) : ℤ)
  let outgoing := succsOf edges task.id
  let minConstraint : Option ℚ :=
    outgoing.foldl (fun (cur : Option ℚ) rel =>
      match lookupTask tasks rel.succ with
      | none => cur
      | some succ =>
        let lagMs := rel.Lag_d.getD 0 * Day
        match rel.rel with
        | .FS => some (match cur with
            | some c => min c ((succ.ES.getD succ.baseES) - lagMs)
            | none => (succ.ES.getD succ.baseES) - lagMs)
        | .FF => some (match cur with
            | some c => min c ((succ.EF.getD ((succ.ES.getD succ.baseES) + succ.duration * Day)) - lagMs)
            | none => (succ.EF.getD ((succ.ES.getD succ.baseES) + succ.duration * Day)) - lagMs)
        | _ => cur) none
  let ff : ℚ :=
    match minConstraint with
    | some m =>
      let ffMs := m - (task.EF.getD ((task.ES.getD task.baseES) + task.duration * Day))
      max 0 ((jsRound (ffMs / Day) : ℤ) : ℚ)
    | none => max 0 tf
  { task with TotalFloat_d := tf, FreeFloat_d := ff }

/-- The emission step (lines 365–384): each input row is re-emitted with the
seven computed fields spread over it; a row whose id is not in the map passes
through unchanged. -/
def emitRow (tasks : List Task) (row : Row) : Row :=
  match row.ActivityID with
  | none => row
  | some id =>
    match lookupTask tasks id with
    | none => row
    | some task =>
      { row with
        ES := match task.ES with | some v => some (dayFloor v) | none => row.ES
        EF := match task.EF with | some v => some (dayFloor v) | none => row.EF
        LS := match (match task.LS with | some v => some v | none => task.baseLS) with
              | some v => some (dayFloor v) | none => row.LS
        LF := match (match task.LF with | some v => some v | none => task.baseLF) with
              | some v => some (dayFloor v) | none => row.LF
        DurDays := some ((jsRound (task.duration * 100) : ℚ) / 100)
        TotalFloat_d := some task.TotalFloat_d
        FreeFloat_d := some task.FreeFloat_d }

/-- `defaultStart` (lines 226–232): minimum finite baseline ES, else the
clock. -/
def defaultStartOf (m : List Task0) (now : ℚ) : ℚ := (minBase m).getD now

/-- The working task list after defaulting (lines 233–237) and impact
application (lines 238–244). -/
def tasks1Of (m : List Task0) (impact : Option Impact) (now : ℚ) : List Task :=
  applyImpact (defaultTasks m (defaultStartOf m now)) impact

/-- The kept, normalised edge list (lines 245–247). -/
def edgesOf (m : List Task0) (rels : List Edge) (impact : Option Impact) (now : ℚ) :
    List REdge :=
  filterEdges ((tasks1Of m impact now).map (fun t => t.id)) rels

/-- The initial forward state (lines 248–263): in-degrees from the kept edges,
the ready queue holding the in-degree-0 activities sorted by baseline ES,
empty `pending` and `topo`. -/
def fwdInit (m : List Task0) (rels : List Edge) (impact : Option Impact) (now : ℚ) :
    FwdState :=
  { tasks := tasks1Of m impact now
    indeg := indegInit (edgesOf m rels impact now)
    pending := fun _ => none
    queue := sortByKey (baseESOf (tasks1Of m impact now))
      (((tasks1Of m impact now).filter
        (fun t => indegInit (edgesOf m rels impact now) t.id = 0)).map (fun t => t.id))
    topo := [] }

/-- The forward state after the Kahn loop drains (lines 264–294). -/
def sEndOf (m : List Task0) (rels : List Edge) (impact : Option Impact) (now : ℚ) :
    FwdState :=
  fwdLoop (edgesOf m rels impact now) ((tasks1Of m impact now).length + 1)
    (fwdInit m rels impact now)

/-- The store after the cycle fallback (lines 295–300). -/
def tasks2Of (m : List Task0) (rels : List Edge) (impact : Option Impact) (now : ℚ) :
    List Task :=
  fillES (sEndOf m rels impact now).tasks

/-- `topoOrder` of lines 301–304. -/
def fullOrderOf (m : List Task0) (rels : List Edge) (impact : Option Impact) (now : ℚ) :
    List ℚ :=
  topoOrderOf (sEndOf m rels impact now).topo (tasks2Of m rels impact now)

/-- `projectFinish` of lines 305–310. -/
def pfOf (m : List Task0) (rels : List Edge) (impact : Option Impact) (now : ℚ) : ℚ :=
  projectFinishOf (tasks2Of m rels impact now) (fullOrderOf m rels impact now)
    (defaultStartOf m now)

/-- The store after the backward pass (lines 311–342). -/
def tasks3Of (m : List Task0) (rels : List Edge) (impact : Option Impact) (now : ℚ) :
    List Task :=
  backward (edgesOf m rels impact now) (pfOf m rels impact now) (tasks2Of m rels impact now)
    (fullOrderOf m rels impact now).reverse

/-- The store after the float pass (lines 343–364). -/
def tasks4Of (m : List Task0) (rels : List Edge) (impact : Option Impact) (now : ℚ) :
    List Task :=
  (tasks3Of m rels impact now).map
    (floatTask (edgesOf m rels impact now) (tasks3Of m rels impact now)
      (defaultStartOf m now))

def solveCore (m : List Task0) (rels : List Edge) (impact : Option Impact) (now : ℚ) :
    List Task × List ℚ × ℚ :=
  (tasks4Of m rels impact now, (sEndOf m rels impact now).topo, defaultStartOf m now)

/-- `simulateScenario(rows, rels, impact)` of the source, with the impure
`Date.now()` made an explicit `now` parameter. -/
def simulateScenario (rows : List Row) (rels : List Edge) (impact : Option Impact)
    (now : ℚ) : List Row :=
  match rows with
  | [] => []
  | _ :: _ =>
    let m := idMapOf rows
    match m with
    | [] => rows
    | _ :: _ =>
      let (tasks4, _, _) := solveCore m rels impact now
      rows.map (emitRow tasks4)

/-! ## The precedence-token parser (`parseLinkToken`, lines 411–441) -/

/-- The whitespace class stripped by JS `String.prototype.trim` (ASCII part;
the kernel's tokens come from splitting spreadsheet cells, where only ASCII
whitespace occurs). -/
def jsIsWs (c : Char) : Bool :=
  c = ' ' || c = '\t' || c = '\n' || c = '\r' || c = '\x0b' || c = '\x0c'

/-- JS `String.prototype.trim` on a character list. -/
def jsTrimList (l : List Char) : List Char :=
  ((l.dropWhile jsIsWs).reverse.dropWhile jsIsWs).reverse

/-- ASCII decimal digit test, as the source's `t[i] >= '0' && t[i] <= '9'`. -/
def isDigitCh (c : Char) : Bool := '0' ≤ c && c ≤ '9'

/-- The numeric value of a run of decimal digits, as `Number` evaluates it.
`Number("") = 0` — the empty string coerces to zero, not `NaN`.
(Idealised to exact arithmetic: JS overflows to `Infinity` beyond ~10³⁰⁸.) -/
def jsNumOfDigits (l : List Char) : ℚ :=
  (l.foldl (fun acc c => acc * 10 + (c.toNat - '0'.toNat)) 0 : ℕ)

/-- Leftmost `+`/`-` search of the lag clause (lines 428–432): position of the
first occurrence of either sign, the `+` winning ties by position. -/
def findSign (l : List Char) : Option (ℕ × ℤ) :=
  let plus := l.indexOf '+'
  let minus := l.indexOf '-'
  if plus < l.length ∧ (minus ≥ l.length ∨ plus < minus) then some (plus, 1)
  else if minus < l.length then some (minus, -1)
  else none

/-- Digits of the lag magnitude (lines 433–439): skip spaces after the sign,
then take the digit run. -/
def lagDigits (l : List Char) (pos : ℕ) : List Char :=
  ((l.drop (pos + 1)).dropWhile (fun c => c = ' ')).takeWhile isDigitCh

/-- `parseLinkToken(token, succId)` of the source.  `token` is the string piece
handed over by `buildLinksFromPredecessors` (the `undefined`/`null` guard of
line 412 precedes the stringification and is outside this model); `succId` is
`Number(succId)` of the caller-supplied successor id.  Note the id guard: the
parse extracts the *leading digit run*, and `Number` of that run — `0` for the
empty run — is always finite, so the `!Number.isFinite(id)` rejection never
fires and every non-empty trimmed token produces an edge. -/
def parseLinkToken (token : String) (succId : Option ℚ) : Option Edge :=
  let t := jsTrimList token.toList
  if t.isEmpty then none
  else
    let digits := t.takeWhile isDigitCh
    let id := jsNumOfDigits digits
    let rest := jsTrimList (t.drop digits.length)
    let (relType, rest') :=
      let maybeType := String.mk ((rest.take 2).map Char.toUpper)
      if maybeType = "FS" ∨ maybeType = "SS" ∨ maybeType = "FF" ∨ maybeType = "SF" then
        (maybeType, jsTrimList (rest.drop 2))
      else ("FS", rest)
    let lag : ℚ :=
      match findSign rest' with
      | some (pos, sign) =>
        let numStr := lagDigits rest' pos
        if numStr.isEmpty then 0 else (sign : ℚ) * jsNumOfDigits numStr
      | none => 0
    some { PredID := some id, SuccID := succId, RelType := relType, Lag_d := some lag }

/-! ## The scenario library (`handleSaveScenario`, lines 1101–1121) -/

/-- A saved scenario descriptor. -/
structure Scenario : Type where
  id : String
  title : String
  activityId : ℚ
  deltaDays : ℚ
  createdAt : ℚ
deriving DecidableEq, Repr

/-- `maxScenariosReached` (line 961): the library is capped at 10 entries. -/
def maxScenariosReached (lib : List Scenario) : Bool :=
  lib.length ≥ 10

/-- Outcome of a save attempt: the validation rejection, the capacity
rejection, or the appended library (each carrying the resulting library
state — unchanged in the two rejection branches). -/
inductive SaveResult : Type where
  | rejectedInvalid (lib : List Scenario)
  | rejectedFull (lib : List Scenario)
  | saved (lib : List Scenario)
deriving DecidableEq, Repr

/-- `handleSaveScenario`: reject when the form is invalid; reject with the
capacity signal when `maxScenariosReached`; otherwise append the new scenario
(`setScenarioLibrary(prev => [...prev, scenario])`).  The scenario object the
handler builds from the form fields and `Date.now()` is abstracted as the
parameter `sc`. -/
def handleSaveScenario (scenarioFormValid : Bool) (lib : List Scenario) (sc : Scenario) :
    SaveResult :=
  if ¬ scenarioFormValid then .rejectedInvalid lib
  else if maxScenariosReached lib then .rejectedFull lib
  else .saved (lib ++ [sc])

/-! ## Concrete example inputs used by the claim instances -/

/-- A minimal input row: id, baseline ES/EF (days), explicit duration. -/
def mkRow (id : ℚ) (es ef : Option ℤ) (dur : Option ℚ) : Row :=
  { ActivityID := some id, ES := es, EF := ef, LS := none, LF := none,
    DurDays := dur, TotalFloat_d := none, FreeFloat_d := none, extra := "" }

/-- A relationship record with finite endpoints and lag. -/
def mkRel (p s : ℚ) (ty : String) (lag : ℚ) : Edge :=
  { PredID := some p, SuccID := some s, RelType := ty, Lag_d := some lag }

/-! ## Concrete inputs and helper notions used by the claim statements -/

/-- Three-activity network exhibiting the backward-pass formulas:
`A (id 1, dur 1) ⟶FS⟶ B (id 2, dur 1)`, and an independent
`C (id 3, dur 5)` that stretches the project finish to day 5. -/
def bwRows : List Row :=
  [mkRow 1 (some 0) none (some 1), mkRow 2 (some 0) none (some 1),
   mkRow 3 (some 0) none (some 5)]

/-- The single FS edge `A → B` of the backward-pass example. -/
def bwRels : List Edge := [mkRel 1 2 "FS" 0]

/-- A single-activity input with no parseable baseline early start: the
solver's default epoch falls back to the invocation clock. -/
def clockRows : List Row := [mkRow 1 none none (some 1)]

/-- Accumulation of one more constraint into an optional running maximum (the
`prev !== undefined ? Math.max(prev, needed) : needed` update of line 286). -/
def combineMax (o : Option ℚ) (v : ℚ) : Option ℚ :=
  some (match o with | some c => max c v | none => v)

/-- Concrete popped task for the C2 instance: id 1, 2-day duration, baseline
ES at the epoch. -/
def c2t1 : Task :=
  { id := 1, duration := 2, baseES := 0, baseEF := 2 * Day, baseLS := none, baseLF := none }

/-- Concrete successor task for the C2 instance. -/
def c2t2 : Task :=
  { id := 2, duration := 1, baseES := 0, baseEF := Day, baseLS := none, baseLF := none }

/-- The single FS edge `1 → 2` (lag 2 days) of the C2 instance. -/
def c2edges : List REdge := [{ pred := 1, succ := 2, rel := .FS, Lag_d := some 2 }]

/-- A mid-run forward state for the C2 instance: both tasks unscheduled, task 1
at the head of the queue with a pending constraint of one day. -/
def c2state : FwdState :=
  { tasks := [c2t1, c2t2], indeg := fun k => if k = 2 then 1 else 0,
    pending := fun k => if k = 1 then some Day else none,
    queue := [1, 2], topo := [] }

/-- The task fields no pass ever modifies: identity, (post-impact) duration,
and the defaulted baseline dates. -/
def statics (t : Task) : ℚ × ℚ × ℚ × ℚ × Option ℚ × Option ℚ :=
  (t.id, t.duration, t.baseES, t.baseEF, t.baseLS, t.baseLF)

/-- The early dates of a task (written only by the forward pass and the cycle
fallback). -/
def datePair (t : Task) : Option ℚ × Option ℚ := (t.ES, t.EF)

/-- The late dates of a task (written only by the backward pass). -/
def latePair (t : Task) : Option ℚ × Option ℚ := (t.LS, t.LF)

/-- Forward-pass scheduling invariant: a task is scheduled — with
`EF = ES + duration·DAY_MS` — exactly when its id has been popped into
`topo`. -/
def schedInv (topo : List ℚ) (t : Task) : Prop :=
  (t.id ∈ topo ∧ ∃ es, t.ES = some es ∧ t.EF = some (es + t.duration * Day)) ∨
  (t.id ∉ topo ∧ t.ES = none ∧ t.EF = none)

/-- A two-activity cyclic network: `1 ⟶FS⟶ 2 ⟶FS⟶ 1` (baselines at day 3 and
day 0). -/
def cycRows : List Row := [mkRow 1 (some 3) none (some 1), mkRow 2 (some 0) none (some 2)]

/-- The two FS edges closing the cycle. -/
def cycRels : List Edge := [mkRel 1 2 "FS" 0, mkRel 2 1 "FS" 0]


/-- Placeholder task used as the (never-inspected) default of positional
`List.getD` accesses in per-activity statements. -/
def dummyTask : Task :=
  { id := 0, duration := 0, baseES := 0, baseEF := 0, baseLS := none, baseLF := none }

/-- Placeholder row for positional `List.getD` accesses in per-row
statements. -/
def dummyRow : Row :=
  { ActivityID := none, ES := none, EF := none, LS := none, LF := none,
    DurDays := none, TotalFloat_d := none, FreeFloat_d := none, extra := "" }

/-- Pointwise order on optional values: both absent, or both present and
ordered. -/
def leOpt (o₁ o₂ : Option ℚ) : Prop :=
  (o₁ = none ∧ o₂ = none) ∨ (∃ a b, o₁ = some a ∧ o₂ = some b ∧ a ≤ b)

/-- `leOpt` for the emitted day-valued fields. -/
def leOptZ (o₁ o₂ : Option ℤ) : Prop :=
  (o₁ = none ∧ o₂ = none) ∨ (∃ a b, o₁ = some a ∧ o₂ = some b ∧ a ≤ b)

/-- The project finish of an emitted schedule: the maximum `EF` (day value)
across all records carrying one. -/
def maxEFDay (rows : List Row) : Option ℤ :=
  (rows.filterMap (fun r => r.EF)).foldl
    (fun acc d => match acc with
      | some a => some (max a d)
      | none => some d) none

/-- Simulation relation between the task records of two runs that differ only
in the (clamped) duration of the impacted activity: identity and baselines
agree, the first run's duration and early dates are bounded by the second's. -/
def relTask (t u : Task) : Prop :=
  u.id = t.id ∧ u.baseES = t.baseES ∧ u.baseEF = t.baseEF ∧ u.baseLS = t.baseLS ∧
  u.baseLF = t.baseLF ∧ t.duration ≤ u.duration ∧
  leOpt t.ES u.ES ∧ leOpt t.EF u.EF

/-- Simulation relation between two forward states of the lockstep runs: the
control state (queue, popped order, in-degrees) coincides, the stores are
pointwise `relTask`-related, and every pending constraint of the first run is
bounded by the second's. -/
def relState (s₁ s₂ : FwdState) : Prop :=
  List.Forall₂ relTask s₁.tasks s₂.tasks ∧
  s₁.queue = s₂.queue ∧ s₁.topo = s₂.topo ∧ s₁.indeg = s₂.indeg ∧
  ∀ k, leOpt (s₁.pending k) (s₂.pending k)

/-- Three-activity network refuting delta monotonicity: `10` (dur 10) feeds
`20` (dur 1) through an FF edge, and `20` feeds `30` (dur 20) through an SS
edge; all baselines at day 0.  Lengthening `20` moves its start (not its
finish) earlier under the FF constraint, which the SS edge forwards to `30`. -/
def rowsC8 : List Row :=
  [mkRow 10 (some 0) none (some 10), mkRow 20 (some 0) none (some 1),
   mkRow 30 (some 0) none (some 20)]

/-- The FF and SS edges of the monotonicity counterexample. -/
def relsC8 : List Edge := [mkRel 10 20 "FF" 0, mkRel 20 30 "SS" 0]

/-- A two-activity FS chain (`1 ⟶FS⟶ 2`, both dur 1, baselines at day 0) used
to instantiate the FS/SS-only monotonicity theorem. -/
def monoRows : List Row := [mkRow 1 (some 0) none (some 1), mkRow 2 (some 0) none (some 1)]

/-- The single FS edge of the monotone instance. -/
def monoRels : List Edge := [mkRel 1 2 "FS" 0]

/-- The in-edges of activity `k` among the kept edges, in edge-list order. -/
def inEdges (edges : List REdge) (k : ℚ) : List REdge :=
  edges.filter (fun e => e.succ = k)

/-- The early start actually assigned at pop time: the accumulated pending
constraint capped below by the (defaulted) baseline ES. -/
def startOf (pend : Option ℚ) (base : ℚ) : ℚ :=
  match pend with
  | some c => max c base
  | none => base

/-- The `needed` value an edge contributes once its predecessor is scheduled,
read against a store: `none` when the predecessor is absent or unscheduled. -/
def needOf (S : List Task) (e : REdge) : Option ℚ :=
  match lookupTask S e.pred, lookupTask S e.succ with
  | some p, some u =>
    match p.ES, p.EF with
    | some es, some ef => some (neededOf es ef u e)
    | _, _ => none
  | _, _ => none

/-- One step of the pending accumulation: fold an edge's `needed` value (when
its predecessor is scheduled) into the running optional maximum. -/
def pendStep (S : List Task) (o : Option ℚ) (e : REdge) : Option ℚ :=
  match needOf S e with
  | some v => combineMax o v
  | none => o

/-- Accumulated pending constraint over a list of edges (the running
`Math.max` of the loop, `none` = no constraint yet). -/
def pendFold (S : List Task) (L : List REdge) : Option ℚ :=
  L.foldl (pendStep S) none

/-- `Math.round(x*100)/100`, the 2-decimal rounding of the emitted
`DurDays`. -/
def round2 (q : ℚ) : ℚ := (jsRound (q * 100) : ℚ) / 100

/-- The activity-map record rebuilt by `idMap` when the input row was emitted
from a fully solved task: all four baselines are the day-floored solved dates
and the duration is the emitted 2-decimal rounding. -/
def task0OfSolved (task : Task) (id : ℚ) : Task0 :=
  { id := id
    duration := round2 task.duration
    baseES := some ((dayFloor (task.ES.getD 0) : ℚ) * Day)
    baseEF := some ((dayFloor (task.EF.getD 0) : ℚ) * Day)
    baseLS := some ((dayFloor (task.LS.getD 0) : ℚ) * Day)
    baseLF := some ((dayFloor (task.LF.getD 0) : ℚ) * Day) }

/-- Invariant of the forward (Kahn) loop, against the kept edges and the fixed
id list of the store.  It pins down: the id bookkeeping of `queue`/`topo`, the
in-degree as a count of unprocessed in-edges, queue completeness, the pending
map as the canonical fold over the in-edges with popped predecessors, the
schedule of popped tasks, and that every popped task's in-edge predecessors
were popped strictly earlier. -/
structure FwdInv (edges : List REdge) (ids : List ℚ) (s : FwdState) : Prop where
  ids_eq : s.tasks.map (fun t => t.id) = ids
  ids_nd : ids.Nodup
  topo_nd : s.topo.Nodup
  queue_nd : s.queue.Nodup
  topo_sub : ∀ x ∈ s.topo, x ∈ ids
  queue_sub : ∀ x ∈ s.queue, x ∈ ids
  disj : ∀ x ∈ s.queue, x ∉ s.topo
  queue_zero : ∀ x ∈ s.queue, s.indeg x = 0
  topo_zero : ∀ x ∈ s.topo, s.indeg x = 0
  indeg_eq : ∀ k, s.indeg k =
    (((inEdges edges k).filter (fun e => ¬ e.pred ∈ s.topo)).length : ℤ)
  complete : ∀ k ∈ ids, k ∉ s.topo → s.indeg k = 0 → k ∈ s.queue
  pend_eq : ∀ k, s.pending k =
    pendFold s.tasks ((inEdges edges k).filter (fun e => e.pred ∈ s.topo))
  sched : ∀ t ∈ s.tasks,
    (t.id ∈ s.topo →
      t.ES = some (startOf (s.pending t.id) t.baseES) ∧
      t.EF = some (startOf (s.pending t.id) t.baseES + t.duration * Day)) ∧
    (t.id ∉ s.topo → t.ES = none ∧ t.EF = none)
  preds_before : ∀ i, (hi : i < s.topo.length) → ∀ e ∈ edges,
    e.succ = s.topo.get ⟨i, hi⟩ → e.pred ∈ s.topo.take i

/-- Intermediate invariant while the edges of the freshly popped task `tid`
are folded through `processEdge`: the popped task's out-edge list splits as
`D ++ R` (processed/remaining), the store and `topo` are already final for the
step, in-degrees still count the remaining edges, and each pending constraint
has absorbed exactly the processed edges. -/
structure MidInv (edges : List REdge) (ids oldTopo : List ℚ) (tid : ℚ)
    (tasksU : List Task) (D R : List REdge) (st : FwdState) : Prop where
  m_tasks : st.tasks = tasksU
  m_topo : st.topo = oldTopo ++ [tid]
  m_qnd : st.queue.Nodup
  m_qsub : ∀ x ∈ st.queue, x ∈ ids
  m_qdisj : ∀ x ∈ st.queue, x ∉ oldTopo ++ [tid]
  m_qzero : ∀ x ∈ st.queue, st.indeg x = 0
  m_indeg : ∀ k, st.indeg k =
    (((inEdges edges k).filter (fun e => ¬ e.pred ∈ oldTopo ++ [tid])).length : ℤ) +
    ((R.filter (fun e => e.succ = k)).length : ℤ)
  m_comp : ∀ k ∈ ids, k ∉ oldTopo ++ [tid] → st.indeg k = 0 → k ∈ st.queue
  m_pend : ∀ k, st.pending k =
    pendFold tasksU (((inEdges edges k).filter (fun e => e.pred ∈ oldTopo)) ++
      D.filter (fun e => e.succ = k))

/-- Lookup by id in the pre-defaulting activity map. -/
def lookupTask0 (m : List Task0) (id : ℚ) : Option Task0 :=
  m.find? (fun t => t.id = id)

/-- The single-row input refuting `simulate(baseline, rels, null) = baseline`:
a raw imported row with ES day 0, EF day 2 but an explicit 1-day duration (the
solver recomputes EF to day 1 and fills the float columns). -/
def c4Rows : List Row := [mkRow 1 (some 0) (some 2) (some 1)]

/-- The rebuild step of the activity map on a re-import of an emitted
schedule: each map entry is replaced by the record rebuilt from its solved
task (and kept as-is when the solved store has no entry for its id). -/
def reTask0 (T4 : List Task) (t0 : Task0) : Task0 :=
  match lookupTask T4 t0.id with
  | some task => task0OfSolved task t0.id
  | none => t0

/-- The data of a store entry actually read through successor lookups by the
backward and float passes: the duration, the `ES ?? baseES` chain and the
`EF ?? (ES ?? baseES) + duration·DAY_MS` chain. -/
def edKey (t : Task) : ℚ × ℚ × ℚ :=
  (t.duration, t.ES.getD t.baseES,
    t.EF.getD ((t.ES.getD t.baseES) + t.duration * Day))

/-- The float fields of a task (written only by the float pass). -/
def floats (t : Task) : ℚ × ℚ := (t.TotalFloat_d, t.FreeFloat_d)

/-- The `lfLimit`/`lsLimit` accumulation of the backward pass, factored out of
`backTask` verbatim so the fold can be reasoned about in isolation. -/
def backLimits (tasks : List Task) (outgoing : List REdge) : Option ℚ × Option ℚ :=
  outgoing.foldl (fun (lim : Option ℚ × Option ℚ) rel =>
    match lookupTask tasks rel.succ with
    | none => lim
    | some succ =>
      let lagMs := rel.Lag_d.getD 0 * Day
      let minWith (cur : Option ℚ) (v : ℚ) : Option ℚ :=
        some (match cur with | some c => min c v | none => v)
      match rel.rel with
      | .FS => (minWith lim.1 ((succ.ES.getD succ.baseES) - lagMs), lim.2)
      | .FF => (minWith lim.1 ((succ.EF.getD ((succ.ES.getD succ.baseES) + succ.duration * Day)) - lagMs), lim.2)
      | .SS => (lim.1, minWith lim.2 ((succ.ES.getD succ.baseES) - lagMs))
      | .SF => (lim.1, minWith lim.2 ((succ.EF.getD ((succ.ES.getD succ.baseES) + succ.duration * Day)) - lagMs)))
    (none, none)

/-- The `minConstraint` accumulation of the float pass, factored out of
`floatTask` verbatim so the fold can be reasoned about in isolation. -/
def floatMin (tasks : List Task) (outgoing : List REdge) : Option ℚ :=
  outgoing.foldl (fun (cur : Option ℚ) rel =>
    match lookupTask tasks rel.succ with
    | none => cur
    | some succ =>
      let lagMs := rel.Lag_d.getD 0 * Day
      match rel.rel with
      | .FS => some (match cur with
          | some c => min c ((succ.ES.getD succ.baseES) - lagMs)
          | none => (succ.ES.getD succ.baseES) - lagMs)
      | .FF => some (match cur with
          | some c => min c ((succ.EF.getD ((succ.ES.getD succ.baseES) + succ.duration * Day)) - lagMs)
          | none => (succ.EF.getD ((succ.ES.getD succ.baseES) + succ.duration * Day)) - lagMs)
      | _ => cur) none

/-! ## C3 — the token parser -/

/-- **C3.** The claim says a trimmed token that does not begin with a digit
yields `null`, giving `"abcFS" ↦ null`.  The code disagrees: the leading digit
run of `"abcFS"` is empty, `Number("")` is `0` — which `Number.isFinite`
accepts — so the parser returns the edge `{PredID: 0, RelType: "FS", Lag_d: 0}`
instead of `null`.  The claim's other examples hold: `"" ↦ null`,
`"205FS+3" ↦ {PredID:205, RelType:"FS", Lag_d:3}`, and
`"130-2" ↦ {PredID:130, RelType:"FS", Lag_d:-2}`. -/
theorem parseLinkToken_eval :
    parseLinkToken "abcFS" (some 7) =
      some { PredID := some 0, SuccID := some 7, RelType := "FS", Lag_d := some 0 } ∧
    parseLinkToken "" (some 7) = none ∧
    parseLinkToken "205FS+3" (some 9) =
      some { PredID := some 205, SuccID := some 9, RelType := "FS", Lag_d := some 3 } ∧
    parseLinkToken "130-2" (some 9) =
      some { PredID := some 130, SuccID := some 9, RelType := "FS", Lag_d := some (-2) } := by
  refine ⟨?_, ?_, ?_, ?_⟩ <;> with_unfolding_all decide

/-! ## C9 — scenario-library capacity -/

/-- **C9.** A valid save attempt against a full library (10 entries) is
rejected with the capacity signal and leaves the library untouched (same
entries, same order); against a library under the cap it appends the scenario
at the end. -/
theorem scenario_library_capacity (lib : List Scenario) (sc : Scenario) :
    (lib.length = 10 → handleSaveScenario true lib sc = .rejectedFull lib) ∧
    (lib.length < 10 → handleSaveScenario true lib sc = .saved (lib ++ [sc])) := by
  constructor
  · intro h
    simp [handleSaveScenario, maxScenariosReached, h]
  · intro h
    simp [handleSaveScenario, maxScenariosReached, Nat.not_le.mpr h]

/-- Instance of `scenario_library_capacity`: a concrete full library rejects
the 11th save, and a singleton library accepts an append. -/
theorem scenario_library_capacity_witness :
    (let sc : Scenario := ⟨"scenario-1", "S", 1, 2, 0⟩
     let full := List.replicate 10 sc
     full.length = 10 ∧ handleSaveScenario true full sc = .rejectedFull full ∧
     [sc].length < 10 ∧ handleSaveScenario true [sc] sc = .saved ([sc] ++ [sc])) := by
  refine ⟨rfl, ?_, by with_unfolding_all decide, ?_⟩
  · exact (scenario_library_capacity _ _).1 rfl
  · exact (scenario_library_capacity _ _).2 (by with_unfolding_all decide)

/-! ## C1 — the backward pass reads the successor's early dates -/


/-- **C1.** The claim (and §4.5 of the spec) states the outgoing-FS limit on
`A`'s late finish is `B.LS − lag`.  Evaluating the code on `bwRows`/`bwRels`:
the backward pass computes `B.LS = day 4` (B can slip to the project finish at
day 5), so the claim demands `A.LF = day 4`; but the code takes the limit from
the successor's EARLY start (`succ.ES ?? succ.baseES ?? projectFinish`,
line 323), giving `A.LF = B.ES − lag = day 1`.  This theorem records the
code's output — `A.LF = 1` while `B.LS = 4` with lag `0` — contradicting the
claimed equation `A.LF = B.LS − lag`. -/
theorem backwardPass_usesEarlyDates_eval :
    (simulateScenario bwRows bwRels none 0).map (fun r => (r.ActivityID, r.LS, r.LF)) =
      [(some 1, some 0, some 1), (some 2, some 4, some 5), (some 3, some 0, some 5)] := by
  with_unfolding_all decide

/-! ## C5 — determinism and the `Date.now()` default epoch -/


/-- **C5 counterexample.** Two invocations of `simulateScenario` on identical
rows, rels and impact — but at clock values a day apart — return different
schedules when no activity has a parseable baseline ES: the default epoch is
`Date.now()`, which leaks into every emitted date. -/
theorem simulate_clock_dependent :
    simulateScenario clockRows [] none 0 ≠ simulateScenario clockRows [] none Day := by
  with_unfolding_all decide

/-- Every stage of the solve depends on the clock only through
`defaultStart`. -/
theorem tasks4Of_now_congr (m : List Task0) (rels : List Edge) (impact : Option Impact)
    {now₁ now₂ : ℚ} (h : defaultStartOf m now₁ = defaultStartOf m now₂) :
    tasks4Of m rels impact now₁ = tasks4Of m rels impact now₂ := by
  have h1 : tasks1Of m impact now₁ = tasks1Of m impact now₂ := by
    unfold tasks1Of; rw [h]
  have h2 : edgesOf m rels impact now₁ = edgesOf m rels impact now₂ := by
    unfold edgesOf; rw [h1]
  have h3 : fwdInit m rels impact now₁ = fwdInit m rels impact now₂ := by
    unfold fwdInit; rw [h1, h2]
  have h4 : sEndOf m rels impact now₁ = sEndOf m rels impact now₂ := by
    unfold sEndOf; rw [h1, h2, h3]
  have h5 : tasks2Of m rels impact now₁ = tasks2Of m rels impact now₂ := by
    unfold tasks2Of; rw [h4]
  have h6 : fullOrderOf m rels impact now₁ = fullOrderOf m rels impact now₂ := by
    unfold fullOrderOf; rw [h4, h5]
  have h7 : pfOf m rels impact now₁ = pfOf m rels impact now₂ := by
    unfold pfOf; rw [h5, h6, h]
  have h8 : tasks3Of m rels impact now₁ = tasks3Of m rels impact now₂ := by
    unfold tasks3Of; rw [h2, h5, h6, h7]
  unfold tasks4Of
  rw [h2, h8, h]

/-- **C5 (amended).** `simulateScenario` is deterministic — independent of the
invocation clock, hence byte-identical across invocations on identical inputs —
whenever some activity in the map has a parseable baseline early start (then
the default epoch is the minimum such date, not `Date.now()`). -/
theorem simulate_deterministic_of_baseES (rows : List Row) (rels : List Edge)
    (impact : Option Impact) (now₁ now₂ : ℚ)
    (h : minBase (idMapOf rows) ≠ none) :
    simulateScenario rows rels impact now₁ = simulateScenario rows rels impact now₂ := by
  obtain ⟨b, hb⟩ := Option.ne_none_iff_exists'.mp h
  unfold simulateScenario
  cases rows with
  | nil => rfl
  | cons r rs =>
    cases hm : idMapOf (r :: rs) with
    | nil => rfl
    | cons t ts =>
      have hds : defaultStartOf (t :: ts) now₁ = defaultStartOf (t :: ts) now₂ := by
        rw [hm] at hb
        unfold defaultStartOf
        rw [hb]; rfl
      simp only [solveCore]
      rw [tasks4Of_now_congr _ _ _ hds]

/-- Instance of `simulate_deterministic_of_baseES` at a concrete input with a
parseable baseline ES and clocks a day apart. -/
theorem simulate_deterministic_of_baseES_witness :
    minBase (idMapOf [mkRow 1 (some 0) none (some 1)]) ≠ none ∧
    simulateScenario [mkRow 1 (some 0) none (some 1)] [] none 0 =
      simulateScenario [mkRow 1 (some 0) none (some 1)] [] none Day :=
  ⟨by with_unfolding_all decide,
   simulate_deterministic_of_baseES _ _ _ _ _ (by with_unfolding_all decide)⟩

/-! ## C2 — the forward pass schedules pops and propagates constraints -/


theorem processEdge_tasks (es ef : ℚ) (st : FwdState) (rel : REdge) :
    (processEdge es ef st rel).tasks = st.tasks := by
  unfold processEdge
  split
  · rfl
  · dsimp only
    split <;> rfl

theorem processEdge_pending (es ef : ℚ) (st : FwdState) (rel : REdge) (k : ℚ) :
    (processEdge es ef st rel).pending k =
      match lookupTask st.tasks rel.succ with
      | none => st.pending k
      | some succ =>
        if k = rel.succ then combineMax (st.pending rel.succ) (neededOf es ef succ rel)
        else st.pending k := by
  unfold processEdge
  split
  · rfl
  · rename_i succ h
    dsimp only
    split <;> rfl

theorem foldl_processEdge_tasks (es ef : ℚ) (rels : List REdge) (st : FwdState) :
    (rels.foldl (processEdge es ef) st).tasks = st.tasks := by
  induction rels generalizing st with
  | nil => rfl
  | cons rel rest ih => rw [List.foldl_cons, ih, processEdge_tasks]

/-- After folding a list of outgoing edges, the pending constraint of each id
is the running maximum (`combineMax`) of the prior pending value and the
`neededOf` constraints of the edges targeting that id whose successor resolves
in the store. -/
theorem foldl_processEdge_pending (es ef : ℚ) (rels : List REdge) (st : FwdState) (k : ℚ) :
    (rels.foldl (processEdge es ef) st).pending k =
      (rels.filterMap (fun rel =>
        if rel.succ = k then
          (lookupTask st.tasks rel.succ).map (fun succ => neededOf es ef succ rel)
        else none)).foldl combineMax (st.pending k) := by
  induction rels generalizing st with
  | nil => rfl
  | cons rel rest ih =>
    rw [List.foldl_cons, ih, processEdge_tasks, List.filterMap_cons, processEdge_pending]
    rcases h : lookupTask st.tasks rel.succ with _ | succ
    · by_cases hk : rel.succ = k <;> simp [hk]
    · by_cases hk : rel.succ = k
      · subst hk; simp
      · simp [hk, Ne.symm hk]

/-- **C2.** One iteration of the forward loop on a state whose queue head is
`tid` (a task `t` of the store): the popped activity's early start becomes the
pending constraint accumulated from its already-scheduled predecessors capped
below by its (defaulted) baseline ES — `max(pending, baseES)`, or `baseES`
when no constraint arrived — its early finish becomes `ES + duration·DAY_MS`,
and the pending map after the pop accumulates, for every id `k`, the maximum
of the constraints its incoming edges from `tid` impose, each computed as
FS: `EF + lag`, SS: `ES + lag`, FF: `EF + lag − succ.duration`,
SF: `ES + lag − succ.duration` (`neededOf`). -/
theorem forward_pop_schedules_and_propagates
    (edges : List REdge) (s : FwdState) (tid : ℚ) (rest : List ℚ) (t : Task)
    (hq : s.queue = tid :: rest) (ht : lookupTask s.tasks tid = some t) :
    (fwdStep edges s).tasks =
      s.tasks.map (fun u =>
        if u.id = tid then
          { u with
            ES := some (match s.pending tid with
                        | some c => max c t.baseES
                        | none => t.baseES)
            EF := some ((match s.pending tid with
                         | some c => max c t.baseES
                         | none => t.baseES) + t.duration * Day) }
        else u) ∧
    ∀ k, (fwdStep edges s).pending k =
      ((succsOf edges tid).filterMap (fun rel =>
        if rel.succ = k then
          (lookupTask (fwdStep edges s).tasks rel.succ).map (fun succ =>
            neededOf
              (match s.pending tid with
               | some c => max c t.baseES | none => t.baseES)
              ((match s.pending tid with
                | some c => max c t.baseES | none => t.baseES) + t.duration * Day)
              succ rel)
        else none)).foldl combineMax (s.pending k) := by
  have hstep : fwdStep edges s =
      (succsOf edges tid).foldl
        (processEdge
          (match s.pending tid with | some c => max c t.baseES | none => t.baseES)
          ((match s.pending tid with | some c => max c t.baseES | none => t.baseES)
            + t.duration * Day))
        { s with
          tasks := s.tasks.map (fun u =>
            if u.id = tid then
              { u with
                ES := some (match s.pending tid with
                            | some c => max c t.baseES | none => t.baseES)
                EF := some ((match s.pending tid with
                             | some c => max c t.baseES | none => t.baseES)
                            + t.duration * Day) }
            else u)
          queue := rest
          topo := s.topo ++ [tid] } := by
    unfold fwdStep
    rw [hq]
    dsimp only
    rw [ht]
  constructor
  · rw [hstep, foldl_processEdge_tasks]
  · intro k
    conv_lhs => rw [hstep]
    rw [foldl_processEdge_pending]
    rw [hstep, foldl_processEdge_tasks]


/-- Instance of `forward_pop_schedules_and_propagates` on `c2state`: popping
task 1 schedules it at `max(pending, baseES)` with `EF = ES + 2·DAY_MS`, and
task 2's pending constraint accumulates the FS formula `EF + lag`. -/
theorem forward_pop_schedules_and_propagates_witness :
    c2state.queue = 1 :: [2] ∧
    lookupTask c2state.tasks 1 = some c2t1 ∧
    (fwdStep c2edges c2state).tasks =
      c2state.tasks.map (fun u =>
        if u.id = 1 then
          { u with
            ES := some (match c2state.pending 1 with
                        | some c => max c c2t1.baseES | none => c2t1.baseES)
            EF := some ((match c2state.pending 1 with
                         | some c => max c c2t1.baseES | none => c2t1.baseES)
                        + c2t1.duration * Day) }
        else u) ∧
    (fwdStep c2edges c2state).pending 2 =
      ((succsOf c2edges 1).filterMap (fun rel =>
        if rel.succ = (2 : ℚ) then
          (lookupTask (fwdStep c2edges c2state).tasks rel.succ).map (fun succ =>
            neededOf
              (match c2state.pending 1 with
               | some c => max c c2t1.baseES | none => c2t1.baseES)
              ((match c2state.pending 1 with
                | some c => max c c2t1.baseES | none => c2t1.baseES)
               + c2t1.duration * Day) succ rel)
        else none)).foldl combineMax (c2state.pending 2) := by
  have hl : lookupTask c2state.tasks 1 = some c2t1 := by
    show List.find? _ [c2t1, c2t2] = _
    rw [List.find?_cons_of_pos _ (by with_unfolding_all decide)]
  refine ⟨rfl, hl, ?_, ?_⟩
  · exact (forward_pop_schedules_and_propagates c2edges c2state 1 [2] c2t1 rfl hl).1
  · exact (forward_pop_schedules_and_propagates c2edges c2state 1 [2] c2t1 rfl hl).2 2

/-! ## Structural lemmas for the forward loop -/

theorem eq_of_mem_of_nodup_ids {tasks : List Task}
    (hnd : (tasks.map (fun t => t.id)).Nodup)
    {u v : Task} (hu : u ∈ tasks) (hv : v ∈ tasks) (hid : u.id = v.id) : u = v :=
  List.inj_on_of_nodup_map hnd hu hv hid

theorem processEdge_topo (es ef : ℚ) (st : FwdState) (rel : REdge) :
    (processEdge es ef st rel).topo = st.topo := by
  unfold processEdge
  split
  · rfl
  · dsimp only
    split <;> rfl

theorem foldl_processEdge_topo (es ef : ℚ) (rels : List REdge) (st : FwdState) :
    (rels.foldl (processEdge es ef) st).topo = st.topo := by
  induction rels generalizing st with
  | nil => rfl
  | cons rel rest ih => rw [List.foldl_cons, ih, processEdge_topo]

theorem fwdStep_statics (edges : List REdge) (s : FwdState) :
    (fwdStep edges s).tasks.map statics = s.tasks.map statics := by
  unfold fwdStep
  split
  · rfl
  · split
    · rfl
    · rw [foldl_processEdge_tasks]
      dsimp only
      rw [List.map_map]
      refine List.map_congr_left (fun u _ => ?_)
      dsimp only [Function.comp]
      split <;> rfl

theorem fwdLoop_statics (edges : List REdge) (fuel : ℕ) (s : FwdState) :
    (fwdLoop edges fuel s).tasks.map statics = s.tasks.map statics := by
  induction fuel generalizing s with
  | zero => rfl
  | succ fuel ih =>
    unfold fwdLoop
    split
    · rfl
    · exact (ih _).trans (fwdStep_statics _ _)

theorem ids_eq_of_statics_eq {A B : List Task}
    (h : A.map statics = B.map statics) :
    A.map (fun t => t.id) = B.map (fun t => t.id) := by
  have hA : A.map (fun t => t.id) = (A.map statics).map (fun p => p.1) := by
    rw [List.map_map]; rfl
  have hB : B.map (fun t => t.id) = (B.map statics).map (fun p => p.1) := by
    rw [List.map_map]; rfl
  rw [hA, hB, h]

theorem fwdStep_schedInv (edges : List REdge) (s : FwdState)
    (hnd : (s.tasks.map (fun t => t.id)).Nodup)
    (hinv : ∀ t ∈ s.tasks, schedInv s.topo t) :
    ∀ t ∈ (fwdStep edges s).tasks, schedInv (fwdStep edges s).topo t := by
  unfold fwdStep
  split
  · exact hinv
  · rename_i tid rest hq
    split
    · rename_i hl
      intro t ht
      have hno : ∀ x ∈ s.tasks, x.id ≠ tid := by
        intro x hx
        have := List.find?_eq_none.mp hl x hx
        simpa using this
      rcases hinv t ht with ⟨hmem, hsh⟩ | ⟨hmem, hES, hEF⟩
      · exact Or.inl ⟨List.mem_append_left _ hmem, hsh⟩
      · refine Or.inr ⟨?_, hES, hEF⟩
        intro hcon
        rcases List.mem_append.mp hcon with h1 | h1
        · exact hmem h1
        · exact hno t ht (by simpa using h1)
    · rename_i t0 hl
      have ht0mem : t0 ∈ s.tasks := List.mem_of_find?_eq_some hl
      have ht0id : t0.id = tid := by
        have := List.find?_some hl
        simpa using this
      intro t ht
      rw [foldl_processEdge_tasks] at ht
      rw [foldl_processEdge_topo]
      dsimp only at ht ⊢
      rcases List.mem_map.mp ht with ⟨u, hu, rfl⟩
      by_cases hid : u.id = tid
      · have hut0 : u = t0 :=
          eq_of_mem_of_nodup_ids hnd hu ht0mem (by rw [hid, ht0id])
        rw [if_pos hid]
        refine Or.inl ⟨?_, ?_⟩
        · exact List.mem_append_right _ (by simp [hid])
        · subst hut0
          exact ⟨_, rfl, rfl⟩
      · rw [if_neg hid]
        rcases hinv u hu with ⟨hmem, hsh⟩ | ⟨hmem, hES, hEF⟩
        · exact Or.inl ⟨List.mem_append_left _ hmem, hsh⟩
        · refine Or.inr ⟨?_, hES, hEF⟩
          intro hcon
          rcases List.mem_append.mp hcon with h1 | h1
          · exact hmem h1
          · exact hid (by simpa using h1)

theorem fwdLoop_schedInv (edges : List REdge) (fuel : ℕ) (s : FwdState)
    (hnd : (s.tasks.map (fun t => t.id)).Nodup)
    (hinv : ∀ t ∈ s.tasks, schedInv s.topo t) :
    ∀ t ∈ (fwdLoop edges fuel s).tasks, schedInv (fwdLoop edges fuel s).topo t := by
  induction fuel generalizing s with
  | zero => exact hinv
  | succ fuel ih =>
    unfold fwdLoop
    split
    · exact hinv
    · refine ih _ ?_ (fwdStep_schedInv _ _ hnd hinv)
      rw [ids_eq_of_statics_eq (fwdStep_statics edges s)]
      exact hnd

/-! ## Structural lemmas for the task-map construction and the later passes -/

theorem insertTask_nodup (m : List Task0) (t : Task0)
    (h : (m.map (fun u => u.id)).Nodup) :
    ((insertTask m t).map (fun u => u.id)).Nodup := by
  unfold insertTask
  split
  · have hids : (m.map (fun u => if u.id = t.id then t else u)).map (fun u => u.id)
        = m.map (fun u => u.id) := by
      rw [List.map_map]
      refine List.map_congr_left (fun u _ => ?_)
      dsimp only [Function.comp]
      split
      · rename_i hh; rw [hh]
      · rfl
    rw [hids]; exact h
  · rename_i hany
    have hnotin : t.id ∉ m.map (fun u => u.id) := by
      intro hc
      rcases List.mem_map.mp hc with ⟨u, hu, he⟩
      exact hany (List.any_eq_true.mpr ⟨u, hu, by simpa using he⟩)
    rw [List.map_append]
    refine List.Nodup.append h (List.nodup_singleton _) ?_
    intro x hx hx'
    simp only [List.map_cons, List.map_nil, List.mem_singleton] at hx'
    subst hx'
    exact hnotin hx

theorem idMapOf_nodup (rows : List Row) :
    ((idMapOf rows).map (fun u => u.id)).Nodup := by
  have aux : ∀ (rows : List Row) (m : List Task0),
      (m.map (fun u => u.id)).Nodup →
      ((rows.foldl (fun m row =>
        match row.ActivityID with
        | some id => insertTask m (mkTask0 row id)
        | none => m) m).map (fun u => u.id)).Nodup := by
    intro rows
    induction rows with
    | nil => intro m hm; exact hm
    | cons r rs ih =>
      intro m hm
      rw [List.foldl_cons]
      cases r.ActivityID with
      | none => exact ih m hm
      | some id => exact ih _ (insertTask_nodup _ _ hm)
  exact aux rows [] (by simp)

theorem defaultTasks_ids (m : List Task0) (d : ℚ) :
    (defaultTasks m d).map (fun t => t.id) = m.map (fun u => u.id) := by
  unfold defaultTasks
  rw [List.map_map]
  rfl

theorem applyImpact_ids (A : List Task) (impact : Option Impact) :
    (applyImpact A impact).map (fun t => t.id) = A.map (fun t => t.id) := by
  rcases impact with _ | ⟨aid, delta⟩
  · rfl
  · cases aid with
    | none => rfl
    | some aid =>
      show (A.map (fun t =>
        if t.id = aid then
          { t with duration := max 0 (t.duration
              + (Impact.mk (some aid) delta).deltaDays.getD 0) }
        else t)).map (fun t => t.id) = _
      rw [List.map_map]
      refine List.map_congr_left (fun u _ => ?_)
      dsimp only [Function.comp]
      split <;> rfl

theorem tasks1_unsched (m : List Task0) (d : ℚ) (impact : Option Impact) :
    ∀ t ∈ applyImpact (defaultTasks m d) impact,
      t.ES = none ∧ t.EF = none ∧ t.LS = none ∧ t.LF = none := by
  intro t ht
  have base : ∀ u ∈ defaultTasks m d,
      u.ES = none ∧ u.EF = none ∧ u.LS = none ∧ u.LF = none := by
    intro u hu
    rcases List.mem_map.mp hu with ⟨v, _, rfl⟩
    exact ⟨rfl, rfl, rfl, rfl⟩
  rcases impact with _ | ⟨aid, delta⟩
  · exact base t ht
  · cases aid with
    | none => exact base t ht
    | some aid =>
      replace ht : t ∈ (defaultTasks m d).map (fun u =>
          if u.id = aid then
            { u with duration := max 0 (u.duration
                + (Impact.mk (some aid) delta).deltaDays.getD 0) }
          else u) := ht
      rcases List.mem_map.mp ht with ⟨u, hu, rfl⟩
      rcases base u hu with ⟨h1, h2, h3, h4⟩
      refine ⟨?_, ?_, ?_, ?_⟩ <;> (split <;> assumption)

theorem fillES_statics (A : List Task) :
    (fillES A).map statics = A.map statics := by
  unfold fillES
  rw [List.map_map]
  refine List.map_congr_left (fun u _ => ?_)
  dsimp only [Function.comp]
  cases u.ES <;> rfl

/-- After the cycle fallback, every task carries consistent early dates, and a
task never popped (`id ∉ topo`) is scheduled from its own (defaulted) baseline
ES. -/
theorem fillES_shape (topo : List ℚ) (A : List Task)
    (hinv : ∀ t ∈ A, schedInv topo t) :
    ∀ t ∈ fillES A,
      (∃ es, t.ES = some es ∧ t.EF = some (es + t.duration * Day)) ∧
      (t.id ∉ topo → t.ES = some t.baseES ∧ t.EF = some (t.baseES + t.duration * Day)) := by
  intro t ht
  rcases List.mem_map.mp ht with ⟨u, hu, rfl⟩
  rcases hinv u hu with ⟨hmem, es, hES, hEF⟩ | ⟨hmem, hES, hEF⟩
  · constructor
    · exact ⟨es, by simp only [hES], by simp only [hES, hEF]⟩
    · intro hcon
      exfalso
      revert hcon
      simp only [hES]
      exact fun hcon => hcon hmem
  · constructor
    · exact ⟨u.baseES, by simp only [hES], by simp only [hES]⟩
    · intro _
      exact ⟨by simp only [hES], by simp only [hES]⟩

theorem mem_topoOrderOf (topo : List ℚ) (A : List Task) :
    ∀ t ∈ A, t.id ∈ topoOrderOf topo A := by
  intro t ht
  by_cases h : t.id ∈ topo
  · exact List.mem_append_left _ h
  · refine List.mem_append_right _ ?_
    refine List.mem_map.mpr ⟨t, ?_, rfl⟩
    refine List.mem_filter.mpr ⟨ht, ?_⟩
    simpa using h

/-- Unfolding one step of the backward pass's `for`-loop. -/
theorem backward_cons (edges : List REdge) (pf : ℚ) (id : ℚ) (rest : List ℚ)
    (A : List Task) :
    backward edges pf A (id :: rest) = backward edges pf (backStep edges pf A id) rest := rfl

theorem backStep_of_none (edges : List REdge) (pf : ℚ) (A : List Task) (id : ℚ)
    (hl : lookupTask A id = none) : backStep edges pf A id = A := by
  unfold backStep; rw [hl]

theorem backStep_of_some (edges : List REdge) (pf : ℚ) (A : List Task) (id : ℚ)
    (task : Task) (hl : lookupTask A id = some task) :
    backStep edges pf A id =
      A.map (fun u => if u.id = id then backTask edges A pf task else u) := by
  unfold backStep; rw [hl]

theorem backward_ids (edges : List REdge) (pf : ℚ) (ord : List ℚ) (A : List Task) :
    (backward edges pf A ord).map (fun t => t.id) = A.map (fun t => t.id) := by
  induction ord generalizing A with
  | nil => rfl
  | cons id rest ih =>
    rw [backward_cons]
    cases hl : lookupTask A id with
    | none =>
      rw [backStep_of_none _ _ _ _ hl]
      exact ih A
    | some task =>
      have hti : task.id = id := by simpa using List.find?_some hl
      rw [backStep_of_some _ _ _ _ _ hl, ih]
      rw [List.map_map]
      refine List.map_congr_left (fun u hu => ?_)
      dsimp only [Function.comp]
      by_cases h : u.id = id
      · rw [if_pos h, show (backTask edges A pf task).id = task.id from rfl, hti, h]
      · rw [if_neg h]

theorem backTask_statics (edges : List REdge) (A : List Task) (pf : ℚ) (task : Task) :
    statics (backTask edges A pf task) = statics task := rfl

theorem backTask_datePair (edges : List REdge) (A : List Task) (pf : ℚ) (task : Task) :
    datePair (backTask edges A pf task) = datePair task := rfl

/-- The backward pass changes only `LS`/`LF`: any projection that ignores the
late dates is carried through unchanged (ids must be duplicate-free, as the
construction guarantees, since the store update keys on the id). -/
theorem backward_proj {β : Type} (f : Task → β)
    (hf : ∀ edges A pf task, f (backTask edges A pf task) = f task)
    (edges : List REdge) (pf : ℚ) (ord : List ℚ) (A : List Task)
    (hnd : (A.map (fun t => t.id)).Nodup) :
    (backward edges pf A ord).map f = A.map f := by
  induction ord generalizing A with
  | nil => rfl
  | cons id rest ih =>
    rw [backward_cons]
    cases hl : lookupTask A id with
    | none =>
      rw [backStep_of_none _ _ _ _ hl]
      exact ih A hnd
    | some task =>
      have htm : task ∈ A := List.mem_of_find?_eq_some hl
      have hti : task.id = id := by simpa using List.find?_some hl
      rw [backStep_of_some _ _ _ _ _ hl]
      have hproj : (A.map (fun u => if u.id = id then backTask edges A pf task else u)).map f
          = A.map f := by
        rw [List.map_map]
        refine List.map_congr_left (fun u hu => ?_)
        dsimp only [Function.comp]
        by_cases h : u.id = id
        · rw [if_pos h]
          have : u = task := eq_of_mem_of_nodup_ids hnd hu htm (h.trans hti.symm)
          rw [this, hf]
        · rw [if_neg h]
      rw [ih _ ?_, hproj]
      have : (A.map (fun u => if u.id = id then backTask edges A pf task else u)).map
          (fun t => t.id) = A.map (fun t => t.id) := by
        rw [List.map_map]
        refine List.map_congr_left (fun u hu => ?_)
        dsimp only [Function.comp]
        by_cases h : u.id = id
        · rw [if_pos h, show (backTask edges A pf task).id = task.id from rfl, hti, h]
        · rw [if_neg h]
      rw [this]
      exact hnd

/-- The clamped pair written by the backward pass is always consistent: its
second component (`lf`) is its first (`ls`) plus the duration. -/
theorem lsf_pair_consistent (o : Option ℚ) (lf0 d : ℚ) :
    (match o with
     | some l => (min (lf0 - d) l, min (lf0 - d) l + d)
     | none => (lf0 - d, lf0) : ℚ × ℚ).2 =
    (match o with
     | some l => (min (lf0 - d) l, min (lf0 - d) l + d)
     | none => (lf0 - d, lf0) : ℚ × ℚ).1 + d := by
  cases o with
  | none => dsimp only; rw [sub_add_cancel]
  | some l => dsimp only

/-- `backTask` always stores a consistent `LS`/`LF` pair:
`LF = LS + duration·DAY_MS`. -/
theorem backTask_shape (edges : List REdge) (A : List Task) (pf : ℚ) (task : Task) :
    ∃ ls, (backTask edges A pf task).LS = some ls ∧
      (backTask edges A pf task).LF = some (ls + (backTask edges A pf task).duration * Day) := by
  refine ⟨_, rfl, congrArg some ?_⟩
  exact lsf_pair_consistent _ _ _

/-- After the backward pass, every task whose id occurs in the processed order
(or that already had consistent late dates) carries a consistent `LS`/`LF`
pair. -/
theorem backward_lateShape (edges : List REdge) (pf : ℚ) (ord : List ℚ) (A : List Task)
    (hcov : ∀ t ∈ A, t.id ∈ ord ∨ ∃ ls, t.LS = some ls ∧ t.LF = some (ls + t.duration * Day)) :
    ∀ t ∈ backward edges pf A ord,
      ∃ ls, t.LS = some ls ∧ t.LF = some (ls + t.duration * Day) := by
  induction ord generalizing A with
  | nil =>
    intro t ht
    rcases hcov t ht with h | h
    · exact absurd h (List.not_mem_nil _)
    · exact h
  | cons id rest ih =>
    rw [backward_cons]
    cases hl : lookupTask A id with
    | none =>
      rw [backStep_of_none _ _ _ _ hl]
      refine ih A ?_
      intro t ht
      rcases hcov t ht with h | h
      · rcases List.mem_cons.mp h with h1 | h1
        · exact absurd h1 (by simpa using List.find?_eq_none.mp hl t ht)
        · exact Or.inl h1
      · exact Or.inr h
    | some task =>
      rw [backStep_of_some _ _ _ _ _ hl]
      refine ih _ ?_
      intro t ht
      rcases List.mem_map.mp ht with ⟨u, hu, rfl⟩
      by_cases h : u.id = id
      · rw [if_pos h]
        exact Or.inr (backTask_shape edges A pf task)
      · rw [if_neg h]
        rcases hcov u hu with hc | hc
        · rcases List.mem_cons.mp hc with h1 | h1
          · exact absurd h1 h
          · exact Or.inl h1
        · exact Or.inr hc

theorem floatTask_statics (edges : List REdge) (S : List Task) (d : ℚ) (t : Task) :
    statics (floatTask edges S d t) = statics t := rfl

theorem floatTask_datePair (edges : List REdge) (S : List Task) (d : ℚ) (t : Task) :
    datePair (floatTask edges S d t) = datePair t := rfl

theorem floatTask_latePair (edges : List REdge) (S : List Task) (d : ℚ) (t : Task) :
    latePair (floatTask edges S d t) = latePair t := rfl

/-- Index-wise correspondence from equality of two projections of two task
lists. -/
theorem mem_corr_of_proj {β γ : Type} (f : Task → β) (g : Task → γ) {A B : List Task}
    (hf : B.map f = A.map f) (hg : B.map g = A.map g) :
    ∀ t ∈ B, ∃ u ∈ A, f t = f u ∧ g t = g u := by
  intro t ht
  have hlen : B.length = A.length := by
    have := congrArg List.length hf
    simpa using this
  obtain ⟨i, hi, rfl⟩ := List.getElem_of_mem ht
  have hiA : i < A.length := hlen ▸ hi
  refine ⟨A[i], List.getElem_mem _, ?_, ?_⟩
  · have := congrArg (fun l => l[i]?) hf
    simp only [List.getElem?_map, List.getElem?_eq_getElem hi,
      List.getElem?_eq_getElem hiA, Option.map_some] at this
    exact Option.some.inj this
  · have := congrArg (fun l => l[i]?) hg
    simp only [List.getElem?_map, List.getElem?_eq_getElem hi,
      List.getElem?_eq_getElem hiA, Option.map_some] at this
    exact Option.some.inj this

/-- Master shape lemma for the solved store: every task carries consistent
early and late dates, and tasks never popped by the forward loop are scheduled
from their own defaulted baseline ES. -/
theorem tasks4Of_shapes (m : List Task0) (rels : List Edge) (impact : Option Impact)
    (now : ℚ) (hnd : (m.map (fun u => u.id)).Nodup) :
    ∀ t ∈ tasks4Of m rels impact now,
      (∃ es, t.ES = some es ∧ t.EF = some (es + t.duration * Day)) ∧
      (∃ ls, t.LS = some ls ∧ t.LF = some (ls + t.duration * Day)) ∧
      (t.id ∉ (sEndOf m rels impact now).topo →
        t.ES = some t.baseES ∧ t.EF = some (t.baseES + t.duration * Day)) := by
  have hids1 : (tasks1Of m impact now).map (fun t => t.id) = m.map (fun u => u.id) := by
    unfold tasks1Of
    rw [applyImpact_ids, defaultTasks_ids]
  have hnd1 : ((tasks1Of m impact now).map (fun t => t.id)).Nodup := by
    rw [hids1]; exact hnd
  have hinv0 : ∀ u ∈ (fwdInit m rels impact now).tasks,
      schedInv (fwdInit m rels impact now).topo u := by
    intro u hu
    have hus := tasks1_unsched m (defaultStartOf m now) impact u hu
    exact Or.inr ⟨List.not_mem_nil u.id, hus.1, hus.2.1⟩
  have hloop : ∀ u ∈ (sEndOf m rels impact now).tasks,
      schedInv (sEndOf m rels impact now).topo u :=
    fwdLoop_schedInv _ _ _ hnd1 hinv0
  have hfill := fillES_shape (sEndOf m rels impact now).topo
    (sEndOf m rels impact now).tasks hloop
  have hstL : (sEndOf m rels impact now).tasks.map statics
      = (tasks1Of m impact now).map statics := fwdLoop_statics _ _ _
  have hst2 : (tasks2Of m rels impact now).map statics
      = (tasks1Of m impact now).map statics :=
    (fillES_statics _).trans hstL
  have hnd2 : ((tasks2Of m rels impact now).map (fun t => t.id)).Nodup := by
    rw [ids_eq_of_statics_eq hst2, hids1]; exact hnd
  have hcov : ∀ u ∈ tasks2Of m rels impact now,
      u.id ∈ (fullOrderOf m rels impact now).reverse ∨
        ∃ ls, u.LS = some ls ∧ u.LF = some (ls + u.duration * Day) := by
    intro u hu
    exact Or.inl (List.mem_reverse.mpr (mem_topoOrderOf _ _ u hu))
  have hlate := backward_lateShape (edgesOf m rels impact now) (pfOf m rels impact now)
    (fullOrderOf m rels impact now).reverse (tasks2Of m rels impact now) hcov
  have hst3 : (tasks3Of m rels impact now).map statics
      = (tasks2Of m rels impact now).map statics :=
    backward_proj statics (fun _ _ _ _ => rfl) _ _ _ _ hnd2
  have hdp3 : (tasks3Of m rels impact now).map datePair
      = (tasks2Of m rels impact now).map datePair :=
    backward_proj datePair (fun _ _ _ _ => rfl) _ _ _ _ hnd2
  intro t ht
  rcases List.mem_map.mp ht with ⟨u3, hu3, rfl⟩
  obtain ⟨u2, hu2, hst, hdp⟩ := mem_corr_of_proj statics datePair hst3 hdp3 u3 hu3
  have hdur : u3.duration = u2.duration := congrArg (fun p => p.2.1) hst
  have hES : u3.ES = u2.ES := congrArg Prod.fst hdp
  have hEF : u3.EF = u2.EF := congrArg Prod.snd hdp
  have hbase : u3.baseES = u2.baseES := congrArg (fun p => p.2.2.1) hst
  have hid : u3.id = u2.id := congrArg (fun p => p.1) hst
  obtain ⟨⟨es, hes, hef⟩, hfall⟩ := hfill u2 hu2
  refine ⟨?_, ?_, ?_⟩
  · exact ⟨es, by show u3.ES = _; rw [hES, hes],
      by show u3.EF = _; rw [hEF, hef]; rw [show (floatTask (edgesOf m rels impact now)
        (tasks3Of m rels impact now) (defaultStartOf m now) u3).duration
        = u3.duration from rfl, hdur]⟩
  · obtain ⟨ls, hls, hlf⟩ := hlate u3 hu3
    exact ⟨ls, hls, hlf⟩
  · intro hnot
    have hnot2 : u2.id ∉ (sEndOf m rels impact now).topo := by
      rw [← hid]; exact hnot
    obtain ⟨h1, h2⟩ := hfall hnot2
    constructor
    · show u3.ES = some _
      rw [hES, h1, show (floatTask (edgesOf m rels impact now) (tasks3Of m rels impact now)
        (defaultStartOf m now) u3).baseES = u3.baseES from rfl, hbase]
    · show u3.EF = some _
      rw [hEF, h2]
      rw [show (floatTask (edgesOf m rels impact now) (tasks3Of m rels impact now)
        (defaultStartOf m now) u3).baseES = u3.baseES from rfl,
        show (floatTask (edgesOf m rels impact now) (tasks3Of m rels impact now)
        (defaultStartOf m now) u3).duration = u3.duration from rfl, hbase, hdur]

/-- **C7.** Every activity in the solved store returned by a
`simulateScenario` run — whether scheduled by propagation, by the cycle
fallback, or clamped by an SS/SF limit in the backward pass — satisfies
`EF = ES + duration·DAY_MS` and `LF = LS + duration·DAY_MS` exactly (the
emitted date-only strings are the day-floors of these values, so the claimed
identities hold within day rounding). -/
theorem simulate_EF_LF_consistent (rows : List Row) (rels : List Edge)
    (impact : Option Impact) (now : ℚ) :
    ∀ i, i < (solveCore (idMapOf rows) rels impact now).1.length →
      (∃ es, ((solveCore (idMapOf rows) rels impact now).1.getD i dummyTask).ES = some es ∧
        ((solveCore (idMapOf rows) rels impact now).1.getD i dummyTask).EF =
          some (es + ((solveCore (idMapOf rows) rels impact now).1.getD i dummyTask).duration * Day)) ∧
      (∃ ls, ((solveCore (idMapOf rows) rels impact now).1.getD i dummyTask).LS = some ls ∧
        ((solveCore (idMapOf rows) rels impact now).1.getD i dummyTask).LF =
          some (ls + ((solveCore (idMapOf rows) rels impact now).1.getD i dummyTask).duration * Day)) := by
  intro i hi
  rw [List.getD_eq_getElem _ _ hi]
  obtain ⟨h1, h2, _⟩ := tasks4Of_shapes (idMapOf rows) rels impact now
    (idMapOf_nodup rows) _ (List.getElem_mem hi)
  exact ⟨h1, h2⟩

/-- **C6.** `simulateScenario` is total on cyclic networks: the embedded
solver is a total function (the Kahn loop runs on fuel `|idMap| + 1`, which
provably drains the queue), every activity in the solved store receives all
four computed dates, and an activity whose in-degree never reached 0 — its id
is missing from the popped `topo` order — is scheduled by the fallback at its
own (defaulted) baseline ES with `EF = ES + duration·DAY_MS`, ignoring any
pending predecessor constraint. -/
theorem simulate_total_cycle_fallback (rows : List Row) (rels : List Edge)
    (impact : Option Impact) (now : ℚ) :
    ∀ i, i < (solveCore (idMapOf rows) rels impact now).1.length →
      ((solveCore (idMapOf rows) rels impact now).1.getD i dummyTask).ES.isSome ∧
      ((solveCore (idMapOf rows) rels impact now).1.getD i dummyTask).EF.isSome ∧
      ((solveCore (idMapOf rows) rels impact now).1.getD i dummyTask).LS.isSome ∧
      ((solveCore (idMapOf rows) rels impact now).1.getD i dummyTask).LF.isSome ∧
      (((solveCore (idMapOf rows) rels impact now).1.getD i dummyTask).id ∉
          (solveCore (idMapOf rows) rels impact now).2.1 →
        ((solveCore (idMapOf rows) rels impact now).1.getD i dummyTask).ES =
          some ((solveCore (idMapOf rows) rels impact now).1.getD i dummyTask).baseES ∧
        ((solveCore (idMapOf rows) rels impact now).1.getD i dummyTask).EF =
          some (((solveCore (idMapOf rows) rels impact now).1.getD i dummyTask).baseES +
            ((solveCore (idMapOf rows) rels impact now).1.getD i dummyTask).duration * Day)) := by
  intro i hi
  rw [List.getD_eq_getElem _ _ hi]
  obtain ⟨⟨es, hes, hef⟩, ⟨ls, hls, hlf⟩, hfall⟩ := tasks4Of_shapes (idMapOf rows) rels
    impact now (idMapOf_nodup rows) _ (List.getElem_mem hi)
  exact ⟨by rw [hes]; rfl, by rw [hef]; rfl, by rw [hls]; rfl, by rw [hlf]; rfl, hfall⟩

/-- Instance of `simulate_total_cycle_fallback` on the cyclic network
`cycRows`/`cycRels` (`1 ⟶ 2 ⟶ 1`): the first solved record receives all four
dates and, being on a cycle (the popped order is empty), is scheduled at its
own baseline. -/
theorem simulate_total_cycle_fallback_witness :
    0 < (solveCore (idMapOf cycRows) cycRels none 0).1.length ∧
    (((solveCore (idMapOf cycRows) cycRels none 0).1.getD 0 dummyTask).ES.isSome ∧
     ((solveCore (idMapOf cycRows) cycRels none 0).1.getD 0 dummyTask).EF.isSome ∧
     ((solveCore (idMapOf cycRows) cycRels none 0).1.getD 0 dummyTask).LS.isSome ∧
     ((solveCore (idMapOf cycRows) cycRels none 0).1.getD 0 dummyTask).LF.isSome ∧
     (((solveCore (idMapOf cycRows) cycRels none 0).1.getD 0 dummyTask).id ∉
         (solveCore (idMapOf cycRows) cycRels none 0).2.1 →
       ((solveCore (idMapOf cycRows) cycRels none 0).1.getD 0 dummyTask).ES =
         some ((solveCore (idMapOf cycRows) cycRels none 0).1.getD 0 dummyTask).baseES ∧
       ((solveCore (idMapOf cycRows) cycRels none 0).1.getD 0 dummyTask).EF =
         some (((solveCore (idMapOf cycRows) cycRels none 0).1.getD 0 dummyTask).baseES +
           ((solveCore (idMapOf cycRows) cycRels none 0).1.getD 0 dummyTask).duration * Day))) :=
  ⟨by decide, simulate_total_cycle_fallback cycRows cycRels none 0 0 (by decide)⟩

/-- Instance of `simulate_EF_LF_consistent` on the cyclic network: the first
solved record satisfies both consistency identities. -/
theorem simulate_EF_LF_consistent_witness :
    0 < (solveCore (idMapOf cycRows) cycRels none 0).1.length ∧
    ((∃ es, ((solveCore (idMapOf cycRows) cycRels none 0).1.getD 0 dummyTask).ES = some es ∧
        ((solveCore (idMapOf cycRows) cycRels none 0).1.getD 0 dummyTask).EF =
          some (es + ((solveCore (idMapOf cycRows) cycRels none 0).1.getD 0 dummyTask).duration * Day)) ∧
     (∃ ls, ((solveCore (idMapOf cycRows) cycRels none 0).1.getD 0 dummyTask).LS = some ls ∧
        ((solveCore (idMapOf cycRows) cycRels none 0).1.getD 0 dummyTask).LF =
          some (ls + ((solveCore (idMapOf cycRows) cycRels none 0).1.getD 0 dummyTask).duration * Day))) :=
  ⟨by decide, simulate_EF_LF_consistent cycRows cycRels none 0 0 (by decide)⟩

/-! ## C10 — the output frame -/

theorem emitRow_ActivityID (tasks : List Task) (row : Row) :
    (emitRow tasks row).ActivityID = row.ActivityID := by
  unfold emitRow
  cases h : row.ActivityID with
  | none => simp only [h]
  | some id =>
    simp only [h]
    cases lookupTask tasks id with
    | none => exact h
    | some task => rfl

theorem emitRow_extra (tasks : List Task) (row : Row) :
    (emitRow tasks row).extra = row.extra := by
  unfold emitRow
  cases h : row.ActivityID with
  | none => simp only [h]
  | some id =>
    simp only [h]
    cases lookupTask tasks id <;> rfl

theorem emitRow_of_id_none (tasks : List Task) (row : Row)
    (h : row.ActivityID = none) : emitRow tasks row = row := by
  unfold emitRow
  rw [h]

theorem emitRow_of_lookup_none (tasks : List Task) (row : Row) (id : ℚ)
    (h : row.ActivityID = some id) (h2 : lookupTask tasks id = none) :
    emitRow tasks row = row := by
  unfold emitRow
  simp only [h]
  rw [h2]

theorem simulateScenario_of_idMap_nil (rows : List Row) (rels : List Edge)
    (impact : Option Impact) (now : ℚ) (h : idMapOf rows = []) :
    simulateScenario rows rels impact now = rows := by
  cases rows with
  | nil => rfl
  | cons r rs =>
    show (match idMapOf (r :: rs) with
      | [] => r :: rs
      | _ :: _ =>
        match solveCore (idMapOf (r :: rs)) rels impact now with
        | (tasks4, _, _) => (r :: rs).map (emitRow tasks4)) = _
    rw [h]

theorem simulateScenario_eq_map (rows : List Row) (rels : List Edge)
    (impact : Option Impact) (now : ℚ) (h : idMapOf rows ≠ []) :
    simulateScenario rows rels impact now =
      rows.map (emitRow (solveCore (idMapOf rows) rels impact now).1) := by
  cases rows with
  | nil => rfl
  | cons r rs =>
    show (match idMapOf (r :: rs) with
      | [] => r :: rs
      | _ :: _ =>
        match solveCore (idMapOf (r :: rs)) rels impact now with
        | (tasks4, _, _) => (r :: rs).map (emitRow tasks4)) = _
    cases hm2 : idMapOf (r :: rs) with
    | nil => exact absurd hm2 h
    | cons t ts => rfl

/-- **C10.** `simulateScenario` frames its output: the returned list has one
record per input row; each output record keeps the input row's identity
(`ActivityID`) and every field outside the seven recomputed ones (carried in
`extra`); and a row whose id never entered the activity map — a non-finite id,
or an id with no solved task — passes through entirely unchanged.  (The
embedding is purely functional, so the input rows and rels are unchanged by
construction, matching the source's spread-copy discipline: each pass builds
new snapshots and the emission spreads `{...row, …}`.) -/
theorem simulate_frame (rows : List Row) (rels : List Edge) (impact : Option Impact)
    (now : ℚ) :
    (simulateScenario rows rels impact now).length = rows.length ∧
    ∀ i, i < rows.length →
      ((simulateScenario rows rels impact now).getD i dummyRow).ActivityID
        = (rows.getD i dummyRow).ActivityID ∧
      ((simulateScenario rows rels impact now).getD i dummyRow).extra
        = (rows.getD i dummyRow).extra ∧
      ((rows.getD i dummyRow).ActivityID = none →
        (simulateScenario rows rels impact now).getD i dummyRow = rows.getD i dummyRow) ∧
      (∀ id, (rows.getD i dummyRow).ActivityID = some id →
        lookupTask (solveCore (idMapOf rows) rels impact now).1 id = none →
        (simulateScenario rows rels impact now).getD i dummyRow = rows.getD i dummyRow) := by
  by_cases hm : idMapOf rows = []
  · rw [simulateScenario_of_idMap_nil rows rels impact now hm]
    exact ⟨rfl, fun i hi => ⟨rfl, rfl, fun _ => rfl, fun _ _ _ => rfl⟩⟩
  · rw [simulateScenario_eq_map rows rels impact now hm]
    refine ⟨List.length_map _ _, ?_⟩
    intro i hi
    have hi2 : i < (rows.map (emitRow (solveCore (idMapOf rows) rels impact now).1)).length := by
      rw [List.length_map]; exact hi
    rw [List.getD_eq_getElem _ _ hi, List.getD_eq_getElem _ _ hi2, List.getElem_map]
    exact ⟨emitRow_ActivityID _ _, emitRow_extra _ _,
      fun h => emitRow_of_id_none _ _ h,
      fun id h h2 => emitRow_of_lookup_none _ _ id h h2⟩

/-- Instance of `simulate_frame` on a two-row input whose second row has a
non-finite id: lengths match, identity and extra fields survive, and the
id-less row passes through unchanged. -/
theorem simulate_frame_witness :
    (1 < ([mkRow 1 (some 0) none (some 1),
           { dummyRow with extra := "opaque" }] : List Row).length) ∧
    ((simulateScenario [mkRow 1 (some 0) none (some 1),
        { dummyRow with extra := "opaque" }] [] none 0).getD 1 dummyRow).ActivityID
      = (([mkRow 1 (some 0) none (some 1),
          { dummyRow with extra := "opaque" }] : List Row).getD 1 dummyRow).ActivityID ∧
    ((simulateScenario [mkRow 1 (some 0) none (some 1),
        { dummyRow with extra := "opaque" }] [] none 0).getD 1 dummyRow).extra
      = (([mkRow 1 (some 0) none (some 1),
          { dummyRow with extra := "opaque" }] : List Row).getD 1 dummyRow).extra ∧
    ((([mkRow 1 (some 0) none (some 1),
        { dummyRow with extra := "opaque" }] : List Row).getD 1 dummyRow).ActivityID = none →
      (simulateScenario [mkRow 1 (some 0) none (some 1),
        { dummyRow with extra := "opaque" }] [] none 0).getD 1 dummyRow
        = ([mkRow 1 (some 0) none (some 1),
           { dummyRow with extra := "opaque" }] : List Row).getD 1 dummyRow) :=
  ⟨by decide,
   ((simulate_frame [mkRow 1 (some 0) none (some 1),
      { dummyRow with extra := "opaque" }] [] none 0).2 1 (by decide)).1,
   ((simulate_frame [mkRow 1 (some 0) none (some 1),
      { dummyRow with extra := "opaque" }] [] none 0).2 1 (by decide)).2.1,
   ((simulate_frame [mkRow 1 (some 0) none (some 1),
      { dummyRow with extra := "opaque" }] [] none 0).2 1 (by decide)).2.2.1⟩

/-! ## C8 — lockstep monotonicity infrastructure -/

theorem Day_pos : 0 < Day := by norm_num [Day]

theorem leOpt_refl (o : Option ℚ) : leOpt o o := by
  cases o with
  | none => exact Or.inl ⟨rfl, rfl⟩
  | some a => exact Or.inr ⟨a, a, rfl, rfl, le_refl a⟩

theorem leOptZ_refl (o : Option ℤ) : leOptZ o o := by
  cases o with
  | none => exact Or.inl ⟨rfl, rfl⟩
  | some a => exact Or.inr ⟨a, a, rfl, rfl, le_refl a⟩

theorem lookup_forall₂ {R : Task → Task → Prop} (hid : ∀ t u, R t u → u.id = t.id)
    {A B : List Task} (h : List.Forall₂ R A B) (id : ℚ) :
    (lookupTask A id = none ∧ lookupTask B id = none) ∨
    (∃ t u, lookupTask A id = some t ∧ lookupTask B id = some u ∧ R t u) := by
  induction h with
  | nil => exact Or.inl ⟨rfl, rfl⟩
  | @cons t u A' B' hR hrest ih =>
    by_cases hidt : t.id = id
    · exact Or.inr ⟨t, u, List.find?_cons_of_pos _ (by simpa using hidt),
        List.find?_cons_of_pos _ (by simp [hid t u hR, hidt]), hR⟩
    · have hidu : ¬ (u.id = id) := by rw [hid t u hR]; exact hidt
      have e1 : lookupTask (t :: A') id = lookupTask A' id :=
        List.find?_cons_of_neg _ (by simpa using hidt)
      have e2 : lookupTask (u :: B') id = lookupTask B' id :=
        List.find?_cons_of_neg _ (by simpa using hidu)
      rw [e1, e2]
      exact ih

theorem forall₂_map_map {R : Task → Task → Prop} (f g : Task → Task)
    {A B : List Task} (h : List.Forall₂ R A B)
    (hfg : ∀ t u, R t u → R (f t) (g u)) :
    List.Forall₂ R (A.map f) (B.map g) := by
  induction h with
  | nil => exact List.Forall₂.nil
  | cons hR hrest ih => exact List.Forall₂.cons (hfg _ _ hR) ih

theorem forall₂_ids_eq {A B : List Task} (h : List.Forall₂ relTask A B) :
    A.map (fun t => t.id) = B.map (fun t => t.id) := by
  induction h with
  | nil => rfl
  | cons hR hrest ih =>
    simp only [List.map_cons, ih, hR.1]

theorem baseESOf_congr {A B : List Task} (h : List.Forall₂ relTask A B) (id : ℚ) :
    baseESOf A id = baseESOf B id := by
  rcases lookup_forall₂ (fun t u hr => hr.1) h id with ⟨h1, h2⟩ | ⟨t, u, h1, h2, hr⟩
  · unfold baseESOf
    rw [h1, h2]
  · unfold baseESOf
    rw [h1, h2]
    exact hr.2.1.symm

theorem insertByKey_congr (key₁ key₂ : ℚ → ℚ) (hkey : ∀ x, key₁ x = key₂ x)
    (x : ℚ) (l : List ℚ) : insertByKey key₁ x l = insertByKey key₂ x l := by
  induction l with
  | nil => rfl
  | cons y ys ih =>
    unfold insertByKey
    rw [hkey x, hkey y, ih]

theorem sortByKey_congr (key₁ key₂ : ℚ → ℚ) (hkey : ∀ x, key₁ x = key₂ x)
    (l : List ℚ) : sortByKey key₁ l = sortByKey key₂ l := by
  unfold sortByKey
  have aux : ∀ (l acc : List ℚ),
      l.foldl (fun acc x => insertByKey key₁ x acc) acc
        = l.foldl (fun acc x => insertByKey key₂ x acc) acc := by
    intro l
    induction l with
    | nil => intro acc; rfl
    | cons y ys ih =>
      intro acc
      rw [List.foldl_cons, List.foldl_cons, insertByKey_congr key₁ key₂ hkey, ih]
  exact aux l []

/-- One edge-processing step preserves the lockstep relation, for FS/SS
edges (whose `needed` constraints are monotone in the popped task's dates). -/
theorem processEdge_rel (es₁ ef₁ es₂ ef₂ : ℚ) (st₁ st₂ : FwdState) (rel : REdge)
    (hkind : rel.rel = RelKind.FS ∨ rel.rel = RelKind.SS)
    (hes : es₁ ≤ es₂) (hef : ef₁ ≤ ef₂)
    (h : relState st₁ st₂) :
    relState (processEdge es₁ ef₁ st₁ rel) (processEdge es₂ ef₂ st₂ rel) := by
  obtain ⟨htasks, hq, ht, hind, hpend⟩ := h
  rcases lookup_forall₂ (fun t u hr => hr.1) htasks rel.succ with ⟨h1, h2⟩ | ⟨t, u, h1, h2, hr⟩
  · unfold processEdge
    rw [h1, h2]
    exact ⟨htasks, hq, ht, hind, hpend⟩
  · have hneed : neededOf es₁ ef₁ t rel ≤ neededOf es₂ ef₂ u rel := by
      rcases hkind with hk | hk <;> unfold neededOf <;> rw [hk] <;> dsimp only
      · exact add_le_add_right hef _
      · exact add_le_add_right hes _
    have hpend' : ∀ k,
        leOpt (if k = rel.succ then
            some (match st₁.pending rel.succ with
                  | some prev => max prev (neededOf es₁ ef₁ t rel)
                  | none => neededOf es₁ ef₁ t rel)
          else st₁.pending k)
          (if k = rel.succ then
            some (match st₂.pending rel.succ with
                  | some prev => max prev (neededOf es₂ ef₂ u rel)
                  | none => neededOf es₂ ef₂ u rel)
          else st₂.pending k) := by
      intro k
      by_cases hk : k = rel.succ
      · rw [if_pos hk, if_pos hk]
        rcases hpend rel.succ with ⟨p1, p2⟩ | ⟨a, b, p1, p2, hab⟩
        · rw [p1, p2]
          exact Or.inr ⟨_, _, rfl, rfl, hneed⟩
        · rw [p1, p2]
          exact Or.inr ⟨_, _, rfl, rfl, max_le_max hab hneed⟩
      · rw [if_neg hk, if_neg hk]
        exact hpend k
    unfold processEdge
    rw [h1, h2]
    dsimp only
    rw [← hind]
    by_cases hdeg : st₁.indeg rel.succ - 1 = 0
    · rw [if_pos hdeg, if_pos hdeg]
      refine ⟨htasks, ?_, ht, rfl, hpend'⟩
      show sortByKey (baseESOf st₁.tasks) (st₁.queue ++ [rel.succ])
        = sortByKey (baseESOf st₂.tasks) (st₂.queue ++ [rel.succ])
      rw [hq]
      exact sortByKey_congr _ _ (baseESOf_congr htasks) _
    · rw [if_neg hdeg, if_neg hdeg]
      exact ⟨htasks, hq, ht, rfl, hpend'⟩

/-- Folding a run of FS/SS edge-processing steps preserves the lockstep
relation. -/
theorem foldl_processEdge_rel (L : List REdge)
    (hkinds : ∀ r ∈ L, r.rel = RelKind.FS ∨ r.rel = RelKind.SS)
    (es₁ ef₁ es₂ ef₂ : ℚ) (hes : es₁ ≤ es₂) (hef : ef₁ ≤ ef₂) :
    ∀ st₁ st₂, relState st₁ st₂ →
      relState (L.foldl (processEdge es₁ ef₁) st₁) (L.foldl (processEdge es₂ ef₂) st₂) := by
  induction L with
  | nil => intro st₁ st₂ h; exact h
  | cons r rs ih =>
    intro st₁ st₂ h
    exact ih (fun x hx => hkinds x (List.mem_cons_of_mem r hx)) _ _
      (processEdge_rel es₁ ef₁ es₂ ef₂ st₁ st₂ r (hkinds r (List.mem_cons_self r rs)) hes hef h)

/-- One forward-loop iteration preserves the lockstep relation when every
kept edge is FS or SS. -/
theorem fwdStep_rel (edges : List REdge)
    (hkinds : ∀ r ∈ edges, r.rel = RelKind.FS ∨ r.rel = RelKind.SS)
    (s₁ s₂ : FwdState) (h : relState s₁ s₂) :
    relState (fwdStep edges s₁) (fwdStep edges s₂) := by
  obtain ⟨htasks, hq, ht, hind, hpend⟩ := h
  unfold fwdStep
  rw [← hq]
  cases hqc : s₁.queue with
  | nil => exact ⟨htasks, hq, ht, hind, hpend⟩
  | cons tid rest =>
    dsimp only
    rcases lookup_forall₂ (fun t u hr => hr.1) htasks tid with ⟨h1, h2⟩ | ⟨t, u, h1, h2, hr⟩
    · rw [h1, h2]
      exact ⟨htasks, rfl, congrArg (· ++ [tid]) ht, hind, hpend⟩
    · rw [h1, h2]
      dsimp only
      obtain ⟨hid, hbes, hbef, hbls, hblf, hdur, _, _⟩ := hr
      have hsub : ∀ r ∈ succsOf edges tid, r.rel = RelKind.FS ∨ r.rel = RelKind.SS :=
        fun r hrm => hkinds r (List.mem_of_mem_filter hrm)
      have key : ∀ start₁ start₂ : ℚ, start₁ ≤ start₂ →
          relState
            ((succsOf edges tid).foldl
              (processEdge start₁ (start₁ + t.duration * Day))
              { s₁ with
                tasks := s₁.tasks.map (fun x =>
                  if x.id = tid then
                    { x with ES := some start₁,
                             EF := some (start₁ + t.duration * Day) }
                  else x),
                queue := rest, topo := s₁.topo ++ [tid] })
            ((succsOf edges tid).foldl
              (processEdge start₂ (start₂ + u.duration * Day))
              { s₂ with
                tasks := s₂.tasks.map (fun x =>
                  if x.id = tid then
                    { x with ES := some start₂,
                             EF := some (start₂ + u.duration * Day) }
                  else x),
                queue := rest, topo := s₂.topo ++ [tid] }) := by
        intro start₁ start₂ hstart
        have hef : start₁ + t.duration * Day ≤ start₂ + u.duration * Day :=
          add_le_add hstart (mul_le_mul_of_nonneg_right hdur Day_pos.le)
        have htasks' := forall₂_map_map
          (fun x => if x.id = tid then
              { x with ES := some start₁, EF := some (start₁ + t.duration * Day) }
            else x)
          (fun x => if x.id = tid then
              { x with ES := some start₂, EF := some (start₂ + u.duration * Day) }
            else x)
          htasks (by
            intro x y hxy
            dsimp only
            by_cases hx : x.id = tid
            · have hy : y.id = tid := by rw [hxy.1, hx]
              rw [if_pos hx, if_pos hy]
              exact ⟨hxy.1, hxy.2.1, hxy.2.2.1, hxy.2.2.2.1, hxy.2.2.2.2.1,
                hxy.2.2.2.2.2.1, Or.inr ⟨_, _, rfl, rfl, hstart⟩,
                Or.inr ⟨_, _, rfl, rfl, hef⟩⟩
            · have hy : ¬ y.id = tid := fun hc => hx (by rw [← hxy.1]; exact hc)
              rw [if_neg hx, if_neg hy]
              exact hxy)
        exact foldl_processEdge_rel _ hsub start₁ (start₁ + t.duration * Day)
          start₂ (start₂ + u.duration * Day) hstart hef _ _
          ⟨htasks', rfl, congrArg (· ++ [tid]) ht, hind, hpend⟩
      rcases hpend tid with ⟨p1, p2⟩ | ⟨a, b, p1, p2, hab⟩
      · rw [p1, p2]
        exact key _ _ (le_of_eq hbes.symm)
      · rw [p1, p2]
        exact key _ _ (max_le_max hab (le_of_eq hbes.symm))

/-- The whole Kahn loop preserves the lockstep relation on FS/SS networks. -/
theorem fwdLoop_rel (edges : List REdge)
    (hkinds : ∀ r ∈ edges, r.rel = RelKind.FS ∨ r.rel = RelKind.SS) (fuel : ℕ) :
    ∀ s₁ s₂, relState s₁ s₂ → relState (fwdLoop edges fuel s₁) (fwdLoop edges fuel s₂) := by
  induction fuel with
  | zero => intro s₁ s₂ h; exact h
  | succ n ih =>
    intro s₁ s₂ h
    unfold fwdLoop
    rw [← h.2.1]
    cases s₁.queue with
    | nil => exact h
    | cons tid rest => exact ih _ _ (fwdStep_rel edges hkinds s₁ s₂ h)

theorem relTask_refl (t : Task) : relTask t t :=
  ⟨rfl, rfl, rfl, rfl, rfl, le_refl _, leOpt_refl _, leOpt_refl _⟩

theorem forall₂_relTask_refl (A : List Task) : List.Forall₂ relTask A A := by
  induction A with
  | nil => exact List.Forall₂.nil
  | cons t ts ih => exact List.Forall₂.cons (relTask_refl t) ih

/-- Applying the same impact target with a smaller delta yields a pointwise
`relTask`-smaller working store. -/
theorem tasks1_rel (m : List Task0) (aid δ₁ δ₂ now : ℚ) (hδ : δ₁ ≤ δ₂) :
    List.Forall₂ relTask (tasks1Of m (some ⟨some aid, some δ₁⟩) now)
      (tasks1Of m (some ⟨some aid, some δ₂⟩) now) := by
  unfold tasks1Of applyImpact
  dsimp only
  refine forall₂_map_map _ _ (forall₂_relTask_refl _) ?_
  intro x y hxy
  dsimp only
  by_cases hx : x.id = aid
  · have hy : y.id = aid := by rw [hxy.1, hx]
    rw [if_pos hx, if_pos hy]
    exact ⟨hxy.1, hxy.2.1, hxy.2.2.1, hxy.2.2.2.1, hxy.2.2.2.2.1,
      max_le_max (le_refl 0) (add_le_add hxy.2.2.2.2.2.1 hδ),
      hxy.2.2.2.2.2.2.1, hxy.2.2.2.2.2.2.2⟩
  · have hy : ¬ y.id = aid := fun hc => hx (by rw [← hxy.1]; exact hc)
    rw [if_neg hx, if_neg hy]
    exact hxy

/-- The kept edge list depends on the activity map only through its ids, which
no impact changes. -/
theorem edgesOf_ids (m : List Task0) (rels : List Edge) (impact : Option Impact)
    (now : ℚ) :
    edgesOf m rels impact now = filterEdges (m.map (fun u => u.id)) rels := by
  unfold edgesOf
  rw [show (tasks1Of m impact now).map (fun t => t.id) = m.map (fun u => u.id) from by
    unfold tasks1Of; rw [applyImpact_ids, defaultTasks_ids]]

/-- When every raw relationship normalises to FS or SS, so does every kept
edge. -/
theorem filterEdges_kinds (ids : List ℚ) (rels : List Edge)
    (hrel : ∀ e ∈ rels, normalizeRelType e.RelType = RelKind.FS ∨
      normalizeRelType e.RelType = RelKind.SS) :
    ∀ r ∈ filterEdges ids rels, r.rel = RelKind.FS ∨ r.rel = RelKind.SS := by
  intro r hr
  unfold filterEdges at hr
  rcases List.mem_filterMap.mp hr with ⟨e, he, hsome⟩
  have he' : e ∈ rels := List.mem_of_mem_filter he
  rcases hp : e.PredID with _ | p
  · rw [hp] at hsome
    exact Option.noConfusion hsome
  · rcases hs : e.SuccID with _ | s
    · rw [hp, hs] at hsome
      exact Option.noConfusion hsome
    · rw [hp, hs] at hsome
      have hre := Option.some.inj hsome
      subst hre
      exact hrel e he'

/-- Filtering by an id-determined predicate and projecting the ids commutes
with replacing tasks by id-equal ones. -/
theorem filter_map_id_congr {A B : List Task} (h : List.Forall₂ relTask A B)
    (p : Task → Bool) (hp : ∀ t u, t.id = u.id → p t = p u) :
    (A.filter p).map (fun t => t.id) = (B.filter p).map (fun t => t.id) := by
  induction h with
  | nil => rfl
  | @cons t u ts us hR hrest ih =>
    rw [List.filter_cons, List.filter_cons, hp u t hR.1]
    by_cases hpt : p t = true
    · rw [if_pos hpt, if_pos hpt, List.map_cons, List.map_cons, ih, hR.1]
    · rw [if_neg hpt, if_neg hpt]
      exact ih

/-- The initial forward states of two runs differing only in the impact delta
are lockstep-related. -/
theorem fwdInit_rel (m : List Task0) (rels : List Edge) (aid δ₁ δ₂ now : ℚ)
    (hδ : δ₁ ≤ δ₂) :
    relState (fwdInit m rels (some ⟨some aid, some δ₁⟩) now)
      (fwdInit m rels (some ⟨some aid, some δ₂⟩) now) := by
  have h1 := tasks1_rel m aid δ₁ δ₂ now hδ
  have hedges : edgesOf m rels (some ⟨some aid, some δ₁⟩) now
      = edgesOf m rels (some ⟨some aid, some δ₂⟩) now := by
    rw [edgesOf_ids, edgesOf_ids]
  refine ⟨h1, ?_, rfl, ?_, fun k => Or.inl ⟨rfl, rfl⟩⟩
  · show sortByKey (baseESOf (tasks1Of m (some ⟨some aid, some δ₁⟩) now))
        (((tasks1Of m (some ⟨some aid, some δ₁⟩) now).filter
          (fun t => indegInit (edgesOf m rels (some ⟨some aid, some δ₁⟩) now) t.id = 0)).map
            (fun t => t.id))
      = sortByKey (baseESOf (tasks1Of m (some ⟨some aid, some δ₂⟩) now))
        (((tasks1Of m (some ⟨some aid, some δ₂⟩) now).filter
          (fun t => indegInit (edgesOf m rels (some ⟨some aid, some δ₂⟩) now) t.id = 0)).map
            (fun t => t.id))
    rw [hedges,
      filter_map_id_congr h1
        (fun t => decide
          (indegInit (edgesOf m rels (some ⟨some aid, some δ₂⟩) now) t.id = 0))
        (fun t u hid => by dsimp only; rw [hid]),
      sortByKey_congr _ _ (baseESOf_congr h1)]
  · show indegInit (edgesOf m rels (some ⟨some aid, some δ₁⟩) now)
      = indegInit (edgesOf m rels (some ⟨some aid, some δ₂⟩) now)
    rw [hedges]

/-- The drained forward states of the two runs are lockstep-related on an
FS/SS network. -/
theorem sEnd_rel (m : List Task0) (rels : List Edge) (aid δ₁ δ₂ now : ℚ)
    (hδ : δ₁ ≤ δ₂)
    (hrel : ∀ e ∈ rels, normalizeRelType e.RelType = RelKind.FS ∨
      normalizeRelType e.RelType = RelKind.SS) :
    relState (sEndOf m rels (some ⟨some aid, some δ₁⟩) now)
      (sEndOf m rels (some ⟨some aid, some δ₂⟩) now) := by
  have h1 := tasks1_rel m aid δ₁ δ₂ now hδ
  have hedges : edgesOf m rels (some ⟨some aid, some δ₁⟩) now
      = edgesOf m rels (some ⟨some aid, some δ₂⟩) now := by
    rw [edgesOf_ids, edgesOf_ids]
  have hkinds : ∀ r ∈ edgesOf m rels (some ⟨some aid, some δ₂⟩) now,
      r.rel = RelKind.FS ∨ r.rel = RelKind.SS := by
    rw [edgesOf_ids]
    exact filterEdges_kinds _ _ hrel
  unfold sEndOf
  rw [hedges, h1.length_eq]
  exact fwdLoop_rel _ hkinds _ _ _ (fwdInit_rel m rels aid δ₁ δ₂ now hδ)

/-- The cycle fallback preserves the lockstep store relation. -/
theorem fillES_rel {A B : List Task} (h : List.Forall₂ relTask A B) :
    List.Forall₂ relTask (fillES A) (fillES B) := by
  refine forall₂_map_map _ _ h ?_
  intro x y hxy
  dsimp only
  rcases hxy.2.2.2.2.2.2.1 with ⟨e1, e2⟩ | ⟨a, b, e1, e2, hab⟩
  · rw [e1, e2]
    exact ⟨hxy.1, hxy.2.1, hxy.2.2.1, hxy.2.2.2.1, hxy.2.2.2.2.1, hxy.2.2.2.2.2.1,
      Or.inr ⟨_, _, rfl, rfl, le_of_eq hxy.2.1.symm⟩,
      Or.inr ⟨_, _, rfl, rfl,
        add_le_add (le_of_eq hxy.2.1.symm)
          (mul_le_mul_of_nonneg_right hxy.2.2.2.2.2.1 Day_pos.le)⟩⟩
  · rw [e1, e2]
    exact hxy

/-- `relTask` only inspects the static fields and the early dates, so it
transfers along equal `statics`/`datePair` projections. -/
theorem relTask_of_proj {a t b u : Task} (hs : statics a = statics t)
    (hd : datePair a = datePair t) (hs' : statics b = statics u)
    (hd' : datePair b = datePair u) (hR : relTask t u) : relTask a b := by
  have ha1 : a.id = t.id := congrArg (fun p => p.1) hs
  have ha2 : a.duration = t.duration := congrArg (fun p => p.2.1) hs
  have ha3 : a.baseES = t.baseES := congrArg (fun p => p.2.2.1) hs
  have ha4 : a.baseEF = t.baseEF := congrArg (fun p => p.2.2.2.1) hs
  have ha5 : a.baseLS = t.baseLS := congrArg (fun p => p.2.2.2.2.1) hs
  have ha6 : a.baseLF = t.baseLF := congrArg (fun p => p.2.2.2.2.2) hs
  have ha7 : a.ES = t.ES := congrArg Prod.fst hd
  have ha8 : a.EF = t.EF := congrArg Prod.snd hd
  have hb1 : b.id = u.id := congrArg (fun p => p.1) hs'
  have hb2 : b.duration = u.duration := congrArg (fun p => p.2.1) hs'
  have hb3 : b.baseES = u.baseES := congrArg (fun p => p.2.2.1) hs'
  have hb4 : b.baseEF = u.baseEF := congrArg (fun p => p.2.2.2.1) hs'
  have hb5 : b.baseLS = u.baseLS := congrArg (fun p => p.2.2.2.2.1) hs'
  have hb6 : b.baseLF = u.baseLF := congrArg (fun p => p.2.2.2.2.2) hs'
  have hb7 : b.ES = u.ES := congrArg Prod.fst hd'
  have hb8 : b.EF = u.EF := congrArg Prod.snd hd'
  refine ⟨?_, ?_, ?_, ?_, ?_, ?_, ?_, ?_⟩
  · rw [hb1, ha1]; exact hR.1
  · rw [hb3, ha3]; exact hR.2.1
  · rw [hb4, ha4]; exact hR.2.2.1
  · rw [hb5, ha5]; exact hR.2.2.2.1
  · rw [hb6, ha6]; exact hR.2.2.2.2.1
  · rw [ha2, hb2]; exact hR.2.2.2.2.2.1
  · rw [ha7, hb7]; exact hR.2.2.2.2.2.2.1
  · rw [ha8, hb8]; exact hR.2.2.2.2.2.2.2

/-- Pointwise transfer of the store relation along equal projections. -/
theorem forall₂_relTask_of_proj :
    ∀ {A B A' B' : List Task}, List.Forall₂ relTask A B →
    A'.map statics = A.map statics → A'.map datePair = A.map datePair →
    B'.map statics = B.map statics → B'.map datePair = B.map datePair →
    List.Forall₂ relTask A' B' := by
  intro A B A' B' h
  induction h generalizing A' B' with
  | nil =>
    intro hs hd hs' hd'
    cases A' with
    | cons a as => exact absurd hs (by simp)
    | nil =>
      cases B' with
      | cons b bs => exact absurd hs' (by simp)
      | nil => exact List.Forall₂.nil
  | @cons t u ts us hR hrest ih =>
    intro hs hd hs' hd'
    cases A' with
    | nil => exact absurd hs (by simp)
    | cons a as =>
      cases B' with
      | nil => exact absurd hs' (by simp)
      | cons b bs =>
        simp only [List.map_cons, List.cons.injEq] at hs hd hs' hd'
        exact List.Forall₂.cons
          (relTask_of_proj hs.1 hd.1 hs'.1 hd'.1 hR)
          (ih hs.2 hd.2 hs'.2 hd'.2)

/-- The backward and float passes leave the static fields and the early dates
of the whole store untouched. -/
theorem tasks4_proj (m : List Task0) (rels : List Edge) (impact : Option Impact)
    (now : ℚ) (hnd : (m.map (fun u => u.id)).Nodup) :
    (tasks4Of m rels impact now).map statics = (tasks2Of m rels impact now).map statics ∧
    (tasks4Of m rels impact now).map datePair = (tasks2Of m rels impact now).map datePair := by
  have hids1 : (tasks1Of m impact now).map (fun t => t.id) = m.map (fun u => u.id) := by
    unfold tasks1Of
    rw [applyImpact_ids, defaultTasks_ids]
  have hst2 : (tasks2Of m rels impact now).map statics
      = (tasks1Of m impact now).map statics :=
    (fillES_statics _).trans (fwdLoop_statics _ _ _)
  have hnd2 : ((tasks2Of m rels impact now).map (fun t => t.id)).Nodup := by
    rw [ids_eq_of_statics_eq hst2, hids1]; exact hnd
  have hst3 : (tasks3Of m rels impact now).map statics
      = (tasks2Of m rels impact now).map statics :=
    backward_proj statics (fun _ _ _ _ => rfl) _ _ _ _ hnd2
  have hdp3 : (tasks3Of m rels impact now).map datePair
      = (tasks2Of m rels impact now).map datePair :=
    backward_proj datePair (fun _ _ _ _ => rfl) _ _ _ _ hnd2
  constructor
  · show ((tasks3Of m rels impact now).map
        (floatTask (edgesOf m rels impact now) (tasks3Of m rels impact now)
          (defaultStartOf m now))).map statics = _
    rw [List.map_map]
    refine Eq.trans ?_ hst3
    exact List.map_congr_left (fun u _ => floatTask_statics _ _ _ u)
  · show ((tasks3Of m rels impact now).map
        (floatTask (edgesOf m rels impact now) (tasks3Of m rels impact now)
          (defaultStartOf m now))).map datePair = _
    rw [List.map_map]
    refine Eq.trans ?_ hdp3
    exact List.map_congr_left (fun u _ => floatTask_datePair _ _ _ u)

/-- The day-count emitted by `toISODate` is monotone in the millisecond
value. -/
theorem dayFloor_mono {a b : ℚ} (h : a ≤ b) : dayFloor a ≤ dayFloor b := by
  unfold dayFloor
  exact Int.floor_mono ((div_le_div_iff_of_pos_right Day_pos).mpr h)

/-- Emission against two lockstep-related stores yields pointwise-ordered
(and equally present) `EF` day values. -/
theorem emitRow_EF_rel {T₁ T₂ : List Task} (h : List.Forall₂ relTask T₁ T₂)
    (row : Row) : leOptZ (emitRow T₁ row).EF (emitRow T₂ row).EF := by
  unfold emitRow
  cases hact : row.ActivityID with
  | none => exact leOptZ_refl _
  | some id =>
    dsimp only
    rcases lookup_forall₂ (fun t u hr => hr.1) h id with ⟨h1, h2⟩ | ⟨t, u, h1, h2, hr⟩
    · rw [h1, h2]
      exact leOptZ_refl _
    · rw [h1, h2]
      dsimp only
      rcases hr.2.2.2.2.2.2.2 with ⟨e1, e2⟩ | ⟨a, b, e1, e2, hab⟩
      · rw [e1, e2]
        exact leOptZ_refl _
      · rw [e1, e2]
        exact Or.inr ⟨_, _, rfl, rfl, dayFloor_mono hab⟩

theorem forall₂_map_of_forall {l : List Row} (f g : Row → Row)
    (R : Row → Row → Prop) (h : ∀ r, R (f r) (g r)) :
    List.Forall₂ R (l.map f) (l.map g) := by
  induction l with
  | nil => exact List.Forall₂.nil
  | cons r rs ih => exact List.Forall₂.cons (h r) ih

/-- The running-maximum project finish is monotone under a pointwise `EF`
bound. -/
theorem maxEFDay_rel {l₁ l₂ : List Row}
    (h : List.Forall₂ (fun a b => leOptZ a.EF b.EF) l₁ l₂) :
    leOptZ (maxEFDay l₁) (maxEFDay l₂) := by
  have hfm : List.Forall₂ (fun a b : ℤ => a ≤ b)
      (l₁.filterMap (fun r => r.EF)) (l₂.filterMap (fun r => r.EF)) := by
    induction h with
    | nil => exact List.Forall₂.nil
    | @cons a b as bs hab hrest ih =>
      rw [List.filterMap_cons, List.filterMap_cons]
      rcases hab with ⟨e1, e2⟩ | ⟨x, y, e1, e2, hxy⟩
      · rw [e1, e2]
        exact ih
      · rw [e1, e2]
        exact List.Forall₂.cons hxy ih
  have aux : ∀ {d₁ d₂ : List ℤ}, List.Forall₂ (fun a b : ℤ => a ≤ b) d₁ d₂ →
      ∀ a₁ a₂ : Option ℤ, leOptZ a₁ a₂ →
      leOptZ
        (d₁.foldl (fun acc d =>
          match acc with | some a => some (max a d) | none => some d) a₁)
        (d₂.foldl (fun acc d =>
          match acc with | some a => some (max a d) | none => some d) a₂) := by
    intro d₁ d₂ hd
    induction hd with
    | nil => intro a₁ a₂ hacc; exact hacc
    | @cons x y xs ys hxy hrest ih =>
      intro a₁ a₂ hacc
      rw [List.foldl_cons, List.foldl_cons]
      apply ih
      rcases hacc with ⟨e1, e2⟩ | ⟨a, b, e1, e2, hab⟩
      · rw [e1, e2]
        exact Or.inr ⟨_, _, rfl, rfl, hxy⟩
      · rw [e1, e2]
        exact Or.inr ⟨_, _, rfl, rfl, max_le_max hab hxy⟩
  exact aux hfm none none (Or.inl ⟨rfl, rfl⟩)

/-- **C8 (counterexample).** The claim — maximum emitted `EF` is monotone in
`deltaDays` whenever the target activity has zero baseline total float — fails
on `rowsC8`/`relsC8`: activity 20 has total float 0 in the baseline solve, yet
raising its delta from 0 to 1 moves the project finish from day 29 to day 28.
(The FF edge `10 ⟶ 20` constrains 20's finish, so a longer 20 starts earlier,
and the SS edge `20 ⟶ 30` hands the earlier start on to 30.) -/
theorem delta_not_monotone_eval :
    ((simulateScenario rowsC8 relsC8 none 0).getD 1 dummyRow).ActivityID = some 20 ∧
    ((simulateScenario rowsC8 relsC8 none 0).getD 1 dummyRow).TotalFloat_d = some 0 ∧
    maxEFDay (simulateScenario rowsC8 relsC8 (some ⟨some 20, some 0⟩) 0) = some 29 ∧
    maxEFDay (simulateScenario rowsC8 relsC8 (some ⟨some 20, some 1⟩) 0) = some 28 := by
  refine ⟨?_, ?_, ?_, ?_⟩ <;> with_unfolding_all decide

/-- **C8 (amended).** On a network whose every relationship normalises to FS
or SS, the project finish — the maximum emitted `EF` day value — is monotone
in the scenario delta, for any target activity and any pair `δ₁ ≤ δ₂` (no
total-float hypothesis is needed).  With FF or SF edges the property fails
even for a zero-total-float target, because those constraints push a longer
successor's start earlier. -/
theorem delta_monotone_FS_SS (rows : List Row) (rels : List Edge)
    (aid δ₁ δ₂ now : ℚ)
    (hrel : ∀ e ∈ rels, normalizeRelType e.RelType = RelKind.FS ∨
      normalizeRelType e.RelType = RelKind.SS)
    (hδ : δ₁ ≤ δ₂) :
    leOptZ (maxEFDay (simulateScenario rows rels (some ⟨some aid, some δ₁⟩) now))
      (maxEFDay (simulateScenario rows rels (some ⟨some aid, some δ₂⟩) now)) := by
  by_cases hm : idMapOf rows = []
  · rw [simulateScenario_of_idMap_nil _ _ _ _ hm, simulateScenario_of_idMap_nil _ _ _ _ hm]
    exact leOptZ_refl _
  · rw [simulateScenario_eq_map _ _ _ _ hm, simulateScenario_eq_map _ _ _ _ hm]
    have h2 : List.Forall₂ relTask
        (tasks2Of (idMapOf rows) rels (some ⟨some aid, some δ₁⟩) now)
        (tasks2Of (idMapOf rows) rels (some ⟨some aid, some δ₂⟩) now) :=
      fillES_rel (sEnd_rel (idMapOf rows) rels aid δ₁ δ₂ now hδ hrel).1
    have hp₁ := tasks4_proj (idMapOf rows) rels (some ⟨some aid, some δ₁⟩) now
      (idMapOf_nodup rows)
    have hp₂ := tasks4_proj (idMapOf rows) rels (some ⟨some aid, some δ₂⟩) now
      (idMapOf_nodup rows)
    have h4 : List.Forall₂ relTask
        (tasks4Of (idMapOf rows) rels (some ⟨some aid, some δ₁⟩) now)
        (tasks4Of (idMapOf rows) rels (some ⟨some aid, some δ₂⟩) now) :=
      forall₂_relTask_of_proj h2 hp₁.1 hp₁.2 hp₂.1 hp₂.2
    exact maxEFDay_rel (forall₂_map_of_forall _ _ _ (fun r => emitRow_EF_rel h4 r))

/-- The monotonicity theorem applied to the concrete FS chain `1 ⟶FS⟶ 2` with
target 2 and deltas `0 ≤ 1`. -/
theorem delta_monotone_FS_SS_witness :
    (0 : ℚ) ≤ 1 ∧
    leOptZ (maxEFDay (simulateScenario monoRows monoRels (some ⟨some 2, some 0⟩) 0))
      (maxEFDay (simulateScenario monoRows monoRels (some ⟨some 2, some 1⟩) 0)) :=
  ⟨by norm_num,
   delta_monotone_FS_SS monoRows monoRels 2 0 1 0
     (by
       intro e he
       simp only [monoRels, List.mem_singleton] at he
       subst he
       exact Or.inl (by with_unfolding_all decide))
     (by norm_num)⟩

/-! ## C4 — forward-pass characterisation infrastructure -/

theorem insertByKey_perm (key : ℚ → ℚ) (x : ℚ) (l : List ℚ) :
    List.Perm (insertByKey key x l) (x :: l) := by
  induction l with
  | nil => exact List.Perm.refl _
  | cons y ys ih =>
    unfold insertByKey
    by_cases h : key x < key y
    · rw [if_pos h]
    · rw [if_neg h]
      exact (ih.cons y).trans (List.Perm.swap x y ys)

theorem sortByKey_perm (key : ℚ → ℚ) (l : List ℚ) :
    List.Perm (sortByKey key l) l := by
  have aux : ∀ (l acc : List ℚ),
      List.Perm (l.foldl (fun acc x => insertByKey key x acc) acc) (acc ++ l) := by
    intro l
    induction l with
    | nil => intro acc; simp
    | cons x xs ih =>
      intro acc
      rw [List.foldl_cons]
      refine (ih _).trans ?_
      refine ((insertByKey_perm key x acc).append_right xs).trans ?_
      exact List.perm_middle.symm
  simpa using aux l []

theorem mem_sortByKey (key : ℚ → ℚ) (l : List ℚ) (x : ℚ) :
    x ∈ sortByKey key l ↔ x ∈ l :=
  (sortByKey_perm key l).mem_iff

theorem sortByKey_nodup (key : ℚ → ℚ) (l : List ℚ) (h : l.Nodup) :
    (sortByKey key l).Nodup :=
  (sortByKey_perm key l).nodup_iff.mpr h

theorem lookupTask_eq_id {S : List Task} {k : ℚ} {t : Task}
    (h : lookupTask S k = some t) : t.id = k := by
  have := List.find?_some h
  simpa using this

theorem lookupTask_mem {S : List Task} {k : ℚ} {t : Task}
    (h : lookupTask S k = some t) : t ∈ S :=
  List.mem_of_find?_eq_some h

theorem lookupTask_map (f : Task → Task) (hf : ∀ t, (f t).id = t.id)
    (S : List Task) (k : ℚ) :
    lookupTask (S.map f) k = (lookupTask S k).map f := by
  induction S with
  | nil => rfl
  | cons t ts ih =>
    show List.find? _ (f t :: ts.map f) = _
    by_cases h : t.id = k
    · rw [List.find?_cons_of_pos _ (by simpa [hf] using h),
        show lookupTask (t :: ts) k = some t from
          List.find?_cons_of_pos _ (by simpa using h)]
      rfl
    · rw [List.find?_cons_of_neg _ (by simpa [hf] using h)]
      show lookupTask (ts.map f) k = _
      rw [ih, show lookupTask (t :: ts) k = lookupTask ts k from
        List.find?_cons_of_neg _ (by simpa using h)]

theorem lookupTask_of_not_mem {S : List Task} {k : ℚ}
    (h : ∀ t ∈ S, t.id ≠ k) : lookupTask S k = none := by
  apply List.find?_eq_none.mpr
  intro t ht
  simpa using h t ht

theorem lookupTask_get {S : List Task} (hnd : (S.map (fun t => t.id)).Nodup) :
    ∀ (i : ℕ) (hi : i < S.length),
      lookupTask S ((S.get ⟨i, hi⟩).id) = some (S.get ⟨i, hi⟩) := by
  induction S with
  | nil => intro i hi; exact absurd hi (by simp)
  | cons t ts ih =>
    intro i hi
    cases i with
    | zero => exact List.find?_cons_of_pos _ (by simp)
    | succ n =>
      have hn : n < ts.length := Nat.lt_of_succ_lt_succ hi
      have hne : ¬ t.id = (ts.get ⟨n, hn⟩).id := by
        intro hc
        have hmem : (ts.get ⟨n, hn⟩).id ∈ ts.map (fun t => t.id) :=
          List.mem_map.mpr ⟨_, List.get_mem ts n hn, rfl⟩
        rw [List.map_cons] at hnd
        exact (List.nodup_cons.mp hnd).1 (hc ▸ hmem)
      show lookupTask (t :: ts) ((ts.get ⟨n, hn⟩).id) = _
      rw [show lookupTask (t :: ts) ((ts.get ⟨n, hn⟩).id)
          = lookupTask ts ((ts.get ⟨n, hn⟩).id) from
          List.find?_cons_of_neg _ (by simpa using hne)]
      exact ih (List.nodup_cons.mp (by rw [List.map_cons] at hnd; exact hnd)).2 n hn

theorem neededOf_eq_of_duration (es ef : ℚ) {u u' : Task} (h : u'.duration = u.duration)
    (e : REdge) : neededOf es ef u' e = neededOf es ef u e := by
  unfold neededOf
  cases e.rel <;> simp [h]

theorem pendStep_comm (S : List Task) (o : Option ℚ) (e₁ e₂ : REdge) :
    pendStep S (pendStep S o e₁) e₂ = pendStep S (pendStep S o e₂) e₁ := by
  unfold pendStep
  cases needOf S e₁ with
  | none => cases needOf S e₂ <;> rfl
  | some w =>
    cases needOf S e₂ with
    | none => rfl
    | some v =>
      dsimp only
      unfold combineMax
      cases o with
      | none => dsimp only; rw [max_comm]
      | some c => dsimp only; rw [sup_right_comm]

theorem pendFold_perm (S : List Task) {L L' : List REdge} (h : List.Perm L L') :
    pendFold S L = pendFold S L' := by
  have haux : ∀ acc, L.foldl (pendStep S) acc = L'.foldl (pendStep S) acc := by
    induction h with
    | nil => intro acc; rfl
    | cons x _ ih =>
      intro acc
      rw [List.foldl_cons, List.foldl_cons]
      exact ih _
    | swap x y l =>
      intro acc
      rw [List.foldl_cons, List.foldl_cons, List.foldl_cons, List.foldl_cons,
        pendStep_comm]
    | trans _ _ ih1 ih2 =>
      intro acc
      rw [ih1, ih2]
  exact haux none

theorem pendFold_congr {S T : List Task} :
    ∀ {L : List REdge}, (∀ e ∈ L, needOf S e = needOf T e) →
      pendFold S L = pendFold T L := by
  have haux : ∀ (L : List REdge), (∀ e ∈ L, needOf S e = needOf T e) →
      ∀ acc, L.foldl (pendStep S) acc = L.foldl (pendStep T) acc := by
    intro L
    induction L with
    | nil => intro _ acc; rfl
    | cons e es ih =>
      intro h acc
      rw [List.foldl_cons, List.foldl_cons,
        show pendStep S acc e = pendStep T acc e from by
          unfold pendStep; rw [h e (List.mem_cons_self e es)]]
      exact ih (fun x hx => h x (List.mem_cons_of_mem e hx)) _
  intro L h
  exact haux L h none

theorem pendFold_append (S : List Task) (L₁ L₂ : List REdge) :
    pendFold S (L₁ ++ L₂) = L₂.foldl (pendStep S) (pendFold S L₁) := by
  unfold pendFold
  rw [List.foldl_append]

theorem filter_or_perm {α : Type} (p q : α → Bool) (l : List α)
    (hdisj : ∀ a ∈ l, ¬ (p a = true ∧ q a = true)) :
    List.Perm (l.filter (fun a => p a || q a)) (l.filter p ++ l.filter q) := by
  induction l with
  | nil => exact List.Perm.refl _
  | cons x xs ih =>
    have ihx := ih (fun a ha => hdisj a (List.mem_cons_of_mem x ha))
    rw [List.filter_cons, List.filter_cons, List.filter_cons]
    by_cases hp : p x = true
    · have hq : ¬ q x = true := fun hq => hdisj x (List.mem_cons_self x xs) ⟨hp, hq⟩
      rw [if_pos (by simp [hp]), if_pos hp, if_neg hq]
      exact ihx.cons x
    · by_cases hq : q x = true
      · rw [if_pos (by simp [hp, hq]), if_neg hp, if_pos hq]
        exact (ihx.cons x).trans List.perm_middle.symm
      · rw [if_neg (by simp [hp, hq]), if_neg hp, if_neg hq]
        exact ihx

/-- The initial forward state satisfies the loop invariant. -/
theorem fwdInv_init (edges : List REdge) (T0 : List Task)
    (hnd : (T0.map (fun t => t.id)).Nodup)
    (hun : ∀ t ∈ T0, t.ES = none ∧ t.EF = none) :
    FwdInv edges (T0.map (fun t => t.id))
      { tasks := T0
        indeg := indegInit edges
        pending := fun _ => none
        queue := sortByKey (baseESOf T0)
          ((T0.filter (fun t => indegInit edges t.id = 0)).map (fun t => t.id))
        topo := [] } := by
  refine ⟨rfl, hnd, List.nodup_nil, ?_, ?_, ?_, ?_, ?_, ?_, ?_, ?_, ?_, ?_, ?_⟩
  · exact sortByKey_nodup _ _
      (List.Nodup.sublist ((List.filter_sublist _).map _) hnd)
  · intro x hx
    exact absurd hx (List.not_mem_nil x)
  · intro x hx
    rw [mem_sortByKey] at hx
    rcases List.mem_map.mp hx with ⟨t, ht, rfl⟩
    exact List.mem_map.mpr ⟨t, List.mem_of_mem_filter ht, rfl⟩
  · intro x hx
    exact List.not_mem_nil x
  · intro x hx
    rw [mem_sortByKey] at hx
    rcases List.mem_map.mp hx with ⟨t, ht, rfl⟩
    have := List.of_mem_filter ht
    simpa using this
  · intro x hx
    exact absurd hx (List.not_mem_nil x)
  · intro k
    show indegInit edges k = _
    rw [show (inEdges edges k).filter (fun e => ¬ e.pred ∈ ([] : List ℚ))
        = inEdges edges k from List.filter_eq_self.mpr (fun e _ => by simp)]
    rfl
  · intro k hk hnt h0
    rw [mem_sortByKey]
    rcases List.mem_map.mp hk with ⟨t, ht, rfl⟩
    exact List.mem_map.mpr ⟨t, List.mem_filter.mpr ⟨ht, by simpa using h0⟩, rfl⟩
  · intro k
    show none = _
    rw [show (inEdges edges k).filter (fun e => e.pred ∈ ([] : List ℚ))
        = [] from List.filter_eq_nil_iff.mpr (fun e _ => by simp)]
    rfl
  · intro t ht
    constructor
    · intro h
      exact absurd h (List.not_mem_nil _)
    · intro _
      exact hun t ht
  · intro i hi
    exact absurd hi (by simp)

theorem lookupTask_some_of_mem {S : List Task} {k : ℚ}
    (h : k ∈ S.map (fun t => t.id)) : ∃ u, lookupTask S k = some u := by
  cases hl : lookupTask S k with
  | some u => exact ⟨u, rfl⟩
  | none =>
    rcases List.mem_map.mp h with ⟨t, ht, rfl⟩
    have := List.find?_eq_none.mp hl t ht
    simp at this

/-- One `processEdge` call moves one out-edge of the popped task from the
remaining list to the processed list, preserving the intermediate invariant. -/
theorem processEdge_mid (edges : List REdge) (ids oldTopo : List ℚ) (tid : ℚ)
    (tasksU : List Task) (start ef : ℚ)
    (hids : tasksU.map (fun t => t.id) = ids)
    (hfresh : ∀ x ∈ edges, x.pred = tid → x.succ ∉ oldTopo ∧ x.succ ≠ tid)
    (hE : ∀ x ∈ edges, x.pred ∈ ids ∧ x.succ ∈ ids)
    (tU : Task) (htU : lookupTask tasksU tid = some tU)
    (htUES : tU.ES = some start) (htUEF : tU.EF = some ef)
    (e : REdge) (he : e ∈ edges) (hpe : e.pred = tid)
    (D R : List REdge) (st : FwdState)
    (hm : MidInv edges ids oldTopo tid tasksU D (e :: R) st) :
    MidInv edges ids oldTopo tid tasksU (D ++ [e]) R (processEdge start ef st e) := by
  obtain ⟨hmT, hmTopo, hmQnd, hmQsub, hmQdisj, hmQzero, hmIndeg, hmComp, hmPend⟩ := hm
  obtain ⟨hsnt, hsne⟩ := hfresh e he hpe
  have hsuccid : e.succ ∈ ids := (hE e he).2
  obtain ⟨u, hu⟩ := lookupTask_some_of_mem
    (show e.succ ∈ tasksU.map (fun t => t.id) from by rw [hids]; exact hsuccid)
  have hneed : needOf tasksU e = some (neededOf start ef u e) := by
    unfold needOf
    rw [hpe, htU, hu]
    dsimp only
    rw [htUES, htUEF]
  have hRcnt : ((e :: R).filter (fun x => x.succ = e.succ)).length
      = (R.filter (fun x => x.succ = e.succ)).length + 1 := by
    rw [List.filter_cons, if_pos (by simp)]
    rfl
  have hsuccq : e.succ ∉ st.queue := by
    intro hq
    have h0 := hmQzero _ hq
    rw [hmIndeg e.succ, hRcnt] at h0
    omega
  -- the new indeg function satisfies the R-indexed count
  have hindeg' : ∀ k,
      (if k = e.succ then st.indeg e.succ - 1 else st.indeg k)
      = (((inEdges edges k).filter (fun x => ¬ x.pred ∈ oldTopo ++ [tid])).length : ℤ)
        + ((R.filter (fun x => x.succ = k)).length : ℤ) := by
    intro k
    by_cases hk : k = e.succ
    · subst hk
      rw [if_pos rfl, hmIndeg e.succ, hRcnt]
      push_cast
      ring
    · rw [if_neg hk, hmIndeg k, List.filter_cons,
        if_neg (by simpa using fun hc => hk hc.symm)]
  -- the new pending function satisfies the (D ++ [e])-indexed fold
  have hpend' : ∀ k,
      (if k = e.succ then
        some (match st.pending e.succ with
              | some prev => max prev (neededOf start ef u e)
              | none => neededOf start ef u e)
      else st.pending k)
      = pendFold tasksU (((inEdges edges k).filter (fun x => x.pred ∈ oldTopo)) ++
          (D ++ [e]).filter (fun x => x.succ = k)) := by
    intro k
    by_cases hk : k = e.succ
    · subst hk
      rw [if_pos rfl,
        show (D ++ [e]).filter (fun x => x.succ = e.succ) =
          D.filter (fun x => x.succ = e.succ) ++ [e] from by
            rw [List.filter_append, List.filter_cons, if_pos (by simp)]
            rfl,
        ← List.append_assoc, pendFold_append, List.foldl_cons, List.foldl_nil,
        ← hmPend e.succ,
        show pendStep tasksU (st.pending e.succ) e
          = combineMax (st.pending e.succ) (neededOf start ef u e) from by
            unfold pendStep
            rw [hneed]]
      unfold combineMax
      rfl
    · rw [if_neg hk, hmPend k, List.filter_append,
        show [e].filter (fun x => x.succ = k) = [] from by
          rw [List.filter_cons, if_neg (by simpa using fun hc => hk hc.symm)]
          rfl,
        List.append_nil]
  unfold processEdge
  rw [hmT, hu]
  dsimp only
  by_cases hdeg : st.indeg e.succ - 1 = 0
  · rw [if_pos hdeg]
    refine ⟨rfl, hmTopo, ?_, ?_, ?_, ?_, hindeg', ?_, hpend'⟩
    · refine sortByKey_nodup _ _ ?_
      rw [List.nodup_append]
      exact ⟨hmQnd, List.nodup_singleton _,
        fun a ha hb => hsuccq (by rwa [List.mem_singleton.mp hb] at ha)⟩
    · intro x hx
      rw [mem_sortByKey] at hx
      rcases List.mem_append.mp hx with hx | hx
      · exact hmQsub x hx
      · rw [List.mem_singleton.mp hx]
        exact hsuccid
    · intro x hx
      rw [mem_sortByKey] at hx
      rcases List.mem_append.mp hx with hx | hx
      · exact hmQdisj x hx
      · rw [List.mem_singleton.mp hx]
        intro hc
        rcases List.mem_append.mp hc with hc | hc
        · exact hsnt hc
        · exact hsne (List.mem_singleton.mp hc)
    · intro x hx
      rw [mem_sortByKey] at hx
      rcases List.mem_append.mp hx with hx | hx
      · have hxne : ¬ x = e.succ := fun hc => hsuccq (hc ▸ hx)
        show (if x = e.succ then _ else st.indeg x) = 0
        rw [if_neg hxne]
        exact hmQzero x hx
      · rw [List.mem_singleton.mp hx]
        show (if e.succ = e.succ then st.indeg e.succ - 1 else _) = 0
        rw [if_pos rfl]
        exact hdeg
    · intro k hk hknt hk0
      rw [mem_sortByKey]
      by_cases hke : k = e.succ
      · exact List.mem_append.mpr (Or.inr (by rw [hke]; exact List.mem_singleton.mpr rfl))
      · refine List.mem_append.mpr (Or.inl (hmComp k hk hknt ?_))
        dsimp only at hk0
        rwa [if_neg hke] at hk0
  · rw [if_neg hdeg]
    refine ⟨rfl, hmTopo, hmQnd, hmQsub, hmQdisj, ?_, hindeg', ?_, hpend'⟩
    · intro x hx
      have hxne : ¬ x = e.succ := fun hc => hsuccq (hc ▸ hx)
      show (if x = e.succ then _ else st.indeg x) = 0
      rw [if_neg hxne]
      exact hmQzero x hx
    · intro k hk hknt hk0
      dsimp only at hk0
      have hke : ¬ k = e.succ := by
        intro hc
        apply hdeg
        rw [if_pos hc] at hk0
        exact hk0
      refine hmComp k hk hknt ?_
      rwa [if_neg hke] at hk0

/-- Folding all remaining out-edges of the popped task preserves the
intermediate invariant, ending with an empty remainder. -/
theorem foldl_processEdge_mid (edges : List REdge) (ids oldTopo : List ℚ) (tid : ℚ)
    (tasksU : List Task) (start ef : ℚ)
    (hids : tasksU.map (fun t => t.id) = ids)
    (hfresh : ∀ x ∈ edges, x.pred = tid → x.succ ∉ oldTopo ∧ x.succ ≠ tid)
    (hE : ∀ x ∈ edges, x.pred ∈ ids ∧ x.succ ∈ ids)
    (tU : Task) (htU : lookupTask tasksU tid = some tU)
    (htUES : tU.ES = some start) (htUEF : tU.EF = some ef) :
    ∀ (R D : List REdge), (∀ x ∈ R, x ∈ edges ∧ x.pred = tid) →
      ∀ st, MidInv edges ids oldTopo tid tasksU D R st →
      MidInv edges ids oldTopo tid tasksU (D ++ R) []
        (R.foldl (processEdge start ef) st) := by
  intro R
  induction R with
  | nil =>
    intro D _ st hm
    rw [List.append_nil]
    exact hm
  | cons e R' ih =>
    intro D hR st hm
    have h1 := processEdge_mid edges ids oldTopo tid tasksU start ef hids hfresh hE
      tU htU htUES htUEF e (hR e (List.mem_cons_self e R')).1
      (hR e (List.mem_cons_self e R')).2 D R' st hm
    have h2 := ih (D ++ [e]) (fun x hx => hR x (List.mem_cons_of_mem e hx)) _ h1
    rw [List.append_assoc] at h2
    exact h2

/-- Writing the popped task's early dates does not change any `needed` value
whose predecessor is a different task (only the successor's duration is read,
and durations are untouched). -/
theorem needOf_update (S : List Task) (tid startv efv : ℚ) (e : REdge)
    (hpne : ∀ p, lookupTask S e.pred = some p → ¬ p.id = tid) :
    needOf (S.map (fun u => if u.id = tid then
      { u with ES := some startv, EF := some efv } else u)) e = needOf S e := by
  have hf : ∀ u : Task, ((fun u => if u.id = tid then
      { u with ES := some startv, EF := some efv } else u) u).id = u.id := by
    intro u
    dsimp only
    by_cases h : u.id = tid
    · rw [if_pos h]
    · rw [if_neg h]
  unfold needOf
  rw [lookupTask_map _ hf, lookupTask_map _ hf]
  cases hp : lookupTask S e.pred with
  | none => rfl
  | some p =>
    have hpt : ¬ p.id = tid := hpne p hp
    dsimp only [Option.map]
    rw [if_neg hpt]
    cases hs : lookupTask S e.succ with
    | none => rfl
    | some w =>
      dsimp only [Option.map]
      by_cases hut : w.id = tid
      · rw [if_pos hut]
        cases p.ES <;> cases p.EF <;> dsimp only
        all_goals rfl
      · rw [if_neg hut]

/-- Splitting the unprocessed-in-edge count of `k` when `tid` moves into
`topo`: the old count is the new count plus the number of `tid → k` edges. -/
theorem count_split_tid (edges : List REdge) (k tid : ℚ) (topo : List ℚ)
    (htid : tid ∉ topo) :
    ((((inEdges edges k).filter (fun e => ¬ e.pred ∈ topo)).length : ℤ))
    = (((inEdges edges k).filter (fun e => ¬ e.pred ∈ topo ++ [tid])).length : ℤ)
      + (((succsOf edges tid).filter (fun e => e.succ = k)).length : ℤ) := by
  have h1 : (inEdges edges k).filter (fun e => ¬ e.pred ∈ topo)
      = (inEdges edges k).filter (fun e =>
          decide (¬ e.pred ∈ topo ++ [tid]) || decide (e.pred = tid)) := by
    apply List.filter_congr
    intro e _
    by_cases hp1 : e.pred = tid
    · simp [hp1, htid]
    · by_cases hp2 : e.pred ∈ topo <;> simp [hp1, hp2]
  have hdisj : ∀ e ∈ inEdges edges k,
      ¬ ((fun e => decide (¬ e.pred ∈ topo ++ [tid])) e = true ∧
         (fun e => decide (e.pred = tid)) e = true) := by
    intro e _ ⟨ha, hb⟩
    simp only [decide_eq_true_eq] at ha hb
    exact ha (List.mem_append.mpr (Or.inr (List.mem_singleton.mpr hb)))
  have hperm := filter_or_perm (fun e => decide (¬ e.pred ∈ topo ++ [tid]))
    (fun e => decide (e.pred = tid)) (inEdges edges k) hdisj
  have hswap : (inEdges edges k).filter (fun e => decide (e.pred = tid))
      = (succsOf edges tid).filter (fun e => e.succ = k) := by
    unfold inEdges succsOf
    rw [List.filter_filter, List.filter_filter]
    apply List.filter_congr
    intro e _
    simp [Bool.and_comm]
  rw [h1, hperm.length_eq, List.length_append, hswap]
  push_cast
  ring

theorem preds_in_of_count_zero {edges : List REdge} {topo : List ℚ} {k : ℚ}
    (h : (((inEdges edges k).filter (fun e => ¬ e.pred ∈ topo)).length : ℤ) = 0) :
    ∀ e ∈ inEdges edges k, e.pred ∈ topo := by
  intro e he
  by_contra hc
  have hm : e ∈ (inEdges edges k).filter (fun e => ¬ e.pred ∈ topo) :=
    List.mem_filter.mpr ⟨he, by simpa using hc⟩
  have := List.length_pos_of_mem hm
  omega

/-- Appending `tid` to `topo` extends the processed-in-edge list of `k` by
exactly the `tid → k` edges, up to permutation. -/
theorem filter_topo_snoc_perm (edges : List REdge) (k tid : ℚ) (topo : List ℚ)
    (htid : tid ∉ topo) :
    List.Perm ((inEdges edges k).filter (fun e => e.pred ∈ topo ++ [tid]))
      ((inEdges edges k).filter (fun e => e.pred ∈ topo)
        ++ (succsOf edges tid).filter (fun e => e.succ = k)) := by
  have h1 : (inEdges edges k).filter (fun e => e.pred ∈ topo ++ [tid])
      = (inEdges edges k).filter (fun e =>
          decide (e.pred ∈ topo) || decide (e.pred = tid)) := by
    apply List.filter_congr
    intro e _
    by_cases hp1 : e.pred = tid
    · simp [hp1]
    · by_cases hp2 : e.pred ∈ topo <;> simp [hp1, hp2]
  have hdisj : ∀ e ∈ inEdges edges k,
      ¬ ((fun e => decide (e.pred ∈ topo)) e = true ∧
         (fun e => decide (e.pred = tid)) e = true) := by
    intro e _ ⟨ha, hb⟩
    simp only [decide_eq_true_eq] at ha hb
    exact htid (hb ▸ ha)
  have hperm := filter_or_perm (fun e => decide (e.pred ∈ topo))
    (fun e => decide (e.pred = tid)) (inEdges edges k) hdisj
  have hswap : (inEdges edges k).filter (fun e => decide (e.pred = tid))
      = (succsOf edges tid).filter (fun e => e.succ = k) := by
    unfold inEdges succsOf
    rw [List.filter_filter, List.filter_filter]
    apply List.filter_congr
    intro e _
    simp [Bool.and_comm]
  rw [h1, ← hswap]
  exact hperm

/-- The preds-strictly-before property survives popping `tid`, because all of
`tid`'s in-edge predecessors are already in `topo`. -/
theorem preds_before_snoc (edges : List REdge) (topo : List ℚ) (tid : ℚ)
    (hold : ∀ i, (hi : i < topo.length) → ∀ e ∈ edges,
      e.succ = topo.get ⟨i, hi⟩ → e.pred ∈ topo.take i)
    (htid : ∀ e ∈ inEdges edges tid, e.pred ∈ topo) :
    ∀ i, (hi : i < (topo ++ [tid]).length) → ∀ e ∈ edges,
      e.succ = (topo ++ [tid]).get ⟨i, hi⟩ → e.pred ∈ (topo ++ [tid]).take i := by
  intro i hi e he hse
  by_cases hlt : i < topo.length
  · have hget : (topo ++ [tid]).get ⟨i, hi⟩ = topo.get ⟨i, hlt⟩ := by
      rw [List.get_eq_getElem, List.get_eq_getElem, List.getElem_append_left]
    rw [hget] at hse
    rw [List.take_append_eq_append_take, Nat.sub_eq_zero_of_le (le_of_lt hlt),
      List.take_zero, List.append_nil]
    exact hold i hlt e he hse
  · have hieq : i = topo.length := by
      have hlen := hi
      rw [List.length_append, List.length_singleton] at hlen
      omega
    subst hieq
    have hget : (topo ++ [tid]).get ⟨topo.length, hi⟩ = tid := by
      rw [List.get_eq_getElem, List.getElem_concat_length]
      rfl
    rw [hget] at hse
    have hpe : e.pred ∈ topo :=
      htid e (List.mem_filter.mpr ⟨he, by simp [hse]⟩)
    rw [List.take_append_eq_append_take, Nat.sub_self, List.take_zero,
      List.append_nil, List.take_length]
    exact hpe

/-- Reassembling the full loop invariant after all out-edges of the popped
task are processed. -/
theorem fwdInv_assemble (edges : List REdge) (ids : List ℚ) (s : FwdState)
    (inv : FwdInv edges ids s) (tid : ℚ)
    (htid_ids : tid ∈ ids) (htid_nt : tid ∉ s.topo)
    (t : Task) (hl : lookupTask s.tasks tid = some t)
    (startv efv : ℚ)
    (hstart : startv = startOf (s.pending tid) t.baseES)
    (hef : efv = startv + t.duration * Day)
    (stF : FwdState)
    (hmid : MidInv edges ids s.topo tid
      (s.tasks.map (fun u => if u.id = tid then
        { u with ES := some startv, EF := some efv } else u))
      (succsOf edges tid) [] stF)
    (hfresh : ∀ x ∈ edges, x.pred = tid → x.succ ∉ s.topo ∧ x.succ ≠ tid)
    (hpredin : ∀ e ∈ inEdges edges tid, e.pred ∈ s.topo) :
    FwdInv edges ids stF := by
  obtain ⟨hmT, hmTopo, hmQnd, hmQsub, hmQdisj, hmQzero, hmIndeg, hmComp, hmPend⟩ := hmid
  have htid_id : t.id = tid := lookupTask_eq_id hl
  -- in-edge predecessors of every new-topo member are in the OLD topo
  have hins : ∀ x, x ∈ s.topo ++ [tid] → ∀ e ∈ inEdges edges x, e.pred ∈ s.topo := by
    intro x hx
    rcases List.mem_append.mp hx with hx | hx
    · refine preds_in_of_count_zero ?_
      rw [← inv.indeg_eq x]
      exact inv.topo_zero x hx
    · rw [List.mem_singleton.mp hx]
      exact hpredin
  -- pending values of new-topo members are frozen
  have hfreeze : ∀ k, k ∈ s.topo ++ [tid] → stF.pending k = s.pending k := by
    intro k hk
    rw [hmPend k]
    have htidF : (succsOf edges tid).filter (fun e => e.succ = k) = [] := by
      rw [List.filter_eq_nil_iff]
      intro e he
      have hpe : e.pred = tid := by
        have := List.of_mem_filter he
        simpa using this
      have he' : e ∈ edges := List.mem_of_mem_filter he
      obtain ⟨h1, h2⟩ := hfresh e he' hpe
      simp only [decide_eq_true_eq]
      intro hck
      rw [← hck] at hk
      rcases List.mem_append.mp hk with hk1 | hk1
      · exact h1 hk1
      · exact h2 (List.mem_singleton.mp hk1)
    rw [htidF, List.append_nil, inv.pend_eq k]
    apply pendFold_congr
    intro e he
    apply needOf_update
    intro p hp hc
    have hpid := lookupTask_eq_id hp
    have hpe : e.pred ∈ s.topo := by
      have := List.of_mem_filter he
      simpa using this
    rw [← hpid, hc] at hpe
    exact htid_nt hpe
  refine ⟨?_, inv.ids_nd, ?_, hmQnd, ?_, hmQsub, ?_, hmQzero, ?_, ?_, ?_, ?_, ?_, ?_⟩
  · -- ids_eq
    rw [hmT]
    have hmm : (s.tasks.map (fun u => if u.id = tid then
        { u with ES := some startv, EF := some efv } else u)).map (fun u => u.id)
        = s.tasks.map (fun u => u.id) := by
      rw [List.map_map]
      refine List.map_congr_left (fun u _ => ?_)
      dsimp only [Function.comp]
      by_cases h : u.id = tid
      · rw [if_pos h]
      · rw [if_neg h]
    rw [hmm, inv.ids_eq]
  · -- topo_nd
    rw [hmTopo, List.nodup_append]
    exact ⟨inv.topo_nd, List.nodup_singleton _,
      fun a ha hb => absurd ((List.mem_singleton.mp hb) ▸ ha) htid_nt⟩
  · -- topo_sub
    intro x hx
    rw [hmTopo] at hx
    rcases List.mem_append.mp hx with hx | hx
    · exact inv.topo_sub x hx
    · rw [List.mem_singleton.mp hx]
      exact htid_ids
  · -- disj
    intro x hx
    rw [hmTopo]
    exact hmQdisj x hx
  · -- topo_zero
    intro x hx
    rw [hmTopo] at hx
    rw [hmIndeg x]
    have hcnt0 : (inEdges edges x).filter (fun e => ¬ e.pred ∈ s.topo ++ [tid]) = [] := by
      rw [List.filter_eq_nil_iff]
      intro e he
      have hp : e.pred ∈ s.topo := hins x hx e he
      simp [List.mem_append.mpr (Or.inl hp)]
    rw [hcnt0]
    simp
  · -- indeg_eq
    intro k
    have := hmIndeg k
    rw [hmTopo]
    simpa using this
  · -- complete
    intro k hk hknt
    rw [hmTopo] at hknt
    exact hmComp k hk hknt
  · -- pend_eq
    intro k
    rw [hmT, hmTopo, hmPend k]
    exact (pendFold_perm _ (filter_topo_snoc_perm edges k tid s.topo htid_nt)).symm
  · -- sched
    intro v hv
    rw [hmT] at hv
    rcases List.mem_map.mp hv with ⟨u, hu, rfl⟩
    by_cases huid : u.id = tid
    · have hueq : u = t := eq_of_mem_of_nodup_ids
        (by rw [inv.ids_eq]; exact inv.ids_nd) hu (lookupTask_mem hl)
        (by rw [huid, htid_id])
      have hfu : (if u.id = tid then
          ({ u with ES := some startv, EF := some efv } : Task) else u)
          = { u with ES := some startv, EF := some efv } := if_pos huid
      rw [hfu]
      constructor
      · intro _
        show some startv = _ ∧ some efv = _
        have hpf : stF.pending ({ u with ES := some startv, EF := some efv} : Task).id
            = s.pending tid := by
          rw [show ({ u with ES := some startv, EF := some efv} : Task).id = tid from huid,
            hfreeze tid (List.mem_append.mpr (Or.inr (List.mem_singleton.mpr rfl)))]
        rw [hpf,
          show ({ u with ES := some startv, EF := some efv} : Task).baseES = t.baseES
            from by rw [hueq],
          show ({ u with ES := some startv, EF := some efv} : Task).duration = t.duration
            from by rw [hueq]]
        exact ⟨by rw [hstart], by rw [hef, hstart]⟩
      · intro hnmem
        exact absurd (by
          rw [hmTopo]
          exact List.mem_append.mpr (Or.inr (by
            rw [show ({ u with ES := some startv, EF := some efv} : Task).id = tid
              from huid]
            exact List.mem_singleton.mpr rfl))) hnmem
    · have hfu : (if u.id = tid then
          ({ u with ES := some startv, EF := some efv } : Task) else u) = u :=
        if_neg huid
      rw [hfu]
      constructor
      · intro hmem
        rw [hmTopo] at hmem
        have hmem' : u.id ∈ s.topo := by
          rcases List.mem_append.mp hmem with h | h
          · exact h
          · exact absurd (List.mem_singleton.mp h) huid
        rw [hfreeze u.id (List.mem_append.mpr (Or.inl hmem'))]
        exact (inv.sched u hu).1 hmem'
      · intro hnmem
        refine (inv.sched u hu).2 (fun hc => hnmem ?_)
        rw [hmTopo]
        exact List.mem_append.mpr (Or.inl hc)
  · -- preds_before
    rw [hmTopo]
    exact preds_before_snoc edges s.topo tid inv.preds_before hpredin

/-- One iteration of the Kahn loop preserves the loop invariant. -/
theorem fwdStep_inv (edges : List REdge) (ids : List ℚ)
    (hE : ∀ e ∈ edges, e.pred ∈ ids ∧ e.succ ∈ ids)
    (s : FwdState) (inv : FwdInv edges ids s) :
    FwdInv edges ids (fwdStep edges s) := by
  cases hq : s.queue with
  | nil =>
    have heq : fwdStep edges s = s := by
      unfold fwdStep
      rw [hq]
    rw [heq]
    exact inv
  | cons tid rest =>
    have htidq : tid ∈ s.queue := by rw [hq]; exact List.mem_cons_self _ _
    have htid_ids : tid ∈ ids := inv.queue_sub tid htidq
    have htid_nt : tid ∉ s.topo := inv.disj tid htidq
    have htid0 : s.indeg tid = 0 := inv.queue_zero tid htidq
    have hqnd : (tid :: rest).Nodup := by
      have := inv.queue_nd
      rwa [hq] at this
    have htid_nr : tid ∉ rest := (List.nodup_cons.mp hqnd).1
    obtain ⟨t, hl⟩ := lookupTask_some_of_mem
      (show tid ∈ s.tasks.map (fun u => u.id) from by rw [inv.ids_eq]; exact htid_ids)
    have htid_id : t.id = tid := lookupTask_eq_id hl
    have hpredin : ∀ e ∈ inEdges edges tid, e.pred ∈ s.topo := by
      refine preds_in_of_count_zero ?_
      rw [← inv.indeg_eq tid]
      exact htid0
    have hfresh : ∀ x ∈ edges, x.pred = tid → x.succ ∉ s.topo ∧ x.succ ≠ tid := by
      intro x hx hpx
      have key : ∀ k, s.indeg k = 0 → x.succ = k → False := by
        intro k hk0 hxk
        have hxin : x ∈ (inEdges edges k).filter (fun e => ¬ e.pred ∈ s.topo) :=
          List.mem_filter.mpr ⟨List.mem_filter.mpr ⟨hx, by simp [hxk]⟩,
            by simp [hpx, htid_nt]⟩
        have hpos := List.length_pos_of_mem hxin
        have h0 := inv.indeg_eq k
        rw [hk0] at h0
        omega
      exact ⟨fun hc => key x.succ (inv.topo_zero _ hc) rfl,
        fun hc => key tid htid0 hc⟩
    have hf : ∀ u : Task, ((fun u => if u.id = tid then
        { u with ES := some (startOf (s.pending tid) t.baseES),
                 EF := some (startOf (s.pending tid) t.baseES + t.duration * Day) }
        else u) u).id = u.id := by
      intro u
      dsimp only
      by_cases h : u.id = tid
      · rw [if_pos h]
      · rw [if_neg h]
    have hids' : (s.tasks.map (fun u => if u.id = tid then
        { u with ES := some (startOf (s.pending tid) t.baseES),
                 EF := some (startOf (s.pending tid) t.baseES + t.duration * Day) }
        else u)).map (fun u => u.id) = ids := by
      rw [List.map_map]
      rw [show ((fun u : Task => u.id) ∘ (fun u => if u.id = tid then
        { u with ES := some (startOf (s.pending tid) t.baseES),
                 EF := some (startOf (s.pending tid) t.baseES + t.duration * Day) }
        else u)) = (fun u : Task => u.id) from funext hf]
      exact inv.ids_eq
    have htU : lookupTask (s.tasks.map (fun u => if u.id = tid then
        { u with ES := some (startOf (s.pending tid) t.baseES),
                 EF := some (startOf (s.pending tid) t.baseES + t.duration * Day) }
        else u)) tid
        = some ({ t with
                    ES := some (startOf (s.pending tid) t.baseES),
                    EF := some (startOf (s.pending tid) t.baseES + t.duration * Day) }) := by
      rw [lookupTask_map _ hf, hl]
      dsimp only [Option.map]
      rw [if_pos htid_id]
    have hmid0 : MidInv edges ids s.topo tid
        (s.tasks.map (fun u => if u.id = tid then
          { u with ES := some (startOf (s.pending tid) t.baseES),
                   EF := some (startOf (s.pending tid) t.baseES + t.duration * Day) }
          else u)) [] (succsOf edges tid)
        { s with
          tasks := s.tasks.map (fun u => if u.id = tid then
            { u with ES := some (startOf (s.pending tid) t.baseES),
                     EF := some (startOf (s.pending tid) t.baseES + t.duration * Day) }
            else u),
          queue := rest, topo := s.topo ++ [tid] } := by
      refine ⟨rfl, rfl, (List.nodup_cons.mp hqnd).2, ?_, ?_, ?_, ?_, ?_, ?_⟩
      · intro x hx
        exact inv.queue_sub x (by rw [hq]; exact List.mem_cons_of_mem tid hx)
      · intro x hx hc
        rcases List.mem_append.mp hc with hc | hc
        · exact inv.disj x (by rw [hq]; exact List.mem_cons_of_mem tid hx) hc
        · rw [List.mem_singleton.mp hc] at hx
          exact htid_nr hx
      · intro x hx
        exact inv.queue_zero x (by rw [hq]; exact List.mem_cons_of_mem tid hx)
      · intro k
        show s.indeg k = _
        rw [inv.indeg_eq k]
        exact count_split_tid edges k tid s.topo htid_nt
      · intro k hk hknt hk0
        have hkt : k ≠ tid := fun hc =>
          hknt (List.mem_append.mpr (Or.inr (List.mem_singleton.mpr hc)))
        have hkq := inv.complete k hk
          (fun hc => hknt (List.mem_append.mpr (Or.inl hc))) hk0
        rw [hq] at hkq
        rcases List.mem_cons.mp hkq with hc | hc
        · exact absurd hc hkt
        · exact hc
      · intro k
        show s.pending k = _
        rw [show (List.filter (fun e => decide (e.succ = k)) ([] : List REdge))
            = [] from rfl,
          List.append_nil, inv.pend_eq k]
        refine pendFold_congr ?_
        intro e he
        refine (needOf_update s.tasks tid _ _ e ?_).symm
        intro p hp hc
        have hpid := lookupTask_eq_id hp
        have hpe : e.pred ∈ s.topo := by
          have := List.of_mem_filter he
          simpa using this
        rw [← hpid, hc] at hpe
        exact htid_nt hpe
    have hmidF := foldl_processEdge_mid edges ids s.topo tid
      (s.tasks.map (fun u => if u.id = tid then
        { u with ES := some (startOf (s.pending tid) t.baseES),
                 EF := some (startOf (s.pending tid) t.baseES + t.duration * Day) }
        else u))
      (startOf (s.pending tid) t.baseES)
      (startOf (s.pending tid) t.baseES + t.duration * Day)
      hids' hfresh hE _ htU rfl rfl (succsOf edges tid) []
      (fun x hx => ⟨List.mem_of_mem_filter hx, by
        have := List.of_mem_filter hx
        simpa using this⟩) _ hmid0
    rw [List.nil_append] at hmidF
    have hres := fwdInv_assemble edges ids s inv tid htid_ids htid_nt t hl
      (startOf (s.pending tid) t.baseES)
      (startOf (s.pending tid) t.baseES + t.duration * Day) rfl rfl _ hmidF
      hfresh hpredin
    have hgoal : fwdStep edges s = (succsOf edges tid).foldl
        (processEdge (startOf (s.pending tid) t.baseES)
          (startOf (s.pending tid) t.baseES + t.duration * Day))
        { s with
          tasks := s.tasks.map (fun u => if u.id = tid then
            { u with ES := some (startOf (s.pending tid) t.baseES),
                     EF := some (startOf (s.pending tid) t.baseES + t.duration * Day) }
            else u),
          queue := rest, topo := s.topo ++ [tid] } := by
      unfold fwdStep
      rw [hq]
      dsimp only
      rw [hl]
      rfl
    rw [hgoal]
    exact hres

theorem fwdLoop_inv (edges : List REdge) (ids : List ℚ)
    (hE : ∀ e ∈ edges, e.pred ∈ ids ∧ e.succ ∈ ids) (fuel : ℕ) :
    ∀ s, FwdInv edges ids s → FwdInv edges ids (fwdLoop edges fuel s) := by
  induction fuel with
  | zero => intro s h; exact h
  | succ n ih =>
    intro s h
    unfold fwdLoop
    cases hq : s.queue with
    | nil => exact h
    | cons tid rest => exact ih _ (fwdStep_inv edges ids hE s h)

theorem fwdStep_topo (edges : List REdge) (s : FwdState) (tid : ℚ) (rest : List ℚ)
    (hq : s.queue = tid :: rest) : (fwdStep edges s).topo = s.topo ++ [tid] := by
  unfold fwdStep
  rw [hq]
  dsimp only
  cases hl : lookupTask s.tasks tid with
  | none => rfl
  | some t =>
    dsimp only
    rw [foldl_processEdge_topo]

theorem fwdLoop_topo_growth (edges : List REdge) : ∀ (fuel : ℕ) (s : FwdState),
    (fwdLoop edges fuel s).queue ≠ [] →
    s.topo.length + fuel ≤ (fwdLoop edges fuel s).topo.length := by
  intro fuel
  induction fuel with
  | zero =>
    intro s h
    exact Nat.le_of_eq (Nat.add_zero _)
  | succ n ih =>
    intro s h
    cases hq : s.queue with
    | nil =>
      rw [show fwdLoop edges (n + 1) s = s from by
        show (match s.queue with
          | [] => s
          | _ :: _ => fwdLoop edges n (fwdStep edges s)) = s
        rw [hq]] at h
      exact absurd hq h
    | cons tid rest =>
      have hstep : fwdLoop edges (n + 1) s = fwdLoop edges n (fwdStep edges s) := by
        show (match s.queue with
          | [] => s
          | _ :: _ => fwdLoop edges n (fwdStep edges s)) = _
        rw [hq]
      rw [hstep] at h ⊢
      have h2 := ih (fwdStep edges s) h
      have hT := fwdStep_topo edges s tid rest hq
      rw [hT, List.length_append, List.length_singleton] at h2
      omega

/-- With fuel `|ids| + 1` the queue is fully drained. -/
theorem fwdLoop_drains (edges : List REdge) (ids : List ℚ)
    (hE : ∀ e ∈ edges, e.pred ∈ ids ∧ e.succ ∈ ids)
    (s : FwdState) (inv : FwdInv edges ids s) (h0 : s.topo = []) :
    (fwdLoop edges (ids.length + 1) s).queue = [] := by
  by_contra hne
  have hgrow := fwdLoop_topo_growth edges (ids.length + 1) s hne
  rw [h0] at hgrow
  have hinvF := fwdLoop_inv edges ids hE (ids.length + 1) s inv
  have hsub := List.subperm_of_subset hinvF.topo_nd
    (fun x hx => hinvF.topo_sub x hx)
  have hlen := hsub.length_le
  simp only [List.length_nil] at hgrow
  omega

theorem final_popped_preds (edges : List REdge) (ids : List ℚ) (s : FwdState)
    (inv : FwdInv edges ids s) (k : ℚ) (hk : k ∈ s.topo) :
    ∀ e ∈ inEdges edges k, e.pred ∈ s.topo :=
  preds_in_of_count_zero (by rw [← inv.indeg_eq k]; exact inv.topo_zero k hk)

theorem final_unpopped (edges : List REdge) (ids : List ℚ) (s : FwdState)
    (inv : FwdInv edges ids s) (hqe : s.queue = []) (k : ℚ)
    (hk : k ∈ ids) (hnk : k ∉ s.topo) :
    ∃ e ∈ inEdges edges k, e.pred ∉ s.topo := by
  by_contra hc
  push_neg at hc
  have hcnt : (inEdges edges k).filter (fun e => ¬ e.pred ∈ s.topo) = [] := by
    rw [List.filter_eq_nil_iff]
    intro e he
    simp [hc e he]
  have h0 : s.indeg k = 0 := by
    rw [inv.indeg_eq k, hcnt]
    simp
  have hmem := inv.complete k hk hnk h0
  rw [hqe] at hmem
  exact absurd hmem (List.not_mem_nil k)

theorem final_pending (edges : List REdge) (ids : List ℚ) (s : FwdState)
    (inv : FwdInv edges ids s) (k : ℚ) (hk : k ∈ s.topo) :
    s.pending k = pendFold s.tasks (inEdges edges k) := by
  rw [inv.pend_eq k, List.filter_eq_self.mpr]
  intro e he
  simpa using final_popped_preds edges ids s inv k hk e he

theorem final_sched (edges : List REdge) (ids : List ℚ) (s : FwdState)
    (inv : FwdInv edges ids s) (t : Task) (ht : t ∈ s.tasks) (hmem : t.id ∈ s.topo) :
    t.ES = some (startOf (pendFold s.tasks (inEdges edges t.id)) t.baseES) ∧
    t.EF = some (startOf (pendFold s.tasks (inEdges edges t.id)) t.baseES
      + t.duration * Day) := by
  have h := (inv.sched t ht).1 hmem
  rw [final_pending edges ids s inv t.id hmem] at h
  exact h

theorem dayFloor_aligned (z : ℤ) : dayFloor ((z : ℚ) * Day) = z := by
  unfold dayFloor
  rw [mul_div_assoc, div_self (ne_of_gt Day_pos), mul_one, Int.floor_intCast]

theorem dayFloor_mul_le (v : ℚ) : (dayFloor v : ℚ) * Day ≤ v := by
  unfold dayFloor
  have h := Int.floor_le (v / Day)
  calc ((⌊v / Day⌋ : ℤ) : ℚ) * Day ≤ (v / Day) * Day :=
        mul_le_mul_of_nonneg_right h Day_pos.le
    _ = v := div_mul_cancel₀ v (ne_of_gt Day_pos)

/-- The absorption step of the idempotence argument: restarting the solver
from the day-floored assigned start gives the assigned start again, provided
the original baseline was day-aligned. -/
theorem startOf_absorb (pend : Option ℚ) (baseA : ℚ) (z : ℤ)
    (hza : baseA = (z : ℚ) * Day) :
    startOf pend ((dayFloor (startOf pend baseA) : ℚ) * Day) = startOf pend baseA := by
  cases pend with
  | none =>
    show (dayFloor baseA : ℚ) * Day = baseA
    rw [hza, dayFloor_aligned]
  | some c =>
    show max c ((dayFloor (max c baseA) : ℚ) * Day) = max c baseA
    have h1 : (dayFloor (max c baseA) : ℚ) * Day ≤ max c baseA :=
      dayFloor_mul_le _
    have h2 : baseA ≤ (dayFloor (max c baseA) : ℚ) * Day := by
      have hz : (z : ℚ) ≤ max c baseA / Day := by
        rw [le_div_iff₀ Day_pos, ← hza]
        exact le_max_right _ _
      have hzf : (z : ℚ) ≤ ((⌊max c baseA / Day⌋ : ℤ) : ℚ) := by
        exact_mod_cast Int.le_floor.mpr hz
      calc baseA = (z : ℚ) * Day := hza
        _ ≤ ((⌊max c baseA / Day⌋ : ℤ) : ℚ) * Day :=
            mul_le_mul_of_nonneg_right hzf Day_pos.le
        _ = (dayFloor (max c baseA) : ℚ) * Day := rfl
    rcases le_total c baseA with hc | hc
    · have hv : max c baseA = baseA := max_eq_right hc
      have hf : (dayFloor (max c baseA) : ℚ) * Day = baseA :=
        le_antisymm (le_of_le_of_eq h1 hv) h2
      rw [hf, hv]
    · have hv : max c baseA = c := max_eq_left hc
      have hle : (dayFloor (max c baseA) : ℚ) * Day ≤ c := le_of_le_of_eq h1 hv
      rw [max_eq_left hle, hv]

theorem mem_take_index {α : Type} {l : List α} {i : ℕ} {x : α} (h : x ∈ l.take i) :
    ∃ j, ∃ hj : j < l.length, j < i ∧ l.get ⟨j, hj⟩ = x := by
  obtain ⟨j, hj, hget⟩ := List.mem_iff_getElem.mp h
  have hj' := hj
  rw [List.length_take] at hj'
  have hlen : j < l.length := lt_of_lt_of_le hj' (min_le_right _ _)
  have hji : j < i := lt_of_lt_of_le hj' (min_le_left _ _)
  refine ⟨j, hlen, hji, ?_⟩
  rw [List.get_eq_getElem, ← hget, List.getElem_take]

/-- Any activity popped in one drained run is popped in any other drained run
over the same graph: the popped set is order-independent. -/
theorem topo_incl (edges : List REdge) (ids : List ℚ) (s1 s2 : FwdState)
    (inv1 : FwdInv edges ids s1) (inv2 : FwdInv edges ids s2)
    (hq2 : s2.queue = []) :
    ∀ k ∈ s1.topo, k ∈ s2.topo := by
  have main : ∀ n i, (hi : i < s1.topo.length) → i < n →
      s1.topo.get ⟨i, hi⟩ ∈ s2.topo := by
    intro n
    induction n with
    | zero =>
      intro i hi h
      omega
    | succ m ih =>
      intro i hi hlt
      by_cases him : i < m
      · exact ih i hi him
      · by_contra hknot
        have hk_ids : s1.topo.get ⟨i, hi⟩ ∈ ids :=
          inv1.topo_sub _ (List.get_mem s1.topo i hi)
        obtain ⟨e, he, hpe⟩ := final_unpopped edges ids s2 inv2 hq2 _ hk_ids hknot
        have he' : e ∈ edges := List.mem_of_mem_filter he
        have hsucc : e.succ = s1.topo.get ⟨i, hi⟩ := by
          have := List.of_mem_filter he
          simpa using this
        have hpred1 : e.pred ∈ s1.topo.take i := inv1.preds_before i hi e he' hsucc
        obtain ⟨j, hj, hji, hget⟩ := mem_take_index hpred1
        have hmem2 := ih j hj (by omega)
        rw [hget] at hmem2
        exact hpe hmem2
  intro k hk
  obtain ⟨i, hi, hget⟩ := List.mem_iff_getElem.mp hk
  have hmain := main s1.topo.length i hi hi
  rw [List.get_eq_getElem, hget] at hmain
  exact hmain

/-- The heart of the idempotence argument: two drained runs over the same
graph whose stores pair up with equal durations, day-aligned first-run
baselines, and second-run baselines equal to the day-floored first-run
assignments, assign identical early dates to every popped activity. -/
theorem forward_values_eq (edges : List REdge) (ids : List ℚ) (sA sB : FwdState)
    (invA : FwdInv edges ids sA) (invB : FwdInv edges ids sB)
    (hqB : sB.queue = [])
    (hE : ∀ e ∈ edges, e.pred ∈ ids ∧ e.succ ∈ ids)
    (hcorr : ∀ k ∈ ids, ∀ tA tB, lookupTask sA.tasks k = some tA →
      lookupTask sB.tasks k = some tB →
      tB.duration = tA.duration ∧
      (∃ z : ℤ, tA.baseES = (z : ℚ) * Day) ∧
      (∀ esA : ℚ, tA.ES = some esA → tB.baseES = (dayFloor esA : ℚ) * Day)) :
    ∀ k ∈ sA.topo, ∀ tA tB, lookupTask sA.tasks k = some tA →
      lookupTask sB.tasks k = some tB → tB.ES = tA.ES ∧ tB.EF = tA.EF := by
  have main : ∀ n i, (hi : i < sA.topo.length) → i < n →
      ∀ tA tB, lookupTask sA.tasks (sA.topo.get ⟨i, hi⟩) = some tA →
        lookupTask sB.tasks (sA.topo.get ⟨i, hi⟩) = some tB →
        tB.ES = tA.ES ∧ tB.EF = tA.EF := by
    intro n
    induction n with
    | zero =>
      intro i hi h
      omega
    | succ m ih =>
      intro i hi hlt tA tB hlA hlB
      by_cases him : i < m
      · exact ih i hi him tA tB hlA hlB
      · have hkA : sA.topo.get ⟨i, hi⟩ ∈ sA.topo := List.get_mem sA.topo i hi
        have hkB : sA.topo.get ⟨i, hi⟩ ∈ sB.topo :=
          topo_incl edges ids sA sB invA invB hqB _ hkA
        have hkids : sA.topo.get ⟨i, hi⟩ ∈ ids := invA.topo_sub _ hkA
        have hidA : tA.id = sA.topo.get ⟨i, hi⟩ := lookupTask_eq_id hlA
        have hidB : tB.id = sA.topo.get ⟨i, hi⟩ := lookupTask_eq_id hlB
        have hsA := final_sched edges ids sA invA tA (lookupTask_mem hlA)
          (by rw [hidA]; exact hkA)
        have hsB := final_sched edges ids sB invB tB (lookupTask_mem hlB)
          (by rw [hidB]; exact hkB)
        rw [hidA] at hsA
        rw [hidB] at hsB
        have hpend : pendFold sB.tasks (inEdges edges (sA.topo.get ⟨i, hi⟩))
            = pendFold sA.tasks (inEdges edges (sA.topo.get ⟨i, hi⟩)) := by
          refine pendFold_congr ?_
          intro e he
          have he' : e ∈ edges := List.mem_of_mem_filter he
          have hsucc : e.succ = sA.topo.get ⟨i, hi⟩ := by
            have := List.of_mem_filter he
            simpa using this
          have hpredA : e.pred ∈ sA.topo.take i := invA.preds_before i hi e he' hsucc
          obtain ⟨j, hj, hji, hget⟩ := mem_take_index hpredA
          have hpmemA : e.pred ∈ sA.topo := by
            rw [← hget]
            exact List.get_mem sA.topo j hj
          have hpids : e.pred ∈ ids := (hE e he').1
          obtain ⟨pA, hpA⟩ := lookupTask_some_of_mem
            (show e.pred ∈ sA.tasks.map (fun t => t.id) from by
              rw [invA.ids_eq]; exact hpids)
          obtain ⟨pB, hpB⟩ := lookupTask_some_of_mem
            (show e.pred ∈ sB.tasks.map (fun t => t.id) from by
              rw [invB.ids_eq]; exact hpids)
          have hIH := ih j hj (by omega) pA pB
            (by rw [hget]; exact hpA) (by rw [hget]; exact hpB)
          obtain ⟨hESA, hEFA⟩ := (invA.sched pA (lookupTask_mem hpA)).1
            (by rw [lookupTask_eq_id hpA]; exact hpmemA)
          have hsids : e.succ ∈ ids := (hE e he').2
          obtain ⟨uA, huA⟩ := lookupTask_some_of_mem
            (show e.succ ∈ sA.tasks.map (fun t => t.id) from by
              rw [invA.ids_eq]; exact hsids)
          obtain ⟨uB, huB⟩ := lookupTask_some_of_mem
            (show e.succ ∈ sB.tasks.map (fun t => t.id) from by
              rw [invB.ids_eq]; exact hsids)
          have hudur : uB.duration = uA.duration :=
            (hcorr e.succ hsids uA uB huA huB).1
          unfold needOf
          rw [hpA, hpB, huA, huB]
          dsimp only
          rw [hIH.1, hIH.2, hESA, hEFA]
          dsimp only
          exact congrArg some (neededOf_eq_of_duration _ _ hudur e)
        obtain ⟨hESA, hEFA⟩ := hsA
        obtain ⟨hESB, hEFB⟩ := hsB
        obtain ⟨hdur, ⟨z, hza⟩, hbf⟩ := hcorr _ hkids tA tB hlA hlB
        have hbB := hbf _ hESA
        constructor
        · rw [hESB, hESA, hpend, hbB]
          exact congrArg some (startOf_absorb _ _ z hza)
        · rw [hEFB, hEFA, hpend, hbB, hdur]
          exact congrArg some (by rw [startOf_absorb _ _ z hza])
  intro k hk tA tB hlA hlB
  obtain ⟨i, hi, hget⟩ := List.mem_iff_getElem.mp hk
  have hget' : sA.topo.get ⟨i, hi⟩ = k := by
    rw [List.get_eq_getElem]
    exact hget
  exact main sA.topo.length i hi hi tA tB (by rw [hget']; exact hlA)
    (by rw [hget']; exact hlB)

theorem lookupTask_of_mem {S : List Task} (hnd : (S.map (fun t => t.id)).Nodup)
    {u : Task} (hu : u ∈ S) : lookupTask S u.id = some u := by
  cases hl : lookupTask S u.id with
  | none =>
    have := List.find?_eq_none.mp hl u hu
    simp at this
  | some v =>
    have hvid : v.id = u.id := lookupTask_eq_id hl
    rw [eq_of_mem_of_nodup_ids hnd (lookupTask_mem hl) hu hvid]

/-- Id-lookup correspondence between two stores with equal `statics`
projections. -/
theorem lookup_corr_statics {A B : List Task} (h : A.map statics = B.map statics)
    (hndB : (B.map (fun t => t.id)).Nodup) (k : ℚ) :
    ∀ tA, lookupTask A k = some tA →
      ∃ tB, lookupTask B k = some tB ∧ statics tA = statics tB := by
  intro tA hA
  obtain ⟨tB, hmemB, hst, _⟩ := mem_corr_of_proj statics statics h h
    tA (lookupTask_mem hA)
  have hidB : tB.id = k := by
    have h1 : tA.id = tB.id := congrArg (fun p => p.1) hst
    rw [← h1]
    exact lookupTask_eq_id hA
  refine ⟨tB, ?_, hst⟩
  rw [← hidB]
  exact lookupTask_of_mem hndB hmemB

theorem lookupTask_map0 (f0 : Task0 → Task) (hf : ∀ t, (f0 t).id = t.id)
    (m : List Task0) (k : ℚ) :
    lookupTask (m.map f0) k = (lookupTask0 m k).map f0 := by
  induction m with
  | nil => rfl
  | cons t ts ih =>
    show List.find? _ (f0 t :: ts.map f0) = _
    by_cases h : t.id = k
    · rw [List.find?_cons_of_pos _ (by simpa [hf] using h),
        show lookupTask0 (t :: ts) k = some t from
          List.find?_cons_of_pos _ (by simpa using h)]
      rfl
    · rw [List.find?_cons_of_neg _ (by simpa [hf] using h)]
      show lookupTask (ts.map f0) k = _
      rw [ih, show lookupTask0 (t :: ts) k = lookupTask0 ts k from
        List.find?_cons_of_neg _ (by simpa using h)]

theorem insertTask_mem_sub {m : List Task0} {t u : Task0}
    (h : u ∈ insertTask m t) : u ∈ m ∨ u = t := by
  unfold insertTask at h
  by_cases hc : m.any (fun v => v.id = t.id)
  · rw [if_pos hc] at h
    rcases List.mem_map.mp h with ⟨v, hv, rfl⟩
    by_cases hvt : v.id = t.id
    · rw [if_pos hvt]
      exact Or.inr rfl
    · rw [if_neg hvt]
      exact Or.inl hv
  · rw [if_neg hc] at h
    rcases List.mem_append.mp h with h | h
    · exact Or.inl h
    · exact Or.inr (List.mem_singleton.mp h)

/-- Every baseline date stored in the activity map is a whole number of
days. -/
theorem idMapOf_baseES_aligned (rows : List Row) :
    ∀ t ∈ idMapOf rows, ∀ b, t.baseES = some b → ∃ z : ℤ, b = (z : ℚ) * Day := by
  have aux : ∀ (rows : List Row) (m : List Task0),
      (∀ t ∈ m, ∀ b, t.baseES = some b → ∃ z : ℤ, b = (z : ℚ) * Day) →
      ∀ t ∈ rows.foldl (fun m row =>
        match row.ActivityID with
        | some id => insertTask m (mkTask0 row id)
        | none => m) m,
      ∀ b, t.baseES = some b → ∃ z : ℤ, b = (z : ℚ) * Day := by
    intro rows
    induction rows with
    | nil => intro m hm; exact hm
    | cons r rs ih =>
      intro m hm
      rw [List.foldl_cons]
      cases hact : r.ActivityID with
      | none => exact ih m hm
      | some id =>
        refine ih _ ?_
        intro t ht b hb
        rcases insertTask_mem_sub ht with ht | ht
        · exact hm t ht b hb
        · subst ht
          unfold mkTask0 at hb
          dsimp only at hb
          cases hES : r.ES with
          | none => rw [hES] at hb; exact absurd hb (by simp)
          | some d =>
            rw [hES] at hb
            refine ⟨d, ?_⟩
            have := Option.some.inj hb
            rw [← this]
  exact aux rows [] (by intro t ht; exact absurd ht (List.not_mem_nil t))

/-- The minimum parsed baseline, when it exists, is day-aligned. -/
theorem minBase_aligned (m : List Task0)
    (hal : ∀ t ∈ m, ∀ b, t.baseES = some b → ∃ z : ℤ, b = (z : ℚ) * Day) :
    ∀ b, minBase m = some b → ∃ z : ℤ, b = (z : ℚ) * Day := by
  have aux : ∀ (m : List Task0) (acc : Option ℚ),
      (∀ t ∈ m, ∀ b, t.baseES = some b → ∃ z : ℤ, b = (z : ℚ) * Day) →
      (∀ b, acc = some b → ∃ z : ℤ, b = (z : ℚ) * Day) →
      ∀ b, m.foldl (fun acc t =>
        match t.baseES with
        | some b => some (match acc with | some a => min a b | none => b)
        | none => acc) acc = some b → ∃ z : ℤ, b = (z : ℚ) * Day := by
    intro m
    induction m with
    | nil => intro acc _ hacc; exact hacc
    | cons t ts ih =>
      intro acc hmem hacc
      rw [List.foldl_cons]
      cases hES : t.baseES with
      | none =>
        refine ih acc (fun u hu => hmem u (List.mem_cons_of_mem t hu)) hacc
      | some v =>
        have hv := hmem t (List.mem_cons_self t ts) v hES
        refine ih _ (fun u hu => hmem u (List.mem_cons_of_mem t hu)) ?_
        intro b hb
        cases hael : acc with
        | none =>
          rw [hael] at hb
          dsimp only at hb
          have hb2 := Option.some.inj hb
          obtain ⟨z, hz⟩ := hv
          exact ⟨z, by rw [← hb2, hz]⟩
        | some a =>
          rw [hael] at hb
          dsimp only at hb
          have hb2 := Option.some.inj hb
          obtain ⟨za, hza⟩ := hacc a hael
          obtain ⟨zv, hzv⟩ := hv
          rcases le_total a v with hle | hle
          · exact ⟨za, by rw [← hb2, min_eq_left hle, hza]⟩
          · exact ⟨zv, by rw [← hb2, min_eq_right hle, hzv]⟩
  intro b hb
  exact aux m none hal (by intro b hb; exact absurd hb (by simp)) b hb

theorem deriveFromDates_nonneg (row : Row) : 0 ≤ deriveDurationDays.deriveFromDates row := by
  unfold deriveDurationDays.deriveFromDates
  cases row.ES <;> cases row.EF <;> simp

theorem deriveDurationDays_nonneg (row : Row) : 0 ≤ deriveDurationDays row := by
  unfold deriveDurationDays
  cases hd : row.DurDays with
  | none => exact deriveFromDates_nonneg row
  | some d =>
    dsimp only
    by_cases h : 0 ≤ d
    · rw [if_pos h]
      exact h
    · rw [if_neg h]
      exact deriveFromDates_nonneg row

theorem idMapOf_dur_nonneg (rows : List Row) :
    ∀ t ∈ idMapOf rows, 0 ≤ t.duration := by
  have aux : ∀ (rows : List Row) (m : List Task0), (∀ t ∈ m, 0 ≤ t.duration) →
      ∀ t ∈ rows.foldl (fun m row =>
        match row.ActivityID with
        | some id => insertTask m (mkTask0 row id)
        | none => m) m, 0 ≤ t.duration := by
    intro rows
    induction rows with
    | nil => intro m hm; exact hm
    | cons r rs ih =>
      intro m hm
      rw [List.foldl_cons]
      cases hact : r.ActivityID with
      | none => exact ih m hm
      | some id =>
        refine ih _ ?_
        intro t ht
        rcases insertTask_mem_sub ht with ht | ht
        · exact hm t ht
        · subst ht
          exact deriveDurationDays_nonneg r
  exact aux rows [] (by intro t ht; exact absurd ht (List.not_mem_nil t))

theorem insertTask_ids_sup {m : List Task0} {t : Task0} {x : ℚ}
    (h : x ∈ m.map (fun u => u.id)) : x ∈ (insertTask m t).map (fun u => u.id) := by
  unfold insertTask
  by_cases hc : m.any (fun v => v.id = t.id)
  · rw [if_pos hc]
    rcases List.mem_map.mp h with ⟨u, hu, rfl⟩
    by_cases hut : u.id = t.id
    · refine List.mem_map.mpr ⟨t, ?_, hut.symm ▸ rfl⟩
      refine List.mem_map.mpr ⟨u, hu, ?_⟩
      rw [if_pos hut]
    · refine List.mem_map.mpr ⟨u, ?_, rfl⟩
      refine List.mem_map.mpr ⟨u, hu, ?_⟩
      rw [if_neg hut]
  · rw [if_neg hc, List.map_append]
    exact List.mem_append.mpr (Or.inl h)

theorem insertTask_ids_self (m : List Task0) (t : Task0) :
    t.id ∈ (insertTask m t).map (fun u => u.id) := by
  unfold insertTask
  by_cases hc : m.any (fun v => v.id = t.id)
  · rw [if_pos hc]
    obtain ⟨u, hu, hut⟩ := List.any_eq_true.mp hc
    refine List.mem_map.mpr ⟨t, List.mem_map.mpr ⟨u, hu, ?_⟩, rfl⟩
    rw [if_pos (by simpa using hut)]
  · rw [if_neg hc, List.map_append]
    exact List.mem_append.mpr (Or.inr (by simp))

theorem idMap_fold_ids_sup (rows : List Row) :
    ∀ (m : List Task0) (x : ℚ), x ∈ m.map (fun u => u.id) →
      x ∈ ((rows.foldl (fun m row =>
        match row.ActivityID with
        | some id => insertTask m (mkTask0 row id)
        | none => m) m).map (fun u => u.id)) := by
  induction rows with
  | nil => intro m x h; exact h
  | cons r rs ih =>
    intro m x h
    rw [List.foldl_cons]
    cases hact : r.ActivityID with
    | none => exact ih m x h
    | some id => exact ih _ x (insertTask_ids_sup h)

/-- Every finite row id appears in the activity map. -/
theorem idMapOf_mem_ids (rows : List Row) :
    ∀ row ∈ rows, ∀ id, row.ActivityID = some id →
      id ∈ (idMapOf rows).map (fun u => u.id) := by
  have aux : ∀ (rows : List Row) (m : List Task0), ∀ row ∈ rows, ∀ id,
      row.ActivityID = some id →
      id ∈ ((rows.foldl (fun m row =>
        match row.ActivityID with
        | some id => insertTask m (mkTask0 row id)
        | none => m) m).map (fun u => u.id)) := by
    intro rows
    induction rows with
    | nil =>
      intro m row hrow
      exact absurd hrow (List.not_mem_nil row)
    | cons r rs ih =>
      intro m row hrow id hact
      rw [List.foldl_cons]
      rcases List.mem_cons.mp hrow with hrow | hrow
      · subst hrow
        rw [hact]
        refine idMap_fold_ids_sup rs _ id ?_
        have := insertTask_ids_self m (mkTask0 row id)
        simpa [mkTask0] using this
      · cases hact2 : r.ActivityID with
        | none => exact ih m row hrow id hact
        | some id2 => exact ih _ row hrow id hact
  intro row hrow id hact
  exact aux rows [] row hrow id hact

/-- Rebuilding the activity map from transformed rows equals mapping the
original activity map, when the row transformation commutes with record
construction id-wise. -/
theorem idMapOf_map (rows : List Row) (f : Row → Row) (g : Task0 → Task0)
    (hgid : ∀ t, (g t).id = t.id)
    (hact : ∀ row, (f row).ActivityID = row.ActivityID)
    (hmk : ∀ row ∈ rows, ∀ id, row.ActivityID = some id →
      mkTask0 (f row) id = g (mkTask0 row id)) :
    idMapOf (rows.map f) = (idMapOf rows).map g := by
  have hins : ∀ (m : List Task0) (t : Task0),
      insertTask (m.map g) (g t) = (insertTask m t).map g := by
    intro m t
    unfold insertTask
    have hany : (m.map g).any (fun u => u.id = (g t).id)
        = m.any (fun u => u.id = t.id) := by
      rw [List.any_map]
      have hfn : ((fun u : Task0 => decide (u.id = (g t).id)) ∘ g)
          = (fun u : Task0 => decide (u.id = t.id)) := by
        funext u
        simp [hgid]
      rw [hfn]
    rw [hany]
    by_cases hc : m.any (fun u => u.id = t.id)
    · rw [if_pos hc, if_pos hc, List.map_map, List.map_map]
      refine List.map_congr_left (fun u _ => ?_)
      dsimp only [Function.comp]
      by_cases hu : u.id = t.id
      · rw [if_pos hu, if_pos (by rw [hgid, hgid, hu])]
      · rw [if_neg hu, if_neg (by rw [hgid, hgid]; exact hu)]
    · rw [if_neg hc, if_neg hc, List.map_append]
      rfl
  have aux : ∀ (rows : List Row),
      (∀ row ∈ rows, ∀ id, row.ActivityID = some id →
        mkTask0 (f row) id = g (mkTask0 row id)) →
      ∀ (m : List Task0),
      (rows.map f).foldl (fun m row =>
        match row.ActivityID with
        | some id => insertTask m (mkTask0 row id)
        | none => m) (m.map g)
      = (rows.foldl (fun m row =>
        match row.ActivityID with
        | some id => insertTask m (mkTask0 row id)
        | none => m) m).map g := by
    intro rows
    induction rows with
    | nil => intro _ m; rfl
    | cons r rs ih =>
      intro hmk2 m
      rw [List.map_cons, List.foldl_cons, List.foldl_cons]
      rw [hact r]
      cases hact2 : r.ActivityID with
      | none =>
        exact ih (fun row hrow => hmk2 row (List.mem_cons_of_mem r hrow)) m
      | some id =>
        dsimp only
        rw [hmk2 r (List.mem_cons_self r rs) id hact2, hins]
        exact ih (fun row hrow => hmk2 row (List.mem_cons_of_mem r hrow)) _
  unfold idMapOf
  have := aux rows hmk []
  simpa using this

theorem round2_nonneg {q : ℚ} (h : 0 ≤ q) : 0 ≤ round2 q := by
  unfold round2 jsRound
  have h1 : (0 : ℤ) ≤ ⌊q * 100 + 1 / 2⌋ := by
    rw [Int.le_floor]
    push_cast
    nlinarith
  have h2 : (0 : ℚ) ≤ ((⌊q * 100 + 1 / 2⌋ : ℤ) : ℚ) := by exact_mod_cast h1
  positivity

/-- Rebuilding an activity record from an emitted row yields exactly the
solved-task record. -/
theorem mkTask0_emit (T : List Task) (row : Row) (id : ℚ) (task : Task)
    (hact : row.ActivityID = some id) (hlk : lookupTask T id = some task)
    (es ls : ℚ) (hES : task.ES = some es)
    (hEF : task.EF = some (es + task.duration * Day))
    (hLS : task.LS = some ls) (hLF : task.LF = some (ls + task.duration * Day))
    (hdur : 0 ≤ task.duration) :
    mkTask0 (emitRow T row) id = task0OfSolved task id := by
  have hER : emitRow T row = { row with
      ES := some (dayFloor es),
      EF := some (dayFloor (es + task.duration * Day)),
      LS := some (dayFloor ls),
      LF := some (dayFloor (ls + task.duration * Day)),
      DurDays := some (round2 task.duration),
      TotalFloat_d := some task.TotalFloat_d,
      FreeFloat_d := some task.FreeFloat_d } := by
    unfold emitRow
    rw [hact]
    dsimp only
    rw [hlk]
    dsimp only
    rw [hES, hEF, hLS, hLF]
    rfl
  rw [hER]
  unfold mkTask0 task0OfSolved
  rw [hES, hEF, hLS, hLF]
  have hdd : deriveDurationDays ({ row with
      ES := some (dayFloor es),
      EF := some (dayFloor (es + task.duration * Day)),
      LS := some (dayFloor ls),
      LF := some (dayFloor (ls + task.duration * Day)),
      DurDays := some (round2 task.duration),
      TotalFloat_d := some task.TotalFloat_d,
      FreeFloat_d := some task.FreeFloat_d }) = round2 task.duration := by
    unfold deriveDurationDays
    dsimp only
    rw [if_pos (round2_nonneg hdur)]
  rw [hdd]
  rfl

theorem filterEdges_endpoints (ids : List ℚ) (rels : List Edge) :
    ∀ e ∈ filterEdges ids rels, e.pred ∈ ids ∧ e.succ ∈ ids := by
  intro e he
  unfold filterEdges at he
  rcases List.mem_filterMap.mp he with ⟨e0, he0, hsome⟩
  have hguard := List.of_mem_filter he0
  rcases hp : e0.PredID with _ | p
  · rw [hp] at hsome
    exact Option.noConfusion hsome
  · rcases hs : e0.SuccID with _ | s2
    · rw [hp, hs] at hsome
      exact Option.noConfusion hsome
    · rw [hp, hs] at hsome
      have hre := Option.some.inj hsome
      subst hre
      rw [hp, hs] at hguard
      simp only [Bool.and_eq_true] at hguard
      exact ⟨by simpa using hguard.1, by simpa using hguard.2⟩

/-- The drained end state of the pipeline's forward pass satisfies the loop
invariant with an empty queue. -/
theorem sEnd_inv (m : List Task0) (rels : List Edge) (impact : Option Impact)
    (now : ℚ) (hnd : (m.map (fun u => u.id)).Nodup) :
    FwdInv (edgesOf m rels impact now) (m.map (fun u => u.id))
      (sEndOf m rels impact now) ∧ (sEndOf m rels impact now).queue = [] := by
  have hids1 : (tasks1Of m impact now).map (fun t => t.id) = m.map (fun u => u.id) := by
    unfold tasks1Of
    rw [applyImpact_ids, defaultTasks_ids]
  have hE : ∀ e ∈ edgesOf m rels impact now,
      e.pred ∈ m.map (fun u => u.id) ∧ e.succ ∈ m.map (fun u => u.id) := by
    rw [edgesOf_ids]
    exact filterEdges_endpoints _ _
  have hinv0 := fwdInv_init (edgesOf m rels impact now) (tasks1Of m impact now)
    (by rw [hids1]; exact hnd)
    (fun t ht => ⟨(tasks1_unsched m _ impact t ht).1,
      (tasks1_unsched m _ impact t ht).2.1⟩)
  rw [hids1] at hinv0
  have hlen : (tasks1Of m impact now).length = (m.map (fun u => u.id)).length := by
    rw [← hids1, List.length_map]
  constructor
  · show FwdInv _ _ (fwdLoop _ ((tasks1Of m impact now).length + 1)
      (fwdInit m rels impact now))
    exact fwdLoop_inv _ _ hE _ _ hinv0
  · show (fwdLoop _ ((tasks1Of m impact now).length + 1)
      (fwdInit m rels impact now)).queue = []
    rw [hlen]
    exact fwdLoop_drains _ _ hE _ hinv0 rfl

theorem lookup_corr_proj2 {A B : List Task} (hst : A.map statics = B.map statics)
    (hdp : A.map datePair = B.map datePair)
    (hndB : (B.map (fun t => t.id)).Nodup) (k : ℚ) :
    ∀ tA, lookupTask A k = some tA →
      ∃ tB, lookupTask B k = some tB ∧ statics tA = statics tB ∧
        datePair tA = datePair tB := by
  intro tA hA
  obtain ⟨tB, hmemB, hstB, hdpB⟩ := mem_corr_of_proj statics datePair hst hdp
    tA (lookupTask_mem hA)
  have hidB : tB.id = k := by
    have h1 : tA.id = tB.id := congrArg (fun p => p.1) hstB
    rw [← h1]
    exact lookupTask_eq_id hA
  refine ⟨tB, ?_, hstB, hdpB⟩
  rw [← hidB]
  exact lookupTask_of_mem hndB hmemB

/-- Every task of the drained store carries its activity-map statics: the
duration and the defaulted baseline ES of its map entry. -/
theorem sEnd_lookup_base (m : List Task0) (rels : List Edge) (impact : Option Impact)
    (now : ℚ) (hnd : (m.map (fun u => u.id)).Nodup) (k : ℚ) (tS : Task)
    (hlS : lookupTask (sEndOf m rels impact now).tasks k = some tS)
    (himp : impact = none) :
    ∃ t0, lookupTask0 m k = some t0 ∧ tS.duration = t0.duration ∧
      tS.baseES = t0.baseES.getD (defaultStartOf m now) := by
  subst himp
  have hst : (sEndOf m rels none now).tasks.map statics
      = (tasks1Of m none now).map statics := fwdLoop_statics _ _ _
  have hnd1 : ((tasks1Of m none now).map (fun t => t.id)).Nodup := by
    rw [show (tasks1Of m none now).map (fun t => t.id) = m.map (fun u => u.id) from by
      unfold tasks1Of; rw [applyImpact_ids, defaultTasks_ids]]
    exact hnd
  obtain ⟨t1, hl1, hst1⟩ := lookup_corr_statics hst hnd1 k tS hlS
  have ht1m : lookupTask (tasks1Of m none now) k
      = (lookupTask0 m k).map (fun t0 =>
          ({ id := t0.id
             duration := t0.duration
             baseES := t0.baseES.getD (defaultStartOf m now)
             baseEF := t0.baseEF.getD
               (t0.baseES.getD (defaultStartOf m now) + t0.duration * Day)
             baseLS := t0.baseLS
             baseLF := t0.baseLF } : Task)) := by
    show lookupTask (defaultTasks m (defaultStartOf m now)) k = _
    unfold defaultTasks
    exact lookupTask_map0 _ (fun t => rfl) m k
  rw [ht1m] at hl1
  cases h0 : lookupTask0 m k with
  | none =>
    rw [h0] at hl1
    exact Option.noConfusion hl1
  | some t0 =>
    rw [h0] at hl1
    have ht1 := Option.some.inj hl1
    refine ⟨t0, rfl, ?_, ?_⟩
    · have hdur : tS.duration = t1.duration := congrArg (fun p => p.2.1) hst1
      rw [hdur, ← ht1]
    · have hbes : tS.baseES = t1.baseES := congrArg (fun p => p.2.2.1) hst1
      rw [hbes, ← ht1]

/-- The solved store's entry at `k` carries the drained-run entry's duration
and its (cycle-fallback-completed) early start. -/
theorem tasks4_lookup_dates (m : List Task0) (rels : List Edge)
    (impact : Option Impact) (now : ℚ)
    (hnd : (m.map (fun u => u.id)).Nodup) (k : ℚ) (tS : Task)
    (hlS : lookupTask (sEndOf m rels impact now).tasks k = some tS) :
    ∃ t4, lookupTask (tasks4Of m rels impact now) k = some t4 ∧
      t4.duration = tS.duration ∧ t4.ES = some (tS.ES.getD tS.baseES) := by
  have hfid : ∀ t : Task, ((fun t : Task => match t.ES with
      | some _ => t
      | none =>
        { t with
            ES := some t.baseES,
            EF := some (t.baseES + t.duration * Day) }) t).id = t.id := by
    intro t
    dsimp only
    cases t.ES <;> rfl
  have h2 : lookupTask (tasks2Of m rels impact now) k = some
      ((fun t : Task => match t.ES with
        | some _ => t
        | none =>
          { t with
              ES := some t.baseES,
              EF := some (t.baseES + t.duration * Day) }) tS) := by
    show lookupTask (fillES (sEndOf m rels impact now).tasks) k = _
    unfold fillES
    rw [lookupTask_map _ hfid, hlS]
    rfl
  have hst2 : (tasks2Of m rels impact now).map statics
      = (tasks1Of m impact now).map statics :=
    (fillES_statics _).trans (fwdLoop_statics _ _ _)
  have hids1 : (tasks1Of m impact now).map (fun t => t.id) = m.map (fun u => u.id) := by
    unfold tasks1Of
    rw [applyImpact_ids, defaultTasks_ids]
  have hnd4 : ((tasks4Of m rels impact now).map (fun t => t.id)).Nodup := by
    rw [ids_eq_of_statics_eq (tasks4_proj m rels impact now hnd).1,
      ids_eq_of_statics_eq hst2, hids1]
    exact hnd
  obtain ⟨t4, hl4, hst4, hdp4⟩ := lookup_corr_proj2
    (tasks4_proj m rels impact now hnd).1.symm
    (tasks4_proj m rels impact now hnd).2.symm hnd4 k _ h2
  refine ⟨t4, hl4, ?_, ?_⟩
  · have hd : ((fun t : Task => match t.ES with
        | some _ => t
        | none =>
          { t with
              ES := some t.baseES,
              EF := some (t.baseES + t.duration * Day) }) tS).duration
        = t4.duration := congrArg (fun p => p.2.1) hst4
    rw [← hd]
    dsimp only
    cases hes : tS.ES <;> rfl
  · have he : ((fun t : Task => match t.ES with
        | some _ => t
        | none =>
          { t with
              ES := some t.baseES,
              EF := some (t.baseES + t.duration * Day) }) tS).ES
        = t4.ES := congrArg Prod.fst hdp4
    rw [← he]
    dsimp only
    cases hes : tS.ES with
    | none => rfl
    | some v => exact hes

theorem lookupTask0_eq_id {m : List Task0} {k : ℚ} {t : Task0}
    (h : lookupTask0 m k = some t) : t.id = k := by
  have := List.find?_some h
  simpa using this

theorem lookupTask0_mem {m : List Task0} {k : ℚ} {t : Task0}
    (h : lookupTask0 m k = some t) : t ∈ m :=
  List.mem_of_find?_eq_some h

theorem lookupTask0_some_of_mem {m : List Task0} {k : ℚ}
    (h : k ∈ m.map (fun u => u.id)) : ∃ t, lookupTask0 m k = some t := by
  cases hl : lookupTask0 m k with
  | some t => exact ⟨t, rfl⟩
  | none =>
    rcases List.mem_map.mp h with ⟨t, ht, rfl⟩
    have := List.find?_eq_none.mp hl t ht
    simp at this

theorem eq_of_mem_of_nodup_ids0 {m : List Task0}
    (hnd : (m.map (fun u => u.id)).Nodup)
    {u v : Task0} (hu : u ∈ m) (hv : v ∈ m) (hid : u.id = v.id) : u = v :=
  List.inj_on_of_nodup_map hnd hu hv hid

theorem lookupTask0_of_mem {m : List Task0} (hnd : (m.map (fun u => u.id)).Nodup)
    {t : Task0} (ht : t ∈ m) : lookupTask0 m t.id = some t := by
  cases hl : lookupTask0 m t.id with
  | none =>
    have := List.find?_eq_none.mp hl t ht
    simp at this
  | some v =>
    have hvid : v.id = t.id := lookupTask0_eq_id hl
    rw [eq_of_mem_of_nodup_ids0 hnd (lookupTask0_mem hl) ht hvid]

theorem lookupTask0_map (g : Task0 → Task0) (hg : ∀ t, (g t).id = t.id)
    (m : List Task0) (k : ℚ) :
    lookupTask0 (m.map g) k = (lookupTask0 m k).map g := by
  induction m with
  | nil => rfl
  | cons t ts ih =>
    show List.find? _ (g t :: ts.map g) = _
    by_cases h : t.id = k
    · rw [List.find?_cons_of_pos _ (by simpa [hg] using h),
        show lookupTask0 (t :: ts) k = some t from
          List.find?_cons_of_pos _ (by simpa using h)]
      rfl
    · rw [List.find?_cons_of_neg _ (by simpa [hg] using h)]
      show lookupTask0 (ts.map g) k = _
      rw [ih, show lookupTask0 (t :: ts) k = lookupTask0 ts k from
        List.find?_cons_of_neg _ (by simpa using h)]

theorem minBase_mem (m : List Task0) :
    ∀ b, minBase m = some b → ∃ t ∈ m, t.baseES = some b := by
  have aux : ∀ (m : List Task0) (acc : Option ℚ) (b : ℚ),
      m.foldl (fun acc t =>
        match t.baseES with
        | some b => some (match acc with | some a => min a b | none => b)
        | none => acc) acc = some b →
      acc = some b ∨ ∃ t ∈ m, t.baseES = some b := by
    intro m
    induction m with
    | nil => intro acc b h; exact Or.inl h
    | cons t ts ih =>
      intro acc b
      rw [List.foldl_cons]
      cases hES : t.baseES with
      | none =>
        dsimp only
        intro h
        rcases ih acc b h with h | ⟨u, hu, hb⟩
        · exact Or.inl h
        · exact Or.inr ⟨u, List.mem_cons_of_mem t hu, hb⟩
      | some v =>
        dsimp only
        cases hacc : acc with
        | none =>
          dsimp only
          intro h
          rcases ih _ b h with h | ⟨u, hu, hb⟩
          · have hv := Option.some.inj h
            exact Or.inr ⟨t, List.mem_cons_self t ts, by rw [hES, hv]⟩
          · exact Or.inr ⟨u, List.mem_cons_of_mem t hu, hb⟩
        | some a =>
          dsimp only
          intro h
          rcases ih _ b h with h | ⟨u, hu, hb⟩
          · have hv := Option.some.inj h
            rcases min_choice a v with hmin | hmin
            · exact Or.inl (by rw [← hv, hmin])
            · exact Or.inr ⟨t, List.mem_cons_self t ts, by rw [hES, ← hv, hmin]⟩
          · exact Or.inr ⟨u, List.mem_cons_of_mem t hu, hb⟩
  intro b h
  rcases aux m none b h with h | h
  · exact Option.noConfusion h
  · exact h

theorem minBase_some_of_all (m : List Task0) (hne : m ≠ [])
    (hall : ∀ t ∈ m, ∃ b, t.baseES = some b) : ∃ b, minBase m = some b := by
  have aux : ∀ (m : List Task0) (a : ℚ),
      ∃ b, m.foldl (fun acc t =>
        match t.baseES with
        | some b => some (match acc with | some a => min a b | none => b)
        | none => acc) (some a) = some b := by
    intro m
    induction m with
    | nil => intro a; exact ⟨a, rfl⟩
    | cons t ts ih =>
      intro a
      rw [List.foldl_cons]
      cases hES : t.baseES with
      | none => exact ih a
      | some v => exact ih (min a v)
  cases m with
  | nil => exact absurd rfl hne
  | cons t ts =>
    obtain ⟨v, hv⟩ := hall t (List.mem_cons_self t ts)
    show ∃ b, (t :: ts).foldl _ none = some b
    rw [List.foldl_cons, hv]
    exact aux ts v

theorem le_startOf (pend : Option ℚ) (base : ℚ) : base ≤ startOf pend base := by
  cases pend with
  | none => exact le_refl base
  | some c => exact le_max_right c base

theorem reTask0_id (T4 : List Task) (t0 : Task0) : (reTask0 T4 t0).id = t0.id := by
  unfold reTask0
  cases lookupTask T4 t0.id <;> rfl

theorem map_reTask0_ids (T4 : List Task) (m : List Task0) :
    (m.map (reTask0 T4)).map (fun u => u.id) = m.map (fun u => u.id) := by
  rw [List.map_map]
  exact List.map_congr_left (fun t _ => reTask0_id T4 t)

theorem tasks4_ids (m : List Task0) (rels : List Edge) (impact : Option Impact)
    (now : ℚ) (hnd : (m.map (fun u => u.id)).Nodup) :
    (tasks4Of m rels impact now).map (fun t => t.id) = m.map (fun u => u.id) := by
  have hst2 : (tasks2Of m rels impact now).map statics
      = (tasks1Of m impact now).map statics :=
    (fillES_statics _).trans (fwdLoop_statics _ _ _)
  rw [ids_eq_of_statics_eq (tasks4_proj m rels impact now hnd).1,
    ids_eq_of_statics_eq hst2]
  unfold tasks1Of
  rw [applyImpact_ids, defaultTasks_ids]

theorem edKey_of_proj {t u : Task} (hs : statics t = statics u)
    (hd : datePair t = datePair u) : edKey t = edKey u := by
  have h1 : t.duration = u.duration := congrArg (fun p => p.2.1) hs
  have h2 : t.baseES = u.baseES := congrArg (fun p => p.2.2.1) hs
  have h3 : t.ES = u.ES := congrArg Prod.fst hd
  have h4 : t.EF = u.EF := congrArg Prod.snd hd
  unfold edKey
  rw [h1, h2, h3, h4]

theorem lookup_none_iff_not_mem {S : List Task} {k : ℚ} :
    lookupTask S k = none ↔ k ∉ S.map (fun t => t.id) := by
  constructor
  · intro h hmem
    obtain ⟨u, hu⟩ := lookupTask_some_of_mem hmem
    rw [h] at hu
    exact Option.noConfusion hu
  · intro hmem
    refine lookupTask_of_not_mem (fun t ht hcon => ?_)
    exact hmem (List.mem_map.mpr ⟨t, ht, hcon⟩)

theorem lookup_edKey_eq {A B : List Task} (hst : A.map statics = B.map statics)
    (hdp : A.map datePair = B.map datePair)
    (hndB : (B.map (fun t => t.id)).Nodup) (j : ℚ) :
    (lookupTask A j).map edKey = (lookupTask B j).map edKey := by
  cases hA : lookupTask A j with
  | some tA =>
    obtain ⟨tB, hB, hs, hd⟩ := lookup_corr_proj2 hst hdp hndB j tA hA
    rw [hB]
    show some (edKey tA) = some (edKey tB)
    rw [edKey_of_proj hs hd]
  | none =>
    have hids : A.map (fun t => t.id) = B.map (fun t => t.id) :=
      ids_eq_of_statics_eq hst
    have hnB : j ∉ B.map (fun t => t.id) := by
      rw [← hids]
      exact lookup_none_iff_not_mem.mp hA
    rw [lookup_none_iff_not_mem.mpr hnB]

theorem pf_foldl_ge_acc (tasks : List Task) :
    ∀ (ord : List ℚ) (acc : ℚ), acc ≤ ord.foldl (fun acc id =>
      match lookupTask tasks id with
      | none => acc
      | some t => max acc (t.EF.getD t.baseEF)) acc := by
  intro ord
  induction ord with
  | nil => intro acc; exact le_refl acc
  | cons id rest ih =>
    intro acc
    rw [List.foldl_cons]
    refine le_trans ?_ (ih _)
    cases hl : lookupTask tasks id with
    | none => exact le_refl acc
    | some t => exact le_max_left acc _

theorem pf_ge_init (tasks : List Task) (ord : List ℚ) (d : ℚ) :
    d ≤ projectFinishOf tasks ord d :=
  pf_foldl_ge_acc tasks ord d

theorem pf_ge_elem (tasks : List Task) (ord : List ℚ) (d : ℚ) :
    ∀ id ∈ ord, ∀ t, lookupTask tasks id = some t →
      t.EF.getD t.baseEF ≤ projectFinishOf tasks ord d := by
  have aux : ∀ (ord : List ℚ) (acc : ℚ), ∀ id ∈ ord, ∀ t,
      lookupTask tasks id = some t →
      t.EF.getD t.baseEF ≤ ord.foldl (fun acc id =>
        match lookupTask tasks id with
        | none => acc
        | some t => max acc (t.EF.getD t.baseEF)) acc := by
    intro ord
    induction ord with
    | nil =>
      intro acc id hid
      exact absurd hid (List.not_mem_nil id)
    | cons id0 rest ih =>
      intro acc id hid t hl
      rw [List.foldl_cons]
      rcases List.mem_cons.mp hid with rfl | hid
      · rw [hl]
        refine le_trans (le_max_right acc _) ?_
        exact pf_foldl_ge_acc tasks rest _
      · exact ih _ id hid t hl
  exact aux ord d

theorem pf_le (tasks : List Task) (ord : List ℚ) (d X : ℚ) (hd : d ≤ X)
    (hall : ∀ id ∈ ord, ∀ t, lookupTask tasks id = some t →
      t.EF.getD t.baseEF ≤ X) :
    projectFinishOf tasks ord d ≤ X := by
  have aux : ∀ (ord : List ℚ) (acc : ℚ), acc ≤ X →
      (∀ id ∈ ord, ∀ t, lookupTask tasks id = some t →
        t.EF.getD t.baseEF ≤ X) →
      ord.foldl (fun acc id =>
        match lookupTask tasks id with
        | none => acc
        | some t => max acc (t.EF.getD t.baseEF)) acc ≤ X := by
    intro ord
    induction ord with
    | nil => intro acc hacc _; exact hacc
    | cons id0 rest ih =>
      intro acc hacc hall
      rw [List.foldl_cons]
      refine ih _ ?_ (fun id hid t hl => hall id (List.mem_cons_of_mem id0 hid) t hl)
      cases hl : lookupTask tasks id0 with
      | none => exact hacc
      | some t =>
        exact max_le hacc (hall id0 (List.mem_cons_self id0 rest) t hl)
  exact aux ord d hd hall

theorem lookupTask_fillES (S : List Task) (k : ℚ) :
    lookupTask (fillES S) k = (lookupTask S k).map (fun t : Task =>
      match t.ES with
      | some _ => t
      | none =>
        { t with
            ES := some t.baseES,
            EF := some (t.baseES + t.duration * Day) }) := by
  show lookupTask (S.map _) k = _
  exact lookupTask_map _ (fun t => by cases t.ES <;> rfl) S k

theorem sEnd_lookup_exists (m : List Task0) (rels : List Edge)
    (impact : Option Impact) (now : ℚ) (hnd : (m.map (fun u => u.id)).Nodup)
    (k : ℚ) (hk : k ∈ m.map (fun u => u.id)) :
    ∃ tS, lookupTask (sEndOf m rels impact now).tasks k = some tS := by
  refine lookupTask_some_of_mem ?_
  rw [(sEnd_inv m rels impact now hnd).1.ids_eq]
  exact hk

theorem tasks2_lookup_base (m : List Task0) (rels : List Edge) (now : ℚ)
    (hnd : (m.map (fun u => u.id)).Nodup) (k : ℚ) (t₂ : Task)
    (hl2 : lookupTask (tasks2Of m rels none now) k = some t₂) :
    ∃ t0, lookupTask0 m k = some t0 ∧ t₂.duration = t0.duration ∧
      ∀ es, t₂.ES = some es → t0.baseES.getD (defaultStartOf m now) ≤ es := by
  have hl2' := hl2
  rw [show tasks2Of m rels none now = fillES (sEndOf m rels none now).tasks from rfl,
    lookupTask_fillES] at hl2'
  rcases Option.map_eq_some'.mp hl2' with ⟨tS, hlS, hfS⟩
  obtain ⟨t0, h0, hdur, hbase⟩ := sEnd_lookup_base m rels none now hnd k tS hlS rfl
  have hinv := (sEnd_inv m rels none now hnd).1
  have hsched := hinv.sched tS (lookupTask_mem hlS)
  refine ⟨t0, h0, ?_, ?_⟩
  · rw [← hfS]
    cases hES : tS.ES <;> (dsimp only; rw [hdur])
  · intro es hes
    rw [← hfS] at hes
    cases hES : tS.ES with
    | none =>
      rw [hES] at hes
      dsimp only at hes
      have : tS.baseES = es := Option.some.inj hes
      rw [← this, hbase]
    | some es0 =>
      rw [hES] at hes
      dsimp only at hes
      have htopo : tS.id ∈ (sEndOf m rels none now).topo := by
        by_contra hcon
        have := (hsched.2 hcon).1
        rw [hES] at this
        exact Option.noConfusion this
      have hform := (hsched.1 htopo).1
      rw [hES] at hform hes
      have h1 : es0 = startOf ((sEndOf m rels none now).pending tS.id) tS.baseES :=
        Option.some.inj hform
      have h2 : es0 = es := Option.some.inj hes
      rw [← h2, h1, hbase]
      exact le_trans (le_of_eq rfl) (le_startOf _ _)

theorem sEnd_inv2 (m : List Task0) (rels : List Edge) (now now' : ℚ)
    (hnd : (m.map (fun u => u.id)).Nodup) :
    FwdInv (edgesOf m rels none now) (m.map (fun u => u.id))
      (sEndOf (m.map (reTask0 (tasks4Of m rels none now))) rels none now') ∧
    (sEndOf (m.map (reTask0 (tasks4Of m rels none now))) rels none now').queue = [] := by
  have h := sEnd_inv (m.map (reTask0 (tasks4Of m rels none now))) rels none now'
    (by rw [map_reTask0_ids]; exact hnd)
  have hE : edgesOf (m.map (reTask0 (tasks4Of m rels none now))) rels none now'
      = edgesOf m rels none now := by
    rw [edgesOf_ids, edgesOf_ids, map_reTask0_ids]
  rw [hE, map_reTask0_ids] at h
  exact h

theorem sEnd_corr (m : List Task0) (rels : List Edge) (now now' : ℚ)
    (hnd : (m.map (fun u => u.id)).Nodup)
    (hal : ∀ t ∈ m, ∀ b, t.baseES = some b → ∃ z : ℤ, b = (z : ℚ) * Day)
    (b₀ : ℚ) (hmb : minBase m = some b₀)
    (H2 : ∀ t ∈ m, round2 t.duration = t.duration) :
    ∀ k ∈ m.map (fun u => u.id), ∀ tA tB,
      lookupTask (sEndOf m rels none now).tasks k = some tA →
      lookupTask (sEndOf (m.map (reTask0 (tasks4Of m rels none now)))
        rels none now').tasks k = some tB →
      tB.duration = tA.duration ∧ (∃ z : ℤ, tA.baseES = (z : ℚ) * Day) ∧
      (∀ esA : ℚ, tA.ES = some esA → tB.baseES = (dayFloor esA : ℚ) * Day) ∧
      (tA.ES = none → tB.baseES = tA.baseES) := by
  intro k hk tA tB hlA hlB
  have hnd' : ((m.map (reTask0 (tasks4Of m rels none now))).map
      (fun u => u.id)).Nodup := by
    rw [map_reTask0_ids]; exact hnd
  obtain ⟨t0A, h0A, hdurA, hbA⟩ := sEnd_lookup_base m rels none now hnd k tA hlA rfl
  obtain ⟨t0B, h0B, hdurB, hbB⟩ := sEnd_lookup_base
    (m.map (reTask0 (tasks4Of m rels none now))) rels none now' hnd' k tB hlB rfl
  obtain ⟨t4, hl4, h4dur, h4ES⟩ := tasks4_lookup_dates m rels none now hnd k tA hlA
  have hidA : t0A.id = k := lookupTask0_eq_id h0A
  have h0B' : lookupTask0 (m.map (reTask0 (tasks4Of m rels none now))) k
      = some (reTask0 (tasks4Of m rels none now) t0A) := by
    rw [lookupTask0_map _ (reTask0_id _) m k, h0A]
    rfl
  have ht0B : t0B = reTask0 (tasks4Of m rels none now) t0A := by
    rw [h0B] at h0B'
    exact Option.some.inj h0B'
  have hre : reTask0 (tasks4Of m rels none now) t0A = task0OfSolved t4 t0A.id := by
    unfold reTask0
    rw [hidA, hl4]
  have halA : ∃ z : ℤ, tA.baseES = (z : ℚ) * Day := by
    rw [hbA]
    cases hb0 : t0A.baseES with
    | some b => exact hal t0A (lookupTask0_mem h0A) b hb0
    | none =>
      show ∃ z : ℤ, (defaultStartOf m now) = (z : ℚ) * Day
      unfold defaultStartOf
      rw [hmb]
      exact minBase_aligned m hal b₀ hmb
  have hbB' : tB.baseES = (dayFloor (t4.ES.getD 0) : ℚ) * Day := by
    rw [hbB, ht0B, hre]
    rfl
  refine ⟨?_, halA, ?_, ?_⟩
  · rw [hdurB, ht0B, hre]
    show round2 t4.duration = tA.duration
    rw [h4dur, hdurA, H2 t0A (lookupTask0_mem h0A), ← hdurA]
  · intro esA hesA
    rw [hbB', h4ES, hesA]
    rfl
  · intro hesA
    rw [hbB', h4ES, hesA]
    obtain ⟨z, hz⟩ := halA
    show (dayFloor (tA.baseES) : ℚ) * Day = tA.baseES
    rw [hz, dayFloor_aligned]

theorem tasks2_values_eq (m : List Task0) (rels : List Edge) (now now' : ℚ)
    (hnd : (m.map (fun u => u.id)).Nodup)
    (hal : ∀ t ∈ m, ∀ b, t.baseES = some b → ∃ z : ℤ, b = (z : ℚ) * Day)
    (b₀ : ℚ) (hmb : minBase m = some b₀)
    (H2 : ∀ t ∈ m, round2 t.duration = t.duration) :
    ∀ k ∈ m.map (fun u => u.id), ∀ t₁ t₂,
      lookupTask (tasks2Of m rels none now) k = some t₁ →
      lookupTask (tasks2Of (m.map (reTask0 (tasks4Of m rels none now)))
        rels none now') k = some t₂ →
      t₂.duration = t₁.duration ∧ t₂.ES = t₁.ES ∧ t₂.EF = t₁.EF ∧
      ∃ es, t₁.ES = some es ∧ t₁.EF = some (es + t₁.duration * Day) := by
  intro k hk t₁ t₂ hl1 hl2
  rw [show tasks2Of m rels none now = fillES (sEndOf m rels none now).tasks from rfl,
    lookupTask_fillES] at hl1
  rw [show tasks2Of (m.map (reTask0 (tasks4Of m rels none now))) rels none now'
      = fillES (sEndOf (m.map (reTask0 (tasks4Of m rels none now)))
        rels none now').tasks from rfl,
    lookupTask_fillES] at hl2
  rcases Option.map_eq_some'.mp hl1 with ⟨tS₁, hlS₁, hf₁⟩
  rcases Option.map_eq_some'.mp hl2 with ⟨tS₂, hlS₂, hf₂⟩
  have invA := (sEnd_inv m rels none now hnd).1
  have hqA := (sEnd_inv m rels none now hnd).2
  have invB := (sEnd_inv2 m rels now now' hnd).1
  have hqB := (sEnd_inv2 m rels now now' hnd).2
  have hEnd : ∀ e ∈ edgesOf m rels none now,
      e.pred ∈ m.map (fun u => u.id) ∧ e.succ ∈ m.map (fun u => u.id) := by
    rw [edgesOf_ids]
    exact filterEdges_endpoints _ _
  have hcorr := sEnd_corr m rels now now' hnd hal b₀ hmb H2 k hk tS₁ tS₂ hlS₁ hlS₂
  have hid₁ : tS₁.id = k := lookupTask_eq_id hlS₁
  have hid₂ : tS₂.id = k := lookupTask_eq_id hlS₂
  have hsched₁ := invA.sched tS₁ (lookupTask_mem hlS₁)
  have hsched₂ := invB.sched tS₂ (lookupTask_mem hlS₂)
  by_cases hmemT : k ∈ (sEndOf m rels none now).topo
  · have hfv := forward_values_eq (edgesOf m rels none now) (m.map (fun u => u.id))
      (sEndOf m rels none now)
      (sEndOf (m.map (reTask0 (tasks4Of m rels none now))) rels none now')
      invA invB hqB hEnd
      (fun k hk tA tB hA hB =>
        ⟨(sEnd_corr m rels now now' hnd hal b₀ hmb H2 k hk tA tB hA hB).1,
         (sEnd_corr m rels now now' hnd hal b₀ hmb H2 k hk tA tB hA hB).2.1,
         (sEnd_corr m rels now now' hnd hal b₀ hmb H2 k hk tA tB hA hB).2.2.1⟩)
      k hmemT tS₁ tS₂ hlS₁ hlS₂
    obtain ⟨hES₁, hEF₁⟩ := hsched₁.1 (by rw [hid₁]; exact hmemT)
    have ht₁ : t₁ = tS₁ := by
      rw [← hf₁, hES₁]
    have ht₂ : t₂ = tS₂ := by
      rw [← hf₂, hfv.1, hES₁]
    refine ⟨?_, ?_, ?_, ?_⟩
    · rw [ht₁, ht₂]; exact hcorr.1
    · rw [ht₁, ht₂]; exact hfv.1
    · rw [ht₁, ht₂]; exact hfv.2
    · exact ⟨_, by rw [ht₁]; exact hES₁, by rw [ht₁]; exact hEF₁⟩
  · have hmemT₂ : k ∉ (sEndOf (m.map (reTask0 (tasks4Of m rels none now)))
        rels none now').topo := by
      intro hcon
      exact hmemT (topo_incl (edgesOf m rels none now) (m.map (fun u => u.id))
        _ _ invB invA hqA k hcon)
    obtain ⟨hES₁, hEF₁⟩ := hsched₁.2 (by rw [hid₁]; exact hmemT)
    obtain ⟨hES₂, hEF₂⟩ := hsched₂.2 (by rw [hid₂]; exact hmemT₂)
    have hbase := hcorr.2.2.2 hES₁
    have ht₁ : t₁ = { tS₁ with
        ES := some tS₁.baseES,
        EF := some (tS₁.baseES + tS₁.duration * Day) } := by
      rw [← hf₁, hES₁]
    have ht₂ : t₂ = { tS₂ with
        ES := some tS₂.baseES,
        EF := some (tS₂.baseES + tS₂.duration * Day) } := by
      rw [← hf₂, hES₂]
    refine ⟨?_, ?_, ?_, ?_⟩
    · rw [ht₁, ht₂]; exact hcorr.1
    · rw [ht₁, ht₂]
      show some tS₂.baseES = some tS₁.baseES
      rw [hbase]
    · rw [ht₁, ht₂]
      show some (tS₂.baseES + tS₂.duration * Day)
        = some (tS₁.baseES + tS₁.duration * Day)
      rw [hbase, hcorr.1]
    · refine ⟨tS₁.baseES, ?_, ?_⟩
      · rw [ht₁]
      · rw [ht₁]

theorem tasks2_ids (m : List Task0) (rels : List Edge) (impact : Option Impact)
    (now : ℚ) :
    (tasks2Of m rels impact now).map (fun t => t.id) = m.map (fun u => u.id) := by
  have hst2 : (tasks2Of m rels impact now).map statics
      = (tasks1Of m impact now).map statics :=
    (fillES_statics _).trans (fwdLoop_statics _ _ _)
  rw [ids_eq_of_statics_eq hst2]
  unfold tasks1Of
  rw [applyImpact_ids, defaultTasks_ids]

theorem tasks2_lookup_exists (m : List Task0) (rels : List Edge)
    (impact : Option Impact) (now : ℚ) (k : ℚ) (hk : k ∈ m.map (fun u => u.id)) :
    ∃ t, lookupTask (tasks2Of m rels impact now) k = some t := by
  refine lookupTask_some_of_mem ?_
  rw [tasks2_ids]
  exact hk

theorem fullOrder_sub (m : List Task0) (rels : List Edge) (impact : Option Impact)
    (now : ℚ) (hnd : (m.map (fun u => u.id)).Nodup) :
    ∀ id ∈ fullOrderOf m rels impact now, id ∈ m.map (fun u => u.id) := by
  intro id hid
  rcases List.mem_append.mp hid with hid | hid
  · exact (sEnd_inv m rels impact now hnd).1.topo_sub id hid
  · rcases List.mem_map.mp hid with ⟨t, ht, rfl⟩
    rw [← tasks2_ids m rels impact now]
    exact List.mem_map.mpr ⟨t, List.mem_of_mem_filter ht, rfl⟩

theorem fullOrder_mem (m : List Task0) (rels : List Edge) (impact : Option Impact)
    (now : ℚ) (k : ℚ) (hk : k ∈ m.map (fun u => u.id)) :
    k ∈ fullOrderOf m rels impact now := by
  obtain ⟨t, hl⟩ := tasks2_lookup_exists m rels impact now k hk
  have := mem_topoOrderOf (sEndOf m rels impact now).topo
    (tasks2Of m rels impact now) t (lookupTask_mem hl)
  rw [lookupTask_eq_id hl] at this
  exact this

theorem tasks2_shape (m : List Task0) (rels : List Edge) (impact : Option Impact)
    (now : ℚ) (hnd : (m.map (fun u => u.id)).Nodup) :
    ∀ t ∈ tasks2Of m rels impact now,
      (∃ es, t.ES = some es ∧ t.EF = some (es + t.duration * Day)) ∧
      (t.id ∉ (sEndOf m rels impact now).topo →
        t.ES = some t.baseES ∧ t.EF = some (t.baseES + t.duration * Day)) := by
  have hids1 : (tasks1Of m impact now).map (fun t => t.id) = m.map (fun u => u.id) := by
    unfold tasks1Of
    rw [applyImpact_ids, defaultTasks_ids]
  have hnd1 : ((tasks1Of m impact now).map (fun t => t.id)).Nodup := by
    rw [hids1]; exact hnd
  have hinv0 : ∀ u ∈ (fwdInit m rels impact now).tasks,
      schedInv (fwdInit m rels impact now).topo u := by
    intro u hu
    have hus := tasks1_unsched m (defaultStartOf m now) impact u hu
    exact Or.inr ⟨List.not_mem_nil u.id, hus.1, hus.2.1⟩
  have hloop : ∀ u ∈ (sEndOf m rels impact now).tasks,
      schedInv (sEndOf m rels impact now).topo u :=
    fwdLoop_schedInv _ _ _ hnd1 hinv0
  exact fillES_shape (sEndOf m rels impact now).topo
    (sEndOf m rels impact now).tasks hloop

theorem reTask0_baseES (m : List Task0) (rels : List Edge) (now : ℚ)
    (hnd : (m.map (fun u => u.id)).Nodup) :
    ∀ u ∈ m.map (reTask0 (tasks4Of m rels none now)), ∃ b, u.baseES = some b := by
  intro u hu
  rcases List.mem_map.mp hu with ⟨t0, ht0, rfl⟩
  have hkid : t0.id ∈ (tasks4Of m rels none now).map (fun t => t.id) := by
    rw [tasks4_ids m rels none now hnd]
    exact List.mem_map.mpr ⟨t0, ht0, rfl⟩
  obtain ⟨task, htask⟩ := lookupTask_some_of_mem hkid
  unfold reTask0
  rw [htask]
  exact ⟨_, rfl⟩

theorem minBase_reTask0_some (m : List Task0) (rels : List Edge) (now : ℚ)
    (hne : m ≠ []) (hnd : (m.map (fun u => u.id)).Nodup) :
    ∃ b, minBase (m.map (reTask0 (tasks4Of m rels none now))) = some b := by
  refine minBase_some_of_all _ ?_ (reTask0_baseES m rels now hnd)
  intro h
  exact hne (List.map_eq_nil_iff.mp h)

theorem tasks2_lookup_ES (m : List Task0) (rels : List Edge) (now : ℚ)
    (k : ℚ) (t₁ : Task)
    (hl : lookupTask (tasks2Of m rels none now) k = some t₁) :
    ∃ tS, lookupTask (sEndOf m rels none now).tasks k = some tS ∧
      t₁.ES = some (tS.ES.getD tS.baseES) ∧ t₁.duration = tS.duration := by
  rw [show tasks2Of m rels none now = fillES (sEndOf m rels none now).tasks from rfl,
    lookupTask_fillES] at hl
  rcases Option.map_eq_some'.mp hl with ⟨tS, hlS, hf⟩
  refine ⟨tS, hlS, ?_, ?_⟩
  · rw [← hf]
    cases hes : tS.ES with
    | none => rfl
    | some v => exact hes
  · rw [← hf]
    cases hes : tS.ES <;> rfl

theorem minBase_reTask0_le_pf (m : List Task0) (rels : List Edge) (now : ℚ)
    (hnd : (m.map (fun u => u.id)).Nodup) (hdur : ∀ t ∈ m, 0 ≤ t.duration) :
    ∀ b₂, minBase (m.map (reTask0 (tasks4Of m rels none now))) = some b₂ →
      b₂ ≤ pfOf m rels none now := by
  intro b₂ hb₂
  obtain ⟨u, hu, hub⟩ := minBase_mem _ b₂ hb₂
  rcases List.mem_map.mp hu with ⟨t0, ht0, rfl⟩
  have hkid : t0.id ∈ m.map (fun u => u.id) := List.mem_map.mpr ⟨t0, ht0, rfl⟩
  obtain ⟨t₁, hl2⟩ := tasks2_lookup_exists m rels none now t0.id hkid
  obtain ⟨tS, hlS, hES₁, hdur₁⟩ := tasks2_lookup_ES m rels now t0.id t₁ hl2
  obtain ⟨t4, hl4, h4dur, h4ES⟩ := tasks4_lookup_dates m rels none now hnd t0.id tS hlS
  have hbase : (reTask0 (tasks4Of m rels none now) t0).baseES
      = some ((dayFloor (t4.ES.getD 0) : ℚ) * Day) := by
    unfold reTask0
    rw [hl4]
    rfl
  have hb₂v : b₂ = (dayFloor (t4.ES.getD 0) : ℚ) * Day := by
    rw [hbase] at hub
    exact (Option.some.inj hub).symm
  obtain ⟨⟨es, hes, hef⟩, _⟩ := tasks2_shape m rels none now hnd _ (lookupTask_mem hl2)
  have hesv : es = tS.ES.getD tS.baseES := by
    rw [hES₁] at hes
    exact Option.some.inj hes.symm
  obtain ⟨t0', h0', hdur', _⟩ := tasks2_lookup_base m rels now hnd t0.id _ hl2
  have ht0' : t0' = t0 := by
    rw [lookupTask0_of_mem hnd ht0] at h0'
    exact (Option.some.inj h0').symm
  have hdnn : 0 ≤ t₁.duration := by
    rw [hdur', ht0']
    exact hdur t0 ht0
  have hval := pf_ge_elem (tasks2Of m rels none now) (fullOrderOf m rels none now)
    (defaultStartOf m now) t0.id (fullOrder_mem m rels none now t0.id hkid) _ hl2
  rw [hef] at hval
  have hgd : (some (es + t₁.duration * Day)).getD t₁.baseEF
      = es + t₁.duration * Day := rfl
  rw [hgd] at hval
  calc b₂ = (dayFloor (t4.ES.getD 0) : ℚ) * Day := hb₂v
    _ ≤ t4.ES.getD 0 := dayFloor_mul_le _
    _ = es := by rw [h4ES, ← hesv]; rfl
    _ ≤ es + t₁.duration * Day :=
        le_add_of_nonneg_right (mul_nonneg hdnn Day_pos.le)
    _ ≤ pfOf m rels none now := hval

theorem backTask_as_limits (edges : List REdge) (tasks : List Task) (pf : ℚ)
    (task : Task) :
    backTask edges tasks pf task =
      (let limits := backLimits tasks (succsOf edges task.id)
       let lf0 : ℚ :=
         match limits.1 with
         | some v => v
         | none => max (task.EF.getD task.baseEF) pf
       let ls0 := lf0 - task.duration * Day
       let lsf : ℚ × ℚ :=
         match limits.2 with
         | some l => (min ls0 l, min ls0 l + task.duration * Day)
         | none => (ls0, lf0)
       { task with LF := some lsf.2, LS := some lsf.1 }) := rfl

theorem backLimits_fold_congr {A₁ A₂ : List Task}
    (hc : ∀ j, (lookupTask A₂ j).map edKey = (lookupTask A₁ j).map edKey) :
    ∀ (L : List REdge) (lim : Option ℚ × Option ℚ),
      L.foldl (fun (lim : Option ℚ × Option ℚ) rel =>
        match lookupTask A₂ rel.succ with
        | none => lim
        | some succ =>
          let lagMs := rel.Lag_d.getD 0 * Day
          let minWith (cur : Option ℚ) (v : ℚ) : Option ℚ :=
            some (match cur with | some c => min c v | none => v)
          match rel.rel with
          | .FS => (minWith lim.1 ((succ.ES.getD succ.baseES) - lagMs), lim.2)
          | .FF => (minWith lim.1 ((succ.EF.getD ((succ.ES.getD succ.baseES) + succ.duration * Day)) - lagMs), lim.2)
          | .SS => (lim.1, minWith lim.2 ((succ.ES.getD succ.baseES) - lagMs))
          | .SF => (lim.1, minWith lim.2 ((succ.EF.getD ((succ.ES.getD succ.baseES) + succ.duration * Day)) - lagMs))) lim =
      L.foldl (fun (lim : Option ℚ × Option ℚ) rel =>
        match lookupTask A₁ rel.succ with
        | none => lim
        | some succ =>
          let lagMs := rel.Lag_d.getD 0 * Day
          let minWith (cur : Option ℚ) (v : ℚ) : Option ℚ :=
            some (match cur with | some c => min c v | none => v)
          match rel.rel with
          | .FS => (minWith lim.1 ((succ.ES.getD succ.baseES) - lagMs), lim.2)
          | .FF => (minWith lim.1 ((succ.EF.getD ((succ.ES.getD succ.baseES) + succ.duration * Day)) - lagMs), lim.2)
          | .SS => (lim.1, minWith lim.2 ((succ.ES.getD succ.baseES) - lagMs))
          | .SF => (lim.1, minWith lim.2 ((succ.EF.getD ((succ.ES.getD succ.baseES) + succ.duration * Day)) - lagMs))) lim := by
  have hstep : ∀ (lim : Option ℚ × Option ℚ) (rel : REdge),
      (match lookupTask A₂ rel.succ with
        | none => lim
        | some succ =>
          let lagMs := rel.Lag_d.getD 0 * Day
          let minWith (cur : Option ℚ) (v : ℚ) : Option ℚ :=
            some (match cur with | some c => min c v | none => v)
          match rel.rel with
          | .FS => (minWith lim.1 ((succ.ES.getD succ.baseES) - lagMs), lim.2)
          | .FF => (minWith lim.1 ((succ.EF.getD ((succ.ES.getD succ.baseES) + succ.duration * Day)) - lagMs), lim.2)
          | .SS => (lim.1, minWith lim.2 ((succ.ES.getD succ.baseES) - lagMs))
          | .SF => (lim.1, minWith lim.2 ((succ.EF.getD ((succ.ES.getD succ.baseES) + succ.duration * Day)) - lagMs))) =
      (match lookupTask A₁ rel.succ with
        | none => lim
        | some succ =>
          let lagMs := rel.Lag_d.getD 0 * Day
          let minWith (cur : Option ℚ) (v : ℚ) : Option ℚ :=
            some (match cur with | some c => min c v | none => v)
          match rel.rel with
          | .FS => (minWith lim.1 ((succ.ES.getD succ.baseES) - lagMs), lim.2)
          | .FF => (minWith lim.1 ((succ.EF.getD ((succ.ES.getD succ.baseES) + succ.duration * Day)) - lagMs), lim.2)
          | .SS => (lim.1, minWith lim.2 ((succ.ES.getD succ.baseES) - lagMs))
          | .SF => (lim.1, minWith lim.2 ((succ.EF.getD ((succ.ES.getD succ.baseES) + succ.duration * Day)) - lagMs))) := by
    intro lim rel
    cases h₁ : lookupTask A₁ rel.succ with
    | none =>
      have h₂ : lookupTask A₂ rel.succ = none := by
        have hcj := hc rel.succ
        rw [h₁] at hcj
        exact Option.map_eq_none'.mp hcj
      rw [h₂]
    | some s₁ =>
      have hcj := hc rel.succ
      rw [h₁] at hcj
      rcases Option.map_eq_some'.mp hcj with ⟨s₂, h₂, hek⟩
      rw [h₂]
      have hes : s₂.ES.getD s₂.baseES = s₁.ES.getD s₁.baseES :=
        congrArg (fun p => p.2.1) hek
      have hefc : s₂.EF.getD ((s₂.ES.getD s₂.baseES) + s₂.duration * Day)
          = s₁.EF.getD ((s₁.ES.getD s₁.baseES) + s₁.duration * Day) :=
        congrArg (fun p => p.2.2) hek
      dsimp only
      cases rel.rel with
      | FS => rw [hes]
      | SS => rw [hes]
      | FF => rw [hefc]
      | SF => rw [hefc]
  intro L
  induction L with
  | nil => intro lim; rfl
  | cons rel rest ih =>
    intro lim
    rw [List.foldl_cons, List.foldl_cons, hstep lim rel]
    exact ih _

theorem backLimits_congr {A₁ A₂ : List Task}
    (hc : ∀ j, (lookupTask A₂ j).map edKey = (lookupTask A₁ j).map edKey)
    (L : List REdge) : backLimits A₂ L = backLimits A₁ L := by
  unfold backLimits
  exact backLimits_fold_congr hc L (none, none)

theorem backTask_late_congr (edges : List REdge) (pf : ℚ) {A₁ A₂ : List Task}
    (hc : ∀ j, (lookupTask A₂ j).map edKey = (lookupTask A₁ j).map edKey)
    {t₁ t₂ : Task} (hid : t₂.id = t₁.id) (hdur : t₂.duration = t₁.duration)
    (hef : t₂.EF.getD t₂.baseEF = t₁.EF.getD t₁.baseEF) :
    latePair (backTask edges A₂ pf t₂) = latePair (backTask edges A₁ pf t₁) := by
  rw [backTask_as_limits edges A₂ pf t₂, backTask_as_limits edges A₁ pf t₁]
  dsimp only
  rw [hid, backLimits_congr hc (succsOf edges t₁.id), hdur, hef]
  rfl

theorem backward_frame (edges : List REdge) (pf : ℚ) :
    ∀ (ord : List ℚ) (A : List Task) (k : ℚ), k ∉ ord →
      lookupTask (backward edges pf A ord) k = lookupTask A k := by
  intro ord
  induction ord with
  | nil => intro A k _; rfl
  | cons id rest ih =>
    intro A k hk
    have hkid : k ≠ id := fun hcon => hk (hcon ▸ List.mem_cons_self id rest)
    have hkrest : k ∉ rest := fun hcon => hk (List.mem_cons_of_mem id hcon)
    rw [backward_cons]
    rw [ih _ k hkrest]
    cases hl : lookupTask A id with
    | none => rw [backStep_of_none _ _ _ _ hl]
    | some task =>
      rw [backStep_of_some _ _ _ _ _ hl]
      have hfid : ∀ u : Task,
          ((fun u => if u.id = id then backTask edges A pf task else u) u).id
            = u.id := by
        intro u
        dsimp only
        by_cases h : u.id = id
        · rw [if_pos h]
          show task.id = u.id
          rw [lookupTask_eq_id hl, h]
        · rw [if_neg h]
      rw [lookupTask_map _ hfid]
      cases hlk : lookupTask A k with
      | none => rfl
      | some u =>
        have : u.id ≠ id := by rw [lookupTask_eq_id hlk]; exact hkid
        show some (if u.id = id then _ else u) = some u
        rw [if_neg this]

theorem backward_lookup_late (edges : List REdge) (pf : ℚ) (A : List Task)
    (hndA : (A.map (fun t => t.id)).Nodup) :
    ∀ (ord : List ℚ), ord.Nodup → ∀ (B : List Task),
      B.map statics = A.map statics → B.map datePair = A.map datePair →
      ∀ k ∈ ord, ∀ tA, lookupTask A k = some tA →
      ∃ t₃, lookupTask (backward edges pf B ord) k = some t₃ ∧
        latePair t₃ = latePair (backTask edges A pf tA) := by
  intro ord
  induction ord with
  | nil =>
    intro _ B _ _ k hk
    exact absurd hk (List.not_mem_nil k)
  | cons id rest ih =>
    intro hndord B hst hdp k hk tA hlA
    have hndB : (B.map (fun t => t.id)).Nodup := by
      rw [ids_eq_of_statics_eq hst]
      exact hndA
    rw [backward_cons]
    rcases List.mem_cons.mp hk with rfl | hk
    · have hkB : k ∈ B.map (fun t => t.id) := by
        rw [ids_eq_of_statics_eq hst]
        rw [← lookupTask_eq_id hlA]
        exact List.mem_map.mpr ⟨tA, lookupTask_mem hlA, rfl⟩
      obtain ⟨tB, hlB⟩ := lookupTask_some_of_mem hkB
      obtain ⟨tA', hlA', hstt, hdpt⟩ := lookup_corr_proj2 hst hdp hndA k tB hlB
      have htAA : tA' = tA := by
        rw [hlA] at hlA'
        exact (Option.some.inj hlA').symm
      rw [htAA] at hstt hdpt
      rw [backStep_of_some _ _ _ _ _ hlB]
      have hnotrest : k ∉ rest := (List.nodup_cons.mp hndord).1
      have hfid : ∀ u : Task,
          ((fun u => if u.id = k then backTask edges B pf tB else u) u).id
            = u.id := by
        intro u
        dsimp only
        by_cases h : u.id = k
        · rw [if_pos h]
          show tB.id = u.id
          rw [lookupTask_eq_id hlB, h]
        · rw [if_neg h]
      have hlook : lookupTask ((B.map
          (fun u => if u.id = k then backTask edges B pf tB else u))) k
          = some (backTask edges B pf tB) := by
        rw [lookupTask_map _ hfid, hlB]
        show some (if tB.id = k then _ else tB) = _
        rw [if_pos (lookupTask_eq_id hlB)]
      refine ⟨backTask edges B pf tB, ?_, ?_⟩
      · rw [backward_frame edges pf rest _ k hnotrest]
        exact hlook
      · refine backTask_late_congr edges pf (lookup_edKey_eq hst hdp hndA) ?_ ?_ ?_
        · rw [lookupTask_eq_id hlB, lookupTask_eq_id hlA]
        · exact congrArg (fun p => p.2.1) hstt
        · have hEF : tB.EF = tA.EF := congrArg Prod.snd hdpt
          have hbEF : tB.baseEF = tA.baseEF := congrArg (fun p => p.2.2.2.1) hstt
          rw [hEF, hbEF]
    · have hstep1 : (backStep edges pf B id).map statics = A.map statics := by
        have h := backward_proj statics (fun _ _ _ _ => rfl) edges pf [id] B hndB
        exact h.trans hst
      have hstep2 : (backStep edges pf B id).map datePair = A.map datePair := by
        have h := backward_proj datePair (fun _ _ _ _ => rfl) edges pf [id] B hndB
        exact h.trans hdp
      exact ih (List.nodup_cons.mp hndord).2 (backStep edges pf B id)
        hstep1 hstep2 k hk tA hlA

theorem fullOrder_nodup (m : List Task0) (rels : List Edge) (impact : Option Impact)
    (now : ℚ) (hnd : (m.map (fun u => u.id)).Nodup) :
    (fullOrderOf m rels impact now).Nodup := by
  have hnd2 : ((tasks2Of m rels impact now).map (fun t => t.id)).Nodup := by
    rw [tasks2_ids]
    exact hnd
  refine List.Nodup.append ((sEnd_inv m rels impact now hnd).1.topo_nd) ?_ ?_
  · refine List.Nodup.sublist ?_ hnd2
    exact List.Sublist.map _ (List.filter_sublist _)
  · intro a ha hb
    rcases List.mem_map.mp hb with ⟨t, htf, rfl⟩
    have := List.of_mem_filter htf
    simp only [decide_not, Bool.not_eq_true', decide_eq_false_iff_not] at this
    exact this (by simpa using ha)

theorem edges_reTask0_eq (m : List Task0) (rels : List Edge) (now now' : ℚ) :
    edgesOf (m.map (reTask0 (tasks4Of m rels none now))) rels none now'
      = edgesOf m rels none now := by
  rw [edgesOf_ids, edgesOf_ids, map_reTask0_ids]

theorem pf_eq (m : List Task0) (rels : List Edge) (now now' : ℚ) (hne : m ≠ [])
    (hnd : (m.map (fun u => u.id)).Nodup)
    (hal : ∀ t ∈ m, ∀ b, t.baseES = some b → ∃ z : ℤ, b = (z : ℚ) * Day)
    (b₀ : ℚ) (hmb : minBase m = some b₀)
    (H2 : ∀ t ∈ m, round2 t.duration = t.duration)
    (hdur : ∀ t ∈ m, 0 ≤ t.duration) :
    pfOf (m.map (reTask0 (tasks4Of m rels none now))) rels none now'
      = pfOf m rels none now := by
  have hnd' : ((m.map (reTask0 (tasks4Of m rels none now))).map
      (fun u => u.id)).Nodup := by
    rw [map_reTask0_ids]; exact hnd
  have hids' : (m.map (reTask0 (tasks4Of m rels none now))).map (fun u => u.id)
      = m.map (fun u => u.id) := map_reTask0_ids _ _
  have hval : ∀ k ∈ m.map (fun u => u.id), ∀ t₁ t₂,
      lookupTask (tasks2Of m rels none now) k = some t₁ →
      lookupTask (tasks2Of (m.map (reTask0 (tasks4Of m rels none now)))
        rels none now') k = some t₂ →
      t₂.EF.getD t₂.baseEF = t₁.EF.getD t₁.baseEF := by
    intro k hk t₁ t₂ hl1 hl2
    obtain ⟨_, _, hEF, es, _, hef⟩ :=
      tasks2_values_eq m rels now now' hnd hal b₀ hmb H2 k hk t₁ t₂ hl1 hl2
    rw [hEF, hef]
    rfl
  refine le_antisymm ?_ ?_
  · refine pf_le _ _ _ _ ?_ ?_
    · obtain ⟨b₂, hb₂⟩ := minBase_reTask0_some m rels now hne hnd
      show (minBase (m.map (reTask0 (tasks4Of m rels none now)))).getD now'
        ≤ pfOf m rels none now
      rw [hb₂]
      exact minBase_reTask0_le_pf m rels now hnd hdur b₂ hb₂
    · intro id hid t₂ hl2
      have hkm : id ∈ m.map (fun u => u.id) := by
        rw [← hids']
        exact fullOrder_sub _ rels none now' hnd' id hid
      obtain ⟨t₁, hl1⟩ := tasks2_lookup_exists m rels none now id hkm
      rw [hval id hkm t₁ t₂ hl1 hl2]
      exact pf_ge_elem _ _ _ id (fullOrder_mem m rels none now id hkm) t₁ hl1
  · refine pf_le _ _ _ _ ?_ ?_
    · show (minBase m).getD now
        ≤ pfOf (m.map (reTask0 (tasks4Of m rels none now))) rels none now'
      rw [hmb]
      obtain ⟨t0, ht0, hb0⟩ := minBase_mem m b₀ hmb
      have hkm : t0.id ∈ m.map (fun u => u.id) := List.mem_map.mpr ⟨t0, ht0, rfl⟩
      obtain ⟨t₁, hl1⟩ := tasks2_lookup_exists m rels none now t0.id hkm
      obtain ⟨t₂, hl2⟩ := tasks2_lookup_exists
        (m.map (reTask0 (tasks4Of m rels none now))) rels none now' t0.id
        (by rw [hids']; exact hkm)
      obtain ⟨⟨es, hes, hef⟩, _⟩ :=
        tasks2_shape m rels none now hnd t₁ (lookupTask_mem hl1)
      obtain ⟨t0', h0', hdur', hge⟩ := tasks2_lookup_base m rels now hnd t0.id t₁ hl1
      have ht0' : t0' = t0 := by
        rw [lookupTask0_of_mem hnd ht0] at h0'
        exact (Option.some.inj h0').symm
      have hb₀es : b₀ ≤ es := by
        have := hge es hes
        rw [ht0', hb0] at this
        exact this
      have hdnn : 0 ≤ t₁.duration := by
        rw [hdur', ht0']
        exact hdur t0 ht0
      have hval2 := pf_ge_elem
        (tasks2Of (m.map (reTask0 (tasks4Of m rels none now))) rels none now')
        (fullOrderOf (m.map (reTask0 (tasks4Of m rels none now))) rels none now')
        (defaultStartOf (m.map (reTask0 (tasks4Of m rels none now))) now')
        t0.id
        (fullOrder_mem _ rels none now' t0.id (by rw [hids']; exact hkm)) t₂ hl2
      have hv12 := hval t0.id hkm t₁ t₂ hl1 hl2
      rw [hv12, hef] at hval2
      have hgd : (some (es + t₁.duration * Day)).getD t₁.baseEF
          = es + t₁.duration * Day := rfl
      rw [hgd] at hval2
      calc b₀ ≤ es := hb₀es
        _ ≤ es + t₁.duration * Day :=
            le_add_of_nonneg_right (mul_nonneg hdnn Day_pos.le)
        _ ≤ _ := hval2
    · intro id hid t₁ hl1
      have hkm : id ∈ m.map (fun u => u.id) :=
        fullOrder_sub m rels none now hnd id hid
      obtain ⟨t₂, hl2⟩ := tasks2_lookup_exists
        (m.map (reTask0 (tasks4Of m rels none now))) rels none now' id
        (by rw [hids']; exact hkm)
      rw [← hval id hkm t₁ t₂ hl1 hl2]
      exact pf_ge_elem _ _ _ id
        (fullOrder_mem _ rels none now' id (by rw [hids']; exact hkm)) t₂ hl2

theorem lookup_edKey_cross (m : List Task0) (rels : List Edge) (now now' : ℚ)
    (hnd : (m.map (fun u => u.id)).Nodup)
    (hal : ∀ t ∈ m, ∀ b, t.baseES = some b → ∃ z : ℤ, b = (z : ℚ) * Day)
    (b₀ : ℚ) (hmb : minBase m = some b₀)
    (H2 : ∀ t ∈ m, round2 t.duration = t.duration) :
    ∀ j, (lookupTask (tasks2Of (m.map (reTask0 (tasks4Of m rels none now)))
        rels none now') j).map edKey
      = (lookupTask (tasks2Of m rels none now) j).map edKey := by
  intro j
  by_cases hj : j ∈ m.map (fun u => u.id)
  · obtain ⟨t₁, hl1⟩ := tasks2_lookup_exists m rels none now j hj
    obtain ⟨t₂, hl2⟩ := tasks2_lookup_exists
      (m.map (reTask0 (tasks4Of m rels none now))) rels none now' j
      (by rw [map_reTask0_ids]; exact hj)
    obtain ⟨hd, hES, hEF, es, hes, hef⟩ :=
      tasks2_values_eq m rels now now' hnd hal b₀ hmb H2 j hj t₁ t₂ hl1 hl2
    rw [hl1, hl2]
    show some (edKey t₂) = some (edKey t₁)
    have h1 : t₂.ES.getD t₂.baseES = t₁.ES.getD t₁.baseES := by
      rw [hES, hes]
      rfl
    have h2 : t₂.EF.getD ((t₂.ES.getD t₂.baseES) + t₂.duration * Day)
        = t₁.EF.getD ((t₁.ES.getD t₁.baseES) + t₁.duration * Day) := by
      rw [hEF, hef]
      rfl
    unfold edKey
    rw [h2, h1, hd]
  · have h1 : lookupTask (tasks2Of m rels none now) j = none := by
      refine lookup_none_iff_not_mem.mpr ?_
      rw [tasks2_ids]
      exact hj
    have h2 : lookupTask (tasks2Of (m.map (reTask0 (tasks4Of m rels none now)))
        rels none now') j = none := by
      refine lookup_none_iff_not_mem.mpr ?_
      rw [tasks2_ids, map_reTask0_ids]
      exact hj
    rw [h1, h2]

theorem tasks3_values_eq (m : List Task0) (rels : List Edge) (now now' : ℚ)
    (hne : m ≠ []) (hnd : (m.map (fun u => u.id)).Nodup)
    (hal : ∀ t ∈ m, ∀ b, t.baseES = some b → ∃ z : ℤ, b = (z : ℚ) * Day)
    (b₀ : ℚ) (hmb : minBase m = some b₀)
    (H2 : ∀ t ∈ m, round2 t.duration = t.duration)
    (hdur : ∀ t ∈ m, 0 ≤ t.duration) :
    ∀ k ∈ m.map (fun u => u.id), ∀ u₁ u₂,
      lookupTask (tasks3Of m rels none now) k = some u₁ →
      lookupTask (tasks3Of (m.map (reTask0 (tasks4Of m rels none now)))
        rels none now') k = some u₂ →
      u₂.duration = u₁.duration ∧ u₂.ES = u₁.ES ∧ u₂.EF = u₁.EF ∧
      u₂.LS = u₁.LS ∧ u₂.LF = u₁.LF ∧
      (∃ es, u₁.ES = some es ∧ u₁.EF = some (es + u₁.duration * Day)) ∧
      (∃ ls, u₁.LS = some ls ∧ u₁.LF = some (ls + u₁.duration * Day)) := by
  intro k hk u₁ u₂ hl31 hl32
  have hnd2₁ : ((tasks2Of m rels none now).map (fun t => t.id)).Nodup := by
    rw [tasks2_ids]; exact hnd
  have hnd2₂ : ((tasks2Of (m.map (reTask0 (tasks4Of m rels none now)))
      rels none now').map (fun t => t.id)).Nodup := by
    rw [tasks2_ids, map_reTask0_ids]; exact hnd
  have hst31 : (tasks3Of m rels none now).map statics
      = (tasks2Of m rels none now).map statics :=
    backward_proj statics (fun _ _ _ _ => rfl) _ _ _ _ hnd2₁
  have hdp31 : (tasks3Of m rels none now).map datePair
      = (tasks2Of m rels none now).map datePair :=
    backward_proj datePair (fun _ _ _ _ => rfl) _ _ _ _ hnd2₁
  have hst32 : (tasks3Of (m.map (reTask0 (tasks4Of m rels none now)))
      rels none now').map statics
      = (tasks2Of (m.map (reTask0 (tasks4Of m rels none now)))
        rels none now').map statics :=
    backward_proj statics (fun _ _ _ _ => rfl) _ _ _ _ hnd2₂
  have hdp32 : (tasks3Of (m.map (reTask0 (tasks4Of m rels none now)))
      rels none now').map datePair
      = (tasks2Of (m.map (reTask0 (tasks4Of m rels none now)))
        rels none now').map datePair :=
    backward_proj datePair (fun _ _ _ _ => rfl) _ _ _ _ hnd2₂
  obtain ⟨t₁, hl21, hst1, hdp1⟩ := lookup_corr_proj2 hst31 hdp31 hnd2₁ k u₁ hl31
  obtain ⟨t₂, hl22, hst2, hdp2⟩ := lookup_corr_proj2 hst32 hdp32 hnd2₂ k u₂ hl32
  obtain ⟨hcd, hcES, hcEF, es, hes, hef⟩ :=
    tasks2_values_eq m rels now now' hnd hal b₀ hmb H2 k hk t₁ t₂ hl21 hl22
  have hdu1 : u₁.duration = t₁.duration := congrArg (fun p => p.2.1) hst1
  have hdu2 : u₂.duration = t₂.duration := congrArg (fun p => p.2.1) hst2
  have hES1 : u₁.ES = t₁.ES := congrArg Prod.fst hdp1
  have hES2 : u₂.ES = t₂.ES := congrArg Prod.fst hdp2
  have hEF1 : u₁.EF = t₁.EF := congrArg Prod.snd hdp1
  have hEF2 : u₂.EF = t₂.EF := congrArg Prod.snd hdp2
  have hord1 : ((fullOrderOf m rels none now).reverse).Nodup :=
    List.nodup_reverse.mpr (fullOrder_nodup m rels none now hnd)
  have hord2 : ((fullOrderOf (m.map (reTask0 (tasks4Of m rels none now)))
      rels none now').reverse).Nodup :=
    List.nodup_reverse.mpr (fullOrder_nodup _ rels none now'
      (by rw [map_reTask0_ids]; exact hnd))
  have hmem1 : k ∈ (fullOrderOf m rels none now).reverse :=
    List.mem_reverse.mpr (fullOrder_mem m rels none now k hk)
  have hmem2 : k ∈ (fullOrderOf (m.map (reTask0 (tasks4Of m rels none now)))
      rels none now').reverse :=
    List.mem_reverse.mpr (fullOrder_mem _ rels none now' k
      (by rw [map_reTask0_ids]; exact hk))
  obtain ⟨t₃, hlt₃, hlate₁⟩ := backward_lookup_late (edgesOf m rels none now)
    (pfOf m rels none now) (tasks2Of m rels none now) hnd2₁
    (fullOrderOf m rels none now).reverse hord1
    (tasks2Of m rels none now) rfl rfl k hmem1 t₁ hl21
  have ht₃ : t₃ = u₁ := by
    have : lookupTask (tasks3Of m rels none now) k = some t₃ := hlt₃
    rw [hl31] at this
    exact (Option.some.inj this).symm
  rw [ht₃] at hlate₁
  have heq2 : tasks3Of (m.map (reTask0 (tasks4Of m rels none now))) rels none now'
      = backward (edgesOf m rels none now) (pfOf m rels none now)
        (tasks2Of (m.map (reTask0 (tasks4Of m rels none now))) rels none now')
        (fullOrderOf (m.map (reTask0 (tasks4Of m rels none now)))
          rels none now').reverse := by
    unfold tasks3Of
    rw [edges_reTask0_eq, pf_eq m rels now now' hne hnd hal b₀ hmb H2 hdur]
  rw [heq2] at hl32
  obtain ⟨t₄, hlt₄, hlate₂⟩ := backward_lookup_late (edgesOf m rels none now)
    (pfOf m rels none now)
    (tasks2Of (m.map (reTask0 (tasks4Of m rels none now))) rels none now') hnd2₂
    (fullOrderOf (m.map (reTask0 (tasks4Of m rels none now)))
      rels none now').reverse hord2
    (tasks2Of (m.map (reTask0 (tasks4Of m rels none now))) rels none now')
    rfl rfl k hmem2 t₂ hl22
  have ht₄ : t₄ = u₂ := by
    rw [hl32] at hlt₄
    exact (Option.some.inj hlt₄).symm
  rw [ht₄] at hlate₂
  have hid12 : t₂.id = t₁.id := by
    rw [lookupTask_eq_id hl22, lookupTask_eq_id hl21]
  have hef12 : t₂.EF.getD t₂.baseEF = t₁.EF.getD t₁.baseEF := by
    rw [hcEF, hef]
    rfl
  have hlatec : latePair (backTask (edgesOf m rels none now)
      (tasks2Of (m.map (reTask0 (tasks4Of m rels none now))) rels none now')
      (pfOf m rels none now) t₂)
      = latePair (backTask (edgesOf m rels none now) (tasks2Of m rels none now)
        (pfOf m rels none now) t₁) :=
    backTask_late_congr _ _
      (lookup_edKey_cross m rels now now' hnd hal b₀ hmb H2) hid12 hcd hef12
  have hlate : latePair u₂ = latePair u₁ := by
    rw [hlate₂, hlatec, ← hlate₁]
  refine ⟨?_, ?_, ?_, ?_, ?_, ?_, ?_⟩
  · rw [hdu1, hdu2, hcd]
  · rw [hES1, hES2, hcES]
  · rw [hEF1, hEF2, hcEF]
  · exact congrArg Prod.fst hlate
  · exact congrArg Prod.snd hlate
  · exact ⟨es, by rw [hES1]; exact hes, by rw [hEF1, hef, hdu1]⟩
  · have hcov : ∀ u ∈ tasks2Of m rels none now,
        u.id ∈ (fullOrderOf m rels none now).reverse ∨
          ∃ ls, u.LS = some ls ∧ u.LF = some (ls + u.duration * Day) := by
      intro u hu
      exact Or.inl (List.mem_reverse.mpr (mem_topoOrderOf _ _ u hu))
    have hlsh := backward_lateShape (edgesOf m rels none now)
      (pfOf m rels none now) (fullOrderOf m rels none now).reverse
      (tasks2Of m rels none now) hcov u₁ (lookupTask_mem hl31)
    exact hlsh

theorem floatTask_as_min (edges : List REdge) (tasks : List Task) (d : ℚ)
    (task : Task) :
    floatTask edges tasks d task =
      (let tfMs := (task.LS.getD (task.ES.getD d)) - (task.ES.getD d)
       let tf : ℚ := (jsRound (tfMs / Day) : ℤ)
       let minConstraint := floatMin tasks (succsOf edges task.id)
       let ff : ℚ :=
         match minConstraint with
         | some m =>
           let ffMs := m - (task.EF.getD ((task.ES.getD task.baseES) + task.duration * Day))
           max 0 ((jsRound (ffMs / Day) : ℤ) : ℚ)
         | none => max 0 tf
       { task with TotalFloat_d := tf, FreeFloat_d := ff }) := rfl

theorem floatMin_fold_congr {A₁ A₂ : List Task}
    (hc : ∀ j, (lookupTask A₂ j).map edKey = (lookupTask A₁ j).map edKey) :
    ∀ (L : List REdge) (cur : Option ℚ),
      L.foldl (fun (cur : Option ℚ) rel =>
        match lookupTask A₂ rel.succ with
        | none => cur
        | some succ =>
          let lagMs := rel.Lag_d.getD 0 * Day
          match rel.rel with
          | .FS => some (match cur with
              | some c => min c ((succ.ES.getD succ.baseES) - lagMs)
              | none => (succ.ES.getD succ.baseES) - lagMs)
          | .FF => some (match cur with
              | some c => min c ((succ.EF.getD ((succ.ES.getD succ.baseES) + succ.duration * Day)) - lagMs)
              | none => (succ.EF.getD ((succ.ES.getD succ.baseES) + succ.duration * Day)) - lagMs)
          | _ => cur) cur =
      L.foldl (fun (cur : Option ℚ) rel =>
        match lookupTask A₁ rel.succ with
        | none => cur
        | some succ =>
          let lagMs := rel.Lag_d.getD 0 * Day
          match rel.rel with
          | .FS => some (match cur with
              | some c => min c ((succ.ES.getD succ.baseES) - lagMs)
              | none => (succ.ES.getD succ.baseES) - lagMs)
          | .FF => some (match cur with
              | some c => min c ((succ.EF.getD ((succ.ES.getD succ.baseES) + succ.duration * Day)) - lagMs)
              | none => (succ.EF.getD ((succ.ES.getD succ.baseES) + succ.duration * Day)) - lagMs)
          | _ => cur) cur := by
  have hstep : ∀ (cur : Option ℚ) (rel : REdge),
      (match lookupTask A₂ rel.succ with
        | none => cur
        | some succ =>
          let lagMs := rel.Lag_d.getD 0 * Day
          match rel.rel with
          | .FS => some (match cur with
              | some c => min c ((succ.ES.getD succ.baseES) - lagMs)
              | none => (succ.ES.getD succ.baseES) - lagMs)
          | .FF => some (match cur with
              | some c => min c ((succ.EF.getD ((succ.ES.getD succ.baseES) + succ.duration * Day)) - lagMs)
              | none => (succ.EF.getD ((succ.ES.getD succ.baseES) + succ.duration * Day)) - lagMs)
          | _ => cur) =
      (match lookupTask A₁ rel.succ with
        | none => cur
        | some succ =>
          let lagMs := rel.Lag_d.getD 0 * Day
          match rel.rel with
          | .FS => some (match cur with
              | some c => min c ((succ.ES.getD succ.baseES) - lagMs)
              | none => (succ.ES.getD succ.baseES) - lagMs)
          | .FF => some (match cur with
              | some c => min c ((succ.EF.getD ((succ.ES.getD succ.baseES) + succ.duration * Day)) - lagMs)
              | none => (succ.EF.getD ((succ.ES.getD succ.baseES) + succ.duration * Day)) - lagMs)
          | _ => cur) := by
    intro cur rel
    cases h₁ : lookupTask A₁ rel.succ with
    | none =>
      have h₂ : lookupTask A₂ rel.succ = none := by
        have hcj := hc rel.succ
        rw [h₁] at hcj
        exact Option.map_eq_none'.mp hcj
      rw [h₂]
    | some s₁ =>
      have hcj := hc rel.succ
      rw [h₁] at hcj
      rcases Option.map_eq_some'.mp hcj with ⟨s₂, h₂, hek⟩
      rw [h₂]
      have hes : s₂.ES.getD s₂.baseES = s₁.ES.getD s₁.baseES :=
        congrArg (fun p => p.2.1) hek
      have hefc : s₂.EF.getD ((s₂.ES.getD s₂.baseES) + s₂.duration * Day)
          = s₁.EF.getD ((s₁.ES.getD s₁.baseES) + s₁.duration * Day) :=
        congrArg (fun p => p.2.2) hek
      dsimp only
      cases rel.rel with
      | FS => rw [hes]
      | SS => rfl
      | FF => rw [hefc]
      | SF => rfl
  intro L
  induction L with
  | nil => intro cur; rfl
  | cons rel rest ih =>
    intro cur
    rw [List.foldl_cons, List.foldl_cons, hstep cur rel]
    exact ih _

theorem floatMin_congr {A₁ A₂ : List Task}
    (hc : ∀ j, (lookupTask A₂ j).map edKey = (lookupTask A₁ j).map edKey)
    (L : List REdge) : floatMin A₂ L = floatMin A₁ L := by
  unfold floatMin
  exact floatMin_fold_congr hc L none

theorem floatTask_floats_congr (edges : List REdge) (d₁ d₂ : ℚ) {A₁ A₂ : List Task}
    (hc : ∀ j, (lookupTask A₂ j).map edKey = (lookupTask A₁ j).map edKey)
    {t₁ t₂ : Task} (hid : t₂.id = t₁.id) (hdur : t₂.duration = t₁.duration)
    (es ls ef : ℚ) (hES1 : t₁.ES = some es) (hES2 : t₂.ES = some es)
    (hLS1 : t₁.LS = some ls) (hLS2 : t₂.LS = some ls)
    (hEF1 : t₁.EF = some ef) (hEF2 : t₂.EF = some ef) :
    floats (floatTask edges A₂ d₂ t₂) = floats (floatTask edges A₁ d₁ t₁) := by
  rw [floatTask_as_min edges A₂ d₂ t₂, floatTask_as_min edges A₁ d₁ t₁]
  dsimp only
  rw [hid, floatMin_congr hc (succsOf edges t₁.id), hdur, hES1, hES2, hLS1, hLS2,
    hEF1, hEF2]
  rfl

theorem tasks4_values_eq (m : List Task0) (rels : List Edge) (now now' : ℚ)
    (hne : m ≠ []) (hnd : (m.map (fun u => u.id)).Nodup)
    (hal : ∀ t ∈ m, ∀ b, t.baseES = some b → ∃ z : ℤ, b = (z : ℚ) * Day)
    (b₀ : ℚ) (hmb : minBase m = some b₀)
    (H2 : ∀ t ∈ m, round2 t.duration = t.duration)
    (hdur : ∀ t ∈ m, 0 ≤ t.duration) :
    ∀ k ∈ m.map (fun u => u.id), ∀ v₁ v₂,
      lookupTask (tasks4Of m rels none now) k = some v₁ →
      lookupTask (tasks4Of (m.map (reTask0 (tasks4Of m rels none now)))
        rels none now') k = some v₂ →
      v₂.duration = v₁.duration ∧ v₂.ES = v₁.ES ∧ v₂.EF = v₁.EF ∧
      v₂.LS = v₁.LS ∧ v₂.LF = v₁.LF ∧
      v₂.TotalFloat_d = v₁.TotalFloat_d ∧ v₂.FreeFloat_d = v₁.FreeFloat_d := by
  intro k hk v₁ v₂ hl41 hl42
  have hfl_id : ∀ (edges : List REdge) (S : List Task) (d : ℚ) (t : Task),
      (floatTask edges S d t).id = t.id := fun _ _ _ _ => rfl
  rw [show tasks4Of m rels none now = (tasks3Of m rels none now).map
      (floatTask (edgesOf m rels none now) (tasks3Of m rels none now)
        (defaultStartOf m now)) from rfl,
    lookupTask_map _ (hfl_id _ _ _)] at hl41
  rw [show tasks4Of (m.map (reTask0 (tasks4Of m rels none now))) rels none now'
      = (tasks3Of (m.map (reTask0 (tasks4Of m rels none now))) rels none now').map
        (floatTask (edgesOf (m.map (reTask0 (tasks4Of m rels none now)))
            rels none now')
          (tasks3Of (m.map (reTask0 (tasks4Of m rels none now))) rels none now')
          (defaultStartOf (m.map (reTask0 (tasks4Of m rels none now))) now'))
      from rfl,
    lookupTask_map _ (hfl_id _ _ _)] at hl42
  rcases Option.map_eq_some'.mp hl41 with ⟨u₁, hl31, hv₁⟩
  rcases Option.map_eq_some'.mp hl42 with ⟨u₂, hl32, hv₂⟩
  obtain ⟨hcd, hcES, hcEF, hcLS, hcLF, ⟨es, hes, hef⟩, ls, hls, hlf⟩ :=
    tasks3_values_eq m rels now now' hne hnd hal b₀ hmb H2 hdur k hk u₁ u₂ hl31 hl32
  have hnd2₁ : ((tasks2Of m rels none now).map (fun t => t.id)).Nodup := by
    rw [tasks2_ids]; exact hnd
  have hnd2₂ : ((tasks2Of (m.map (reTask0 (tasks4Of m rels none now)))
      rels none now').map (fun t => t.id)).Nodup := by
    rw [tasks2_ids, map_reTask0_ids]; exact hnd
  have hst31 : (tasks3Of m rels none now).map statics
      = (tasks2Of m rels none now).map statics :=
    backward_proj statics (fun _ _ _ _ => rfl) _ _ _ _ hnd2₁
  have hdp31 : (tasks3Of m rels none now).map datePair
      = (tasks2Of m rels none now).map datePair :=
    backward_proj datePair (fun _ _ _ _ => rfl) _ _ _ _ hnd2₁
  have hst32 : (tasks3Of (m.map (reTask0 (tasks4Of m rels none now)))
      rels none now').map statics
      = (tasks2Of (m.map (reTask0 (tasks4Of m rels none now)))
        rels none now').map statics :=
    backward_proj statics (fun _ _ _ _ => rfl) _ _ _ _ hnd2₂
  have hdp32 : (tasks3Of (m.map (reTask0 (tasks4Of m rels none now)))
      rels none now').map datePair
      = (tasks2Of (m.map (reTask0 (tasks4Of m rels none now)))
        rels none now').map datePair :=
    backward_proj datePair (fun _ _ _ _ => rfl) _ _ _ _ hnd2₂
  have hnd3₁ : ((tasks3Of m rels none now).map (fun t => t.id)).Nodup := by
    rw [ids_eq_of_statics_eq hst31]; exact hnd2₁
  have hnd3₂ : ((tasks3Of (m.map (reTask0 (tasks4Of m rels none now)))
      rels none now').map (fun t => t.id)).Nodup := by
    rw [ids_eq_of_statics_eq hst32]; exact hnd2₂
  have hc3 : ∀ j, (lookupTask (tasks3Of (m.map (reTask0 (tasks4Of m rels none now)))
      rels none now') j).map edKey
      = (lookupTask (tasks3Of m rels none now) j).map edKey := by
    intro j
    calc (lookupTask (tasks3Of (m.map (reTask0 (tasks4Of m rels none now)))
        rels none now') j).map edKey
        = (lookupTask (tasks2Of (m.map (reTask0 (tasks4Of m rels none now)))
          rels none now') j).map edKey := lookup_edKey_eq hst32 hdp32 hnd2₂ j
      _ = (lookupTask (tasks2Of m rels none now) j).map edKey :=
          lookup_edKey_cross m rels now now' hnd hal b₀ hmb H2 j
      _ = (lookupTask (tasks3Of m rels none now) j).map edKey :=
          (lookup_edKey_eq hst31 hdp31 hnd2₁ j).symm
  have hid12 : u₂.id = u₁.id := by
    rw [lookupTask_eq_id hl32, lookupTask_eq_id hl31]
  have hES2v : u₂.ES = some es := by rw [hcES, hes]
  have hLS2v : u₂.LS = some ls := by rw [hcLS, hls]
  have hEF2v : u₂.EF = some (es + u₁.duration * Day) := by rw [hcEF, hef]
  have hfl := floatTask_floats_congr (edgesOf m rels none now)
    (defaultStartOf m now)
    (defaultStartOf (m.map (reTask0 (tasks4Of m rels none now))) now')
    hc3 hid12 hcd es ls (es + u₁.duration * Day) hes hES2v hls hLS2v hef hEF2v
  have hE2 : edgesOf (m.map (reTask0 (tasks4Of m rels none now))) rels none now'
      = edgesOf m rels none now := edges_reTask0_eq m rels now now'
  rw [hE2] at hv₂
  have hTF : v₂.TotalFloat_d = v₁.TotalFloat_d := by
    rw [← hv₁, ← hv₂]
    exact congrArg Prod.fst hfl
  have hFF2 : v₂.FreeFloat_d = v₁.FreeFloat_d := by
    rw [← hv₁, ← hv₂]
    exact congrArg Prod.snd hfl
  refine ⟨?_, ?_, ?_, ?_, ?_, hTF, hFF2⟩
  · rw [← hv₁, ← hv₂]
    exact hcd
  · rw [← hv₁, ← hv₂]
    exact hcES
  · rw [← hv₁, ← hv₂]
    exact hcEF
  · rw [← hv₁, ← hv₂]
    exact hcLS
  · rw [← hv₁, ← hv₂]
    exact hcLF

theorem emitRow_solved (T : List Task) (row : Row) (id : ℚ) (task : Task)
    (hact : row.ActivityID = some id) (hlk : lookupTask T id = some task)
    (es ls : ℚ) (hES : task.ES = some es)
    (hEF : task.EF = some (es + task.duration * Day))
    (hLS : task.LS = some ls) (hLF : task.LF = some (ls + task.duration * Day)) :
    emitRow T row = { row with
      ES := some (dayFloor es),
      EF := some (dayFloor (es + task.duration * Day)),
      LS := some (dayFloor ls),
      LF := some (dayFloor (ls + task.duration * Day)),
      DurDays := some (round2 task.duration),
      TotalFloat_d := some task.TotalFloat_d,
      FreeFloat_d := some task.FreeFloat_d } := by
  unfold emitRow
  rw [hact]
  dsimp only
  rw [hlk]
  dsimp only
  rw [hES, hEF, hLS, hLF]
  rfl

theorem tasks4_dur_nonneg (m : List Task0) (rels : List Edge) (now : ℚ)
    (hnd : (m.map (fun u => u.id)).Nodup) (hdur0 : ∀ t ∈ m, 0 ≤ t.duration) :
    ∀ k ∈ m.map (fun u => u.id), ∀ v,
      lookupTask (tasks4Of m rels none now) k = some v → 0 ≤ v.duration := by
  intro k hk v hl
  obtain ⟨tS, hlS⟩ := sEnd_lookup_exists m rels none now hnd k hk
  obtain ⟨t4, hl4, h4dur, _⟩ := tasks4_lookup_dates m rels none now hnd k tS hlS
  have ht4 : t4 = v := by
    rw [hl] at hl4
    exact (Option.some.inj hl4).symm
  rw [← ht4, h4dur]
  obtain ⟨t0, h0, hdur', _⟩ := sEnd_lookup_base m rels none now hnd k tS hlS rfl
  rw [hdur']
  exact hdur0 t0 (lookupTask0_mem h0)

theorem emit_fixed (m : List Task0) (rels : List Edge) (now now' : ℚ)
    (hne : m ≠ []) (hnd : (m.map (fun u => u.id)).Nodup)
    (hal : ∀ t ∈ m, ∀ b, t.baseES = some b → ∃ z : ℤ, b = (z : ℚ) * Day)
    (b₀ : ℚ) (hmb : minBase m = some b₀)
    (H2 : ∀ t ∈ m, round2 t.duration = t.duration)
    (hdur : ∀ t ∈ m, 0 ≤ t.duration) :
    ∀ row : Row,
      emitRow (tasks4Of (m.map (reTask0 (tasks4Of m rels none now))) rels none now')
        (emitRow (tasks4Of m rels none now) row)
      = emitRow (tasks4Of m rels none now) row := by
  intro row
  cases hact : row.ActivityID with
  | none =>
    rw [emitRow_of_id_none _ _ hact, emitRow_of_id_none _ _ hact]
  | some id =>
    by_cases hid : id ∈ m.map (fun u => u.id)
    · obtain ⟨v₁, hl41⟩ := lookupTask_some_of_mem
        (by rw [tasks4_ids m rels none now hnd]; exact hid :
          id ∈ (tasks4Of m rels none now).map (fun t => t.id))
      obtain ⟨v₂, hl42⟩ := lookupTask_some_of_mem
        (by rw [tasks4_ids _ rels none now' (by rw [map_reTask0_ids]; exact hnd),
              map_reTask0_ids]
            exact hid :
          id ∈ (tasks4Of (m.map (reTask0 (tasks4Of m rels none now)))
            rels none now').map (fun t => t.id))
      obtain ⟨hcd, hcES, hcEF, hcLS, hcLF, hcTF, hcFF⟩ :=
        tasks4_values_eq m rels now now' hne hnd hal b₀ hmb H2 hdur id hid
          v₁ v₂ hl41 hl42
      obtain ⟨⟨es, hes, hef⟩, ⟨ls, hls, hlf⟩, _⟩ :=
        tasks4Of_shapes m rels none now hnd v₁ (lookupTask_mem hl41)
      have hr1 := emitRow_solved (tasks4Of m rels none now) row id v₁ hact hl41
        es ls hes hef hls hlf
      have hact2 : (emitRow (tasks4Of m rels none now) row).ActivityID = some id := by
        rw [emitRow_ActivityID]
        exact hact
      have hes2 : v₂.ES = some es := by rw [hcES, hes]
      have hef2 : v₂.EF = some (es + v₂.duration * Day) := by
        rw [hcEF, hef, hcd]
      have hls2 : v₂.LS = some ls := by rw [hcLS, hls]
      have hlf2 : v₂.LF = some (ls + v₂.duration * Day) := by
        rw [hcLF, hlf, hcd]
      have hr2 := emitRow_solved
        (tasks4Of (m.map (reTask0 (tasks4Of m rels none now))) rels none now')
        (emitRow (tasks4Of m rels none now) row) id v₂ hact2 hl42
        es ls hes2 hef2 hls2 hlf2
      rw [hr2, hcd, hcTF, hcFF, hr1]
    · have h1 : lookupTask (tasks4Of m rels none now) id = none := by
        refine lookup_none_iff_not_mem.mpr ?_
        rw [tasks4_ids m rels none now hnd]
        exact hid
      have h2 : lookupTask (tasks4Of (m.map (reTask0 (tasks4Of m rels none now)))
          rels none now') id = none := by
        refine lookup_none_iff_not_mem.mpr ?_
        rw [tasks4_ids _ rels none now' (by rw [map_reTask0_ids]; exact hnd),
          map_reTask0_ids]
        exact hid
      rw [emitRow_of_lookup_none _ _ _ hact h1,
        emitRow_of_lookup_none _ _ _ hact h2]

theorem idMapOf_emit (rows : List Row) (rels : List Edge) (now : ℚ) :
    idMapOf (rows.map (emitRow (tasks4Of (idMapOf rows) rels none now)))
      = (idMapOf rows).map (reTask0 (tasks4Of (idMapOf rows) rels none now)) := by
  refine idMapOf_map rows _ _ (reTask0_id _) (emitRow_ActivityID _) ?_
  intro row hrow id hact
  have hnd := idMapOf_nodup rows
  have hkid : id ∈ (idMapOf rows).map (fun u => u.id) :=
    idMapOf_mem_ids rows row hrow id hact
  obtain ⟨task, hl4⟩ := lookupTask_some_of_mem
    (by rw [tasks4_ids _ rels none now hnd]; exact hkid :
      id ∈ (tasks4Of (idMapOf rows) rels none now).map (fun t => t.id))
  obtain ⟨⟨es, hes, hef⟩, ⟨ls, hls, hlf⟩, _⟩ :=
    tasks4Of_shapes (idMapOf rows) rels none now hnd task (lookupTask_mem hl4)
  have hdn : 0 ≤ task.duration :=
    tasks4_dur_nonneg (idMapOf rows) rels now hnd (idMapOf_dur_nonneg rows)
      id hkid task hl4
  have hre : reTask0 (tasks4Of (idMapOf rows) rels none now) (mkTask0 row id)
      = task0OfSolved task id := by
    unfold reTask0
    rw [show (mkTask0 row id).id = id from rfl, hl4]
  rw [hre]
  exact mkTask0_emit _ row id task hact hl4 es ls hes hef hls hlf hdn

/-- **C4 (counterexample).** The claim equates a no-impact re-solve with
restoring the untouched baseline rows (what `clearScenarioView` shows).  The
code disagrees on the single-activity input with ES day 0, EF day 2 and an
explicit 1-day duration: the re-solve recomputes EF to day 1 and fills the
float columns, so `simulateScenario(rows, [], null)` differs from the raw
rows. -/
theorem simulate_reset_not_baseline :
    simulateScenario c4Rows [] none 0 ≠ c4Rows := by
  with_unfolding_all decide

/-- **C4 (amended).** Re-solving an already-solved schedule is a fixed point:
on any row set whose activity map has at least one parseable baseline early
start (so the default epoch is the day-aligned minimum rather than the clock)
and whose durations survive the emitted 2-decimal rounding, running
`simulateScenario` with no impact on its own output — at any later clock —
returns that output unchanged. -/
theorem simulate_reset_idempotent (rows : List Row) (rels : List Edge)
    (now now' : ℚ)
    (H1 : ∃ b₀, minBase (idMapOf rows) = some b₀)
    (H2 : ∀ t ∈ idMapOf rows, round2 t.duration = t.duration) :
    simulateScenario (simulateScenario rows rels none now) rels none now'
      = simulateScenario rows rels none now := by
  by_cases hrnil : rows = []
  · subst hrnil
    rfl
  · obtain ⟨b₀, hmb⟩ := H1
    have hmne : idMapOf rows ≠ [] := by
      intro h
      rw [h] at hmb
      exact Option.noConfusion hmb
    have h1 : simulateScenario rows rels none now
        = rows.map (emitRow (tasks4Of (idMapOf rows) rels none now)) :=
      simulateScenario_eq_map rows rels none now hmne
    have hm2 : idMapOf (rows.map (emitRow (tasks4Of (idMapOf rows) rels none now)))
        = (idMapOf rows).map (reTask0 (tasks4Of (idMapOf rows) rels none now)) :=
      idMapOf_emit rows rels now
    have hm2ne : idMapOf (rows.map
        (emitRow (tasks4Of (idMapOf rows) rels none now))) ≠ [] := by
      rw [hm2]
      intro h
      exact hmne (List.map_eq_nil_iff.mp h)
    have h2 : simulateScenario
        (rows.map (emitRow (tasks4Of (idMapOf rows) rels none now))) rels none now'
        = (rows.map (emitRow (tasks4Of (idMapOf rows) rels none now))).map
          (emitRow (tasks4Of (idMapOf (rows.map
            (emitRow (tasks4Of (idMapOf rows) rels none now)))) rels none now')) :=
      simulateScenario_eq_map _ rels none now' hm2ne
    rw [h1, h2, hm2, List.map_map]
    refine List.map_congr_left (fun row _ => ?_)
    exact emit_fixed (idMapOf rows) rels now now' hmne (idMapOf_nodup rows)
      (idMapOf_baseES_aligned rows) b₀ hmb H2 (idMapOf_dur_nonneg rows) row

/-- Witness: the amended fixed-point theorem applied to the concrete one-row
baseline with ES day 0 and duration 1, whose hypotheses hold by computation. -/
theorem simulate_reset_idempotent_witness :
    (∃ b₀, minBase (idMapOf c4Rows) = some b₀) ∧
    (∀ t ∈ idMapOf c4Rows, round2 t.duration = t.duration) ∧
    simulateScenario (simulateScenario c4Rows [] none 0) [] none 0
      = simulateScenario c4Rows [] none 0 :=
  ⟨⟨0, by with_unfolding_all decide⟩,
   by intro t ht; revert ht; revert t; with_unfolding_all decide,
   simulate_reset_idempotent c4Rows [] 0 0 ⟨0, by with_unfolding_all decide⟩
     (by intro t ht; revert ht; revert t; with_unfolding_all decide)⟩

end Gantt
